import Mathlib

/-!
# Go_Progarm_Basics: the concurrency examples as interleaving state machines

The goroutines of `advanced/21_advanced_concurrency/main.go` and
`intermediate/16_channels/main.go` are embedded as step functions on explicit
states.  An action names the goroutine (and the operation) that moves next; a
schedule is a list of actions, and `runSched` replays it, failing when an action
is not enabled (its goroutine is blocked or has returned).  A send on an
unbuffered channel and the matching receive are one step, taken when sender and
receiver are both at the operation.
-/

namespace GoBasics

/-! ## Go `int` -/

/-- Width of Go's `int` on the 64-bit platforms. -/
def intBits : Nat := 64

/-- Two's-complement wrap-around of a mathematical integer into `int`. -/
def wrapInt (x : Int) : Int :=
  (x + 2 ^ (intBits - 1)) % 2 ^ intBits - 2 ^ (intBits - 1)

/-- Go's `a * b` on `int`. -/
def mulInt (a b : Int) : Int := wrapInt (a * b)

/-- Go's `a + b` on `int`. -/
def addInt (a b : Int) : Int := wrapInt (a + b)

/-- Whether a mathematical integer is representable as an `int`. -/
def InInt (x : Int) : Prop := -(2 ^ (intBits - 1)) ≤ x ∧ x < 2 ^ (intBits - 1)

/-! ## Schedules -/

/-- Replay a schedule from a state; `none` when some action is not enabled. -/
def runSched {σ α : Type} (step : σ → α → Option σ) : σ → List α → Option σ
  | s, [] => some s
  | s, a :: as =>
    match step s a with
    | none => none
    | some s' => runSched step s' as

/-- No action is enabled: every goroutine is blocked or has returned. -/
def Stuck {σ α : Type} (step : σ → α → Option σ) (s : σ) : Prop :=
  ∀ a, step s a = none

/-! ## Pattern 2: `producer`, `square`, `pipeline` -/

namespace Pipeline

/-- Control point of the goroutine started by `square`. -/
inductive StagePc where
  /-- at `for n := range in`, waiting for an item or for the close of `in` -/
  | recv
  /-- at `out <- n * n`, holding the item `n` it received -/
  | send (n : Int)
  /-- the range loop has ended, the deferred `close(out)` has not run yet -/
  | exiting
  /-- the deferred `close(out)` has run -/
  | closed
  deriving DecidableEq, Repr

/-- State of `pipeline()`: the producer goroutine, the square goroutine and the
consuming loop of `pipeline` itself. -/
structure State where
  /-- items of `nums` the producer has not sent yet -/
  nums : List Int
  /-- the producer's deferred `close(out)` has run -/
  numsClosed : Bool
  /-- the square goroutine -/
  sq : StagePc
  /-- values the loop `for n := range squared` has received, oldest first -/
  seen : List Int
  /-- the loop `for n := range squared` has ended -/
  mainDone : Bool
  deriving DecidableEq, Repr

/-- The operations of the three goroutines. -/
inductive Action where
  /-- `out <- n` in `producer` meets the receive of `range in` in `square` -/
  | prodSend
  /-- the producer's loop is over and its deferred `close(out)` runs -/
  | prodClose
  /-- `out <- n * n` in `square` meets the receive of `range squared` -/
  | sqSend
  /-- `range in` in `square` finds `in` closed and drained -/
  | sqExit
  /-- the deferred `close(out)` of `square` runs -/
  | sqClose
  /-- `range squared` in `pipeline` finds `squared` closed -/
  | mainExit
  deriving DecidableEq, Repr

/-- State right after `nums := producer(xs...)` and `squared := square(nums)`. -/
def init (xs : List Int) : State :=
  { nums := xs, numsClosed := false, sq := .recv, seen := [], mainDone := false }

/-- One step of one goroutine. -/
def step (s : State) : Action → Option State
  | .prodSend =>
    match s.nums, s.sq with
    | n :: rest, .recv => some { s with nums := rest, sq := .send n }
    | _, _ => none
  | .prodClose =>
    match s.nums, s.numsClosed with
    | [], false => some { s with numsClosed := true }
    | _, _ => none
  | .sqSend =>
    match s.sq, s.mainDone with
    | .send n, false => some { s with sq := .recv, seen := s.seen ++ [mulInt n n] }
    | _, _ => none
  | .sqExit =>
    match s.sq, s.nums, s.numsClosed with
    | .recv, [], true => some { s with sq := .exiting }
    | _, _, _ => none
  | .sqClose =>
    match s.sq with
    | .exiting => some { s with sq := .closed }
    | _ => none
  | .mainExit =>
    match s.sq, s.mainDone with
    | .closed, false => some { s with mainDone := true }
    | _, _ => none

/-- Items the square goroutine holds and has still to send, squared. -/
def inFlight : StagePc → List Int
  | .send n => [mulInt n n]
  | _ => []

/-- Steps the square goroutine has still to take on its own. -/
def rank : StagePc → Nat
  | .send _ => 3
  | .recv => 2
  | .exiting => 1
  | .closed => 0

/-- Number of steps left until every goroutine has returned. -/
def measure (s : State) : Nat :=
  2 * s.nums.length + (if s.numsClosed then 0 else 1) + rank s.sq
    + (if s.mainDone then 0 else 1)

/-- What `seen` must be once everything is delivered. -/
def squares (xs : List Int) : List Int := xs.map (fun n => mulInt n n)

/-- Invariant of `pipeline()` started on `xs`. -/
def Inv (xs : List Int) (s : State) : Prop :=
  s.seen ++ inFlight s.sq ++ squares s.nums = squares xs
  ∧ (s.numsClosed = true → s.nums = [])
  ∧ ((s.sq = .exiting ∨ s.sq = .closed) → s.nums = [] ∧ s.numsClosed = true)
  ∧ (s.mainDone = true → s.sq = .closed)

/-- The schedule of `pipeline()` in which every item is squared and printed
before the next one is produced. -/
def demoSched : List Action :=
  [.prodSend, .sqSend, .prodSend, .sqSend, .prodSend, .sqSend, .prodSend, .sqSend,
   .prodSend, .sqSend, .prodClose, .sqExit, .sqClose, .mainExit]

/-- State of `pipeline()` when all three goroutines have returned. -/
def demoFinal : State :=
  { nums := [], numsClosed := true, sq := .closed, seen := [1, 4, 9, 16, 25],
    mainDone := true }

end Pipeline

/-! ## Buffered channels -/

/-- A channel made with `make(chan T, cap)` for `cap > 0`: the buffered items,
oldest first, the capacity, and whether `close` was called. -/
structure Chan (α : Type) where
  buf : List α
  cap : Nat
  closed : Bool
  deriving DecidableEq, Repr

namespace Chan

/-- Outcome of `ch <- v`. -/
inductive SendOutcome (α : Type) where
  /-- the item was appended to the buffer -/
  | sent (c : Chan α)
  /-- the buffer is full: the sender waits -/
  | blocks
  /-- the channel is closed: the send panics -/
  | panics
  deriving DecidableEq, Repr

/-- Outcome of `<-ch`. -/
inductive RecvOutcome (α : Type) where
  /-- the oldest buffered item -/
  | got (v : α) (c : Chan α)
  /-- the channel is closed and empty: `range` ends, `<-ch` yields the zero value -/
  | drained
  /-- the channel is open and empty: the receiver waits -/
  | blocks
  deriving DecidableEq, Repr

/-- The channel `make(chan T, cap)`. -/
def make (α : Type) (cap : Nat) : Chan α := { buf := [], cap := cap, closed := false }

/-- The statement `ch <- v`. -/
def send {α : Type} (c : Chan α) (v : α) : SendOutcome α :=
  if c.closed then .panics
  else if c.buf.length < c.cap then .sent { c with buf := c.buf ++ [v] }
  else .blocks

/-- The expression `<-ch`. -/
def recv {α : Type} (c : Chan α) : RecvOutcome α :=
  match c.buf with
  | v :: rest => .got v { c with buf := rest }
  | [] => if c.closed then .drained else .blocks

/-- The call `close(ch)`; `none` is the panic of closing a closed channel. -/
def close {α : Type} (c : Chan α) : Option (Chan α) :=
  if c.closed then none else some { c with closed := true }

end Chan

/-! ## Worker pools: `worker` and the pool part of `main` -/

namespace Pool

/-- Control point of a `worker` goroutine. -/
inductive WorkerPc (α : Type) where
  /-- at `for job := range jobs` -/
  | idle
  /-- at `results <- ...`, holding the job it received -/
  | busy (job : α)
  /-- returned: `range jobs` found the queue closed and empty -/
  | done
  deriving DecidableEq, Repr

/-- Control point of `main` in the pool demo. -/
inductive MainPc (α : Type) where
  /-- in the loop that sends the jobs, `rest` still to send; with `rest = []`
  the next statement is `close(jobs)` -/
  | send (rest : List α)
  /-- in the loop that collects the results, `k` iterations to go -/
  | collect (k : Nat)
  deriving DecidableEq, Repr

/-- State of the pool demo: `main`, the two channels and the workers. -/
structure State (α β : Type) where
  main : MainPc α
  /-- number of iterations of the collecting loop (`numJobs`) -/
  numJobs : Nat
  jobs : Chan α
  results : Chan β
  workers : List (WorkerPc α)
  /-- every value sent on `results` so far, oldest first -/
  published : List β
  /-- every value `main` received from `results` so far, oldest first -/
  collected : List β
  /-- some goroutine panicked: the program has crashed -/
  panicked : Bool
  deriving DecidableEq, Repr

/-- The operations of `main` and of worker number `w`. -/
inductive Action where
  /-- `jobs <- job` in `main` -/
  | mainSend
  /-- `close(jobs)` in `main` -/
  | mainClose
  /-- `<-results` in `main` -/
  | mainCollect
  /-- the receive of `range jobs` in worker `w` -/
  | take (w : Nat)
  /-- `results <- ...` in worker `w` -/
  | publish (w : Nat)
  deriving DecidableEq, Repr

/-- State after the workers were started, before `main` sends the first job. -/
def init {α β : Type} (js : List α) (numWorkers jobCap resCap : Nat) : State α β :=
  { main := .send js, numJobs := js.length, jobs := Chan.make α jobCap,
    results := Chan.make β resCap, workers := List.replicate numWorkers .idle,
    published := [], collected := [], panicked := false }

/-- One step of one goroutine; `f` is what a worker computes from a job. -/
def step {α β : Type} [Inhabited β] (f : α → β) (s : State α β) (a : Action) :
    Option (State α β) :=
  if s.panicked then none else
  match a with
  | .mainSend =>
    match s.main with
    | .send (j :: rest) =>
      match s.jobs.send j with
      | .sent c => some { s with main := .send rest, jobs := c }
      | .blocks => none
      | .panics => some { s with panicked := true }
    | _ => none
  | .mainClose =>
    match s.main with
    | .send [] =>
      match s.jobs.close with
      | some c => some { s with main := .collect s.numJobs, jobs := c }
      | none => some { s with panicked := true }
    | _ => none
  | .mainCollect =>
    match s.main with
    | .collect (k + 1) =>
      match s.results.recv with
      | .got r c =>
        some { s with main := .collect k, results := c, collected := s.collected ++ [r] }
      | .drained =>
        some { s with main := .collect k, collected := s.collected ++ [default] }
      | .blocks => none
    | _ => none
  | .take w =>
    match s.workers[w]? with
    | some .idle =>
      match s.jobs.recv with
      | .got j c => some { s with jobs := c, workers := s.workers.set w (.busy j) }
      | .drained => some { s with workers := s.workers.set w .done }
      | .blocks => none
    | _ => none
  | .publish w =>
    match s.workers[w]? with
    | some (.busy j) =>
      match s.results.send (f j) with
      | .sent c =>
        some { s with results := c, workers := s.workers.set w .idle,
                      published := s.published ++ [f j] }
      | .blocks => none
      | .panics => some { s with panicked := true }
    | _ => none

/-- The job a worker holds, as a multiset. -/
def held {α : Type} : WorkerPc α → Multiset α
  | .busy j => {j}
  | _ => 0

/-- Steps a worker has still to take on its own. -/
def workerRank {α : Type} : WorkerPc α → Nat
  | .busy _ => 2
  | .idle => 1
  | .done => 0

/-- The jobs `main` has not sent yet. -/
def unsent {α : Type} : MainPc α → List α
  | .send rest => rest
  | .collect _ => []

/-- Steps `main` has still to take, counting for each unsent job its way
through a worker. -/
def mainRank {α : Type} (n : Nat) : MainPc α → Nat
  | .send rest => 3 * rest.length + 1 + n
  | .collect k => k

/-- Upper bound on the number of steps left. -/
def measure {α β : Type} (s : State α β) : Nat :=
  mainRank s.numJobs s.main + 2 * s.jobs.buf.length + (s.workers.map workerRank).sum
    + (if s.panicked then 0 else 1)

end Pool

/-! ## Pattern 3 of `21_advanced_concurrency`: worker pool with results -/

namespace AdvancedConcurrency

/-- The struct `Job`. -/
structure Job where
  ID : Int
  Data : Int
  deriving DecidableEq, Repr, Inhabited

/-- The struct `Result`. -/
structure Result where
  Job : Job
  Result : Int
  deriving DecidableEq, Repr, Inhabited

/-- What `worker` sends on `results` for a job. -/
def worker (job : Job) : Result := { Job := job, Result := mulInt job.Data 2 }

/-- The pool of `main` with the jobs and the number of workers left open:
`jobs := make(chan Job, 10)`, `results := make(chan Result, 10)`. -/
def poolInit (js : List Job) (numWorkers : Nat) : Pool.State Job Result :=
  Pool.init js numWorkers 10 10

/-- The jobs `main` sends: `Job{ID: j, Data: j * 10}` for `j` from 1 to 5. -/
def mainJobs : List Job :=
  (List.range 5).map (fun i => { ID := (i : Int) + 1, Data := mulInt ((i : Int) + 1) 10 })

end AdvancedConcurrency

namespace Pool

/-- The result a worker is about to publish, as a multiset. -/
def heldOut {α β : Type} (f : α → β) : WorkerPc α → Multiset β
  | .busy j => {f j}
  | _ => 0

/-- What the control point of `main` says about the job queue and the
collected results. -/
def MainOk {α β : Type} (n : Nat) (s : State α β) : Prop :=
  match s.main with
  | .send _ => s.jobs.closed = false ∧ s.collected = []
  | .collect k => s.jobs.closed = true ∧ s.collected.length + k = n

/-- Invariant of the pool demo started on the jobs `js`. -/
structure Inv {α β : Type} (f : α → β) (js : List α) (numWorkers jobCap resCap : Nat)
    (s : State α β) : Prop where
  /-- every job is unsent, queued, held by a worker, or its result is published -/
  conserve : ((js.map f : List β) : Multiset β)
    = ((unsent s.main).map f : List β) + ↑(s.jobs.buf.map f)
      + (s.workers.map (heldOut f)).sum + ↑s.published
  /-- what was published is what `main` received followed by what is buffered -/
  fifo : s.published = s.collected ++ s.results.buf
  numJobs_eq : s.numJobs = js.length
  mainOk : MainOk js.length s
  /-- a worker returns only when the queue is closed and empty -/
  doneOk : WorkerPc.done ∈ s.workers → s.jobs.closed = true ∧ s.jobs.buf = []
  resultsOpen : s.results.closed = false
  noPanic : s.panicked = false
  workers_length : s.workers.length = numWorkers
  jobs_cap : s.jobs.cap = jobCap
  results_cap : s.results.cap = resCap

end Pool

namespace AdvancedConcurrency

/-- A schedule of the pool demo of `main` (5 jobs, workers 0, 1, 2): `main`
sends the five jobs and closes the queue, the workers share the jobs, return,
and `main` collects the five results. -/
def poolDemoSched : List Pool.Action :=
  [.mainSend, .mainSend, .mainSend, .mainSend, .mainSend, .mainClose,
   .take 0, .take 1, .take 2, .publish 1, .take 1, .publish 0, .publish 2,
   .take 2, .publish 1, .publish 2, .take 0, .take 1, .take 2,
   .mainCollect, .mainCollect, .mainCollect, .mainCollect, .mainCollect]

/-- The results that schedule publishes, in the order of publication. -/
def poolDemoResults : List Result :=
  [worker ⟨2, 20⟩, worker ⟨1, 10⟩, worker ⟨3, 30⟩, worker ⟨4, 40⟩, worker ⟨5, 50⟩]

/-- State of the pool demo at the end of that schedule. -/
def poolDemoFinal : Pool.State Job Result :=
  { main := .collect 0, numJobs := 5,
    jobs := { buf := [], cap := 10, closed := true },
    results := { buf := [], cap := 10, closed := false },
    workers := [.done, .done, .done],
    published := poolDemoResults, collected := poolDemoResults, panicked := false }

end AdvancedConcurrency

/-! ## The worker pool of `16_channels` -/

namespace Channels

/-- What `worker` sends on `results` for the job `j`: `j * 2`. -/
def worker (j : Int) : Int := mulInt j 2

/-- The pool of `main` with the jobs and the number of workers left open:
`jobs := make(chan int, numJobs)`, `results := make(chan int, numJobs)`, where
`numJobs` is the number of jobs `main` sends. -/
def poolInit (js : List Int) (numWorkers : Nat) : Pool.State Int Int :=
  Pool.init js numWorkers js.length js.length

/-- The jobs `main` sends: `j` from 1 to `numJobs = 5`. -/
def mainJobs : List Int := (List.range 5).map (fun i => (i : Int) + 1)

/-- A schedule of the pool of `main` in which the workers (0, 1, 2) start on the
jobs while `main` is still sending. -/
def poolDemoSched : List Pool.Action :=
  [.mainSend, .take 2, .mainSend, .mainSend, .take 0, .publish 2, .take 2,
   .mainSend, .take 1, .publish 1, .mainSend, .mainClose, .publish 0, .take 0,
   .publish 2, .take 1, .take 2, .publish 0, .take 0, .mainCollect, .mainCollect,
   .mainCollect, .mainCollect, .mainCollect]

/-- State of the pool at the end of that schedule. -/
def poolDemoFinal : Pool.State Int Int :=
  { main := .collect 0, numJobs := 5,
    jobs := { buf := [], cap := 5, closed := true },
    results := { buf := [], cap := 5, closed := false },
    workers := [.done, .done, .done],
    published := [2, 8, 4, 6, 10], collected := [2, 8, 4, 6, 10], panicked := false }

end Channels

/-! ## Pattern 5 of `21_advanced_concurrency`: `semaphore` -/

namespace Semaphore

/-- The constant `maxConcurrent`. -/
def maxConcurrent : Nat := 3

/-- A deferred call of a task. -/
inductive Deferred where
  /-- `defer wg.Done()` -/
  | wgDone
  /-- `defer func() { <-sem }()` -/
  | release
  deriving DecidableEq, Repr

/-- Control point of a task goroutine `func(id int)`. -/
inductive TaskPc where
  /-- started, at `defer wg.Done()` -/
  | start
  /-- at `sem <- struct{}{}` -/
  | acquire
  /-- at `defer func() { <-sem }()` -/
  | deferRelease
  /-- in the body (the two `Printf` around the `Sleep`) -/
  | body
  /-- the body was left, by return or by a panic, and the deferred calls run -/
  | unwinding (panicking : Bool)
  /-- returned -/
  | done
  deriving DecidableEq, Repr

/-- A task goroutine: its control point, its deferred calls (the one registered
last first), and how often it has completed `sem <- struct{}{}` and `<-sem`. -/
structure Task where
  pc : TaskPc
  defers : List Deferred
  acquired : Nat
  released : Nat
  deriving DecidableEq, Repr

/-- State of `semaphore()`. -/
structure State where
  /-- the channel `sem` -/
  sem : Chan Unit
  /-- the tasks launched so far, in launch order -/
  tasks : List Task
  /-- iterations the launching loop has still to run -/
  toLaunch : Nat
  /-- the counter of the WaitGroup `wg` -/
  wg : Nat
  /-- `wg.Wait()` has returned -/
  mainDone : Bool
  /-- a panic has ended the program -/
  crashed : Bool
  deriving DecidableEq, Repr

/-- The operations of a task goroutine. -/
inductive TaskOp where
  /-- `defer wg.Done()` -/
  | deferDone
  /-- `sem <- struct{}{}` -/
  | acquire
  /-- `defer func() { <-sem }()` -/
  | deferRelease
  /-- the body is left: by return (`fault = false`) or by a panic -/
  | exitBody (fault : Bool)
  /-- the deferred call registered last runs -/
  | runDeferred
  /-- no deferred call is left: the goroutine ends, and a panic that is still
  under way ends the program -/
  | finish
  deriving DecidableEq, Repr

/-- The operations of `semaphore` itself and of task number `i`. -/
inductive Action where
  /-- `wg.Add(1)` and `go func(id int) {...}(i)` in the loop -/
  | launch
  /-- `wg.Wait()` returns -/
  | mainWait
  /-- task number `i` (in launch order, from 0) does `op` -/
  | task (i : Nat) (op : TaskOp)
  deriving DecidableEq, Repr

/-- State when `semaphore()` enters its loop, set to launch `n` tasks (10 in the
source). -/
def init (n : Nat) : State :=
  { sem := Chan.make Unit maxConcurrent, tasks := [], toLaunch := n, wg := 0,
    mainDone := false, crashed := false }

/-- One step of task number `i`, which is in state `t`. -/
def stepTask (s : State) (i : Nat) (t : Task) : TaskOp → Option State
  | .deferDone =>
    match t.pc with
    | .start =>
      some { s with tasks := s.tasks.set i { t with pc := .acquire,
                                                    defers := .wgDone :: t.defers } }
    | _ => none
  | .acquire =>
    match t.pc with
    | .acquire =>
      match s.sem.send () with
      | .sent c =>
        some { s with sem := c,
                      tasks := s.tasks.set i { t with pc := .deferRelease,
                                                      acquired := t.acquired + 1 } }
      | .blocks => none
      | .panics => some { s with crashed := true }
    | _ => none
  | .deferRelease =>
    match t.pc with
    | .deferRelease =>
      some { s with tasks := s.tasks.set i { t with pc := .body,
                                                    defers := .release :: t.defers } }
    | _ => none
  | .exitBody fault =>
    match t.pc with
    | .body => some { s with tasks := s.tasks.set i { t with pc := .unwinding fault } }
    | _ => none
  | .runDeferred =>
    match t.pc, t.defers with
    | .unwinding _, .release :: rest =>
      match s.sem.recv with
      | .got _ c =>
        some { s with sem := c,
                      tasks := s.tasks.set i { t with defers := rest,
                                                      released := t.released + 1 } }
      | .drained =>
        some { s with tasks := s.tasks.set i { t with defers := rest,
                                                      released := t.released + 1 } }
      | .blocks => none
    | .unwinding _, .wgDone :: rest =>
      match s.wg with
      | 0 => some { s with crashed := true }
      | k + 1 => some { s with wg := k, tasks := s.tasks.set i { t with defers := rest } }
    | _, _ => none
  | .finish =>
    match t.pc, t.defers with
    | .unwinding p, [] =>
      some { s with tasks := s.tasks.set i { t with pc := .done }, crashed := p }
    | _, _ => none

/-- One step of one goroutine. -/
def step (s : State) (a : Action) : Option State :=
  if s.crashed then none else
  match a with
  | .launch =>
    match s.toLaunch with
    | 0 => none
    | k + 1 =>
      some { s with toLaunch := k, wg := s.wg + 1,
                    tasks := s.tasks ++ [{ pc := .start, defers := [], acquired := 0,
                                           released := 0 }] }
  | .mainWait =>
    match s.toLaunch, s.wg, s.mainDone with
    | 0, 0, false => some { s with mainDone := true }
    | _, _, _ => none
  | .task i op =>
    match s.tasks[i]? with
    | none => none
    | some t => stepTask s i t op

/-- Whether a task has acquired and not yet released: 1 if so, else 0. -/
def holds (t : Task) : Nat := if t.released < t.acquired then 1 else 0

/-- Number of tasks that have acquired and not yet released. -/
def held (s : State) : Nat := (s.tasks.map holds).sum

/-- Whether the task has still to call `wg.Done()`: 1 if so, else 0. -/
def wgPending (t : Task) : Nat :=
  match t.pc with
  | .start => 1
  | _ => if Deferred.wgDone ∈ t.defers then 1 else 0

/-- What the control point of a task says about its deferred calls and its
counts of acquires and releases. -/
def TaskOk (t : Task) : Prop :=
  match t.pc with
  | .start => t.defers = [] ∧ t.acquired = 0 ∧ t.released = 0
  | .acquire => t.defers = [.wgDone] ∧ t.acquired = 0 ∧ t.released = 0
  | .deferRelease => t.defers = [.wgDone] ∧ t.acquired = 1 ∧ t.released = 0
  | .body => t.defers = [.release, .wgDone] ∧ t.acquired = 1 ∧ t.released = 0
  | .unwinding _ =>
    (t.defers = [.release, .wgDone] ∧ t.acquired = 1 ∧ t.released = 0)
    ∨ (t.defers = [.wgDone] ∧ t.acquired = 1 ∧ t.released = 1)
    ∨ (t.defers = [] ∧ t.acquired = 1 ∧ t.released = 1)
  | .done => t.defers = [] ∧ t.acquired = 1 ∧ t.released = 1

/-- Upper bound on the steps a task has still to take. -/
def taskRank (t : Task) : Nat :=
  match t.pc with
  | .start => 7 + t.defers.length
  | .acquire => 5 + t.defers.length
  | .deferRelease => 4 + t.defers.length
  | .body => 2 + t.defers.length
  | .unwinding _ => 1 + t.defers.length
  | .done => 0

/-- Upper bound on the number of steps left. -/
def measure (s : State) : Nat :=
  8 * s.toLaunch + (s.tasks.map taskRank).sum + (if s.mainDone then 0 else 1)
    + (if s.crashed then 0 else 1)

/-- Invariant of `semaphore()` set to launch `n` tasks. -/
structure Inv (n : Nat) (s : State) : Prop where
  tasksOk : ∀ t ∈ s.tasks, TaskOk t
  /-- the tokens in `sem` are those of the tasks that hold a permit -/
  semHeld : s.sem.buf.length = held s
  semCap : s.sem.cap = maxConcurrent
  semBound : s.sem.buf.length ≤ s.sem.cap
  semOpen : s.sem.closed = false
  /-- the WaitGroup counts the launched tasks that have not called `wg.Done()` -/
  wgOk : s.wg = (s.tasks.map wgPending).sum
  launched : s.tasks.length + s.toLaunch = n
  mainOk : s.mainDone = true → s.toLaunch = 0 ∧ s.wg = 0

/-- A schedule of `semaphore()` with its 10 tasks: all are launched, tasks 0, 1
and 2 acquire, and each of the others acquires as soon as one has released. -/
def demoSched : List Action :=
  List.replicate 10 .launch
  ++ (List.range 10).map (fun i => .task i .deferDone)
  ++ [.task 0 .acquire, .task 1 .acquire, .task 2 .acquire]
  ++ (List.range 7).flatMap (fun i =>
      [.task i .deferRelease, .task i (.exitBody false), .task i .runDeferred,
       .task (i + 3) .acquire, .task i .runDeferred, .task i .finish])
  ++ [7, 8, 9].flatMap (fun i =>
      [.task i .deferRelease, .task i (.exitBody false), .task i .runDeferred,
       .task i .runDeferred, .task i .finish])
  ++ [.mainWait]

/-- A task that has returned. -/
def doneTask : Task := { pc := .done, defers := [], acquired := 1, released := 1 }

/-- State of `semaphore()` at the end of `demoSched`. -/
def demoFinal : State :=
  { sem := { buf := [], cap := 3, closed := false }, tasks := List.replicate 10 doneTask,
    toLaunch := 0, wg := 0, mainDone := true, crashed := false }

/-- A schedule after which tasks 0, 1 and 2 hold the three permits and task 3
waits at its acquire. -/
def fullSched : List Action :=
  [.launch, .launch, .launch, .launch, .task 0 .deferDone, .task 1 .deferDone,
   .task 2 .deferDone, .task 3 .deferDone, .task 0 .acquire, .task 1 .acquire,
   .task 2 .acquire, .task 0 .deferRelease]

/-- State of `semaphore()` at the end of `fullSched`. -/
def fullState : State :=
  { sem := { buf := [(), (), ()], cap := 3, closed := false },
    tasks := [{ pc := .body, defers := [.release, .wgDone], acquired := 1, released := 0 },
              { pc := .deferRelease, defers := [.wgDone], acquired := 1, released := 0 },
              { pc := .deferRelease, defers := [.wgDone], acquired := 1, released := 0 },
              { pc := .acquire, defers := [.wgDone], acquired := 0, released := 0 }],
    toLaunch := 6, wg := 4, mainDone := false, crashed := false }

end Semaphore

/-! ## Pattern 1 of `21_advanced_concurrency`: `merge` -/

namespace Merge

/-- Control point of a forwarder goroutine `output(c)`. -/
inductive FwdPc where
  /-- at `for n := range c` -/
  | recv
  /-- at `out <- n`, holding the item `n` it received -/
  | send (n : Int)
  /-- the range loop has ended, the deferred `wg.Done()` has not run yet -/
  | exiting
  /-- returned -/
  | done
  deriving DecidableEq, Repr

/-- Control point of the goroutine `func() { wg.Wait(); close(out) }`. -/
inductive CloserPc where
  /-- at `wg.Wait()` -/
  | waiting
  /-- at `close(out)` -/
  | closing
  /-- returned -/
  | done
  deriving DecidableEq, Repr

/-- The part of `merge` the forwarders share: the WaitGroup, the closing
goroutine, the unbuffered channel `out` and the loop that ranges over it. -/
structure Out where
  /-- the counter of `wg` -/
  wg : Nat
  closer : CloserPc
  /-- `close(out)` was called -/
  outClosed : Bool
  /-- number of calls of `close(out)` so far -/
  closes : Nat
  /-- the items received from `out` so far, oldest first, each with the number
  of the forwarder that sent it -/
  delivered : List (Nat × Int)
  /-- the loop ranging over `out` has ended -/
  consumerDone : Bool
  /-- a goroutine panicked: the program has crashed -/
  panicked : Bool
  deriving DecidableEq, Repr

namespace Out

/-- State of the shared part after `wg.Add(n)`. -/
def init (n : Nat) : Out :=
  { wg := n, closer := .waiting, outClosed := false, closes := 0, delivered := [],
    consumerDone := false, panicked := false }

/-- `out <- n` in forwarder `i`, met by the receive of the loop ranging over
`out`; a send on the closed channel panics. -/
def send (o : Out) (i : Nat) (n : Int) : Option Out :=
  if o.outClosed then some { o with panicked := true }
  else if o.consumerDone then none
  else some { o with delivered := o.delivered ++ [(i, n)] }

/-- The deferred `wg.Done()`; a negative counter panics. -/
def wgDone (o : Out) : Out :=
  match o.wg with
  | 0 => { o with panicked := true }
  | k + 1 => { o with wg := k }

/-- `wg.Wait()` returns, the counter being zero. -/
def closerWake (o : Out) : Option Out :=
  match o.closer, o.wg with
  | .waiting, 0 => some { o with closer := .closing }
  | _, _ => none

/-- The call `close(out)`; closing a closed channel panics. -/
def closerClose (o : Out) : Option Out :=
  match o.closer with
  | .closing =>
    if o.outClosed then some { o with panicked := true }
    else some { o with closer := .done, outClosed := true, closes := o.closes + 1 }
  | _ => none

/-- The loop ranging over `out` finds it closed. -/
def consumerEnd (o : Out) : Option Out :=
  match o.outClosed, o.consumerDone with
  | true, false => some { o with consumerDone := true }
  | _, _ => none

end Out

/-- One input channel of `merge` together with its forwarder. -/
structure Branch where
  /-- everything the input stream carries, in order -/
  orig : List Int
  /-- the items the forwarder has not received yet -/
  pending : List Int
  /-- the input channel was closed by its producer -/
  closed : Bool
  /-- the forwarder -/
  pc : FwdPc
  /-- the items the forwarder has handed to `out`, oldest first -/
  sent : List Int
  deriving DecidableEq, Repr

/-- State of `merge(channels...)` and of the loop that drains its result. -/
structure State where
  branches : List Branch
  out : Out
  deriving DecidableEq, Repr

/-- The operations on input channel `i` and of its forwarder. -/
inductive BranchOp where
  /-- the producer of the input, having sent everything, closes it -/
  | closeInput
  /-- the receive of `range c` in the forwarder gets the next item -/
  | fwdRecv
  /-- `range c` in the forwarder finds its input closed and drained -/
  | fwdEnd
  /-- `out <- n` in the forwarder -/
  | fwdSend
  /-- the deferred `wg.Done()` of the forwarder -/
  | fwdDone
  deriving DecidableEq, Repr

/-- The operations of the goroutines; `i` numbers the input channels from 0. -/
inductive Action where
  | branch (i : Nat) (op : BranchOp)
  /-- `wg.Wait()` returns -/
  | closerWake
  /-- `close(out)` -/
  | closerClose
  /-- the loop ranging over `out` ends -/
  | consumerEnd
  deriving DecidableEq, Repr

/-- State when `merge` returns, for input streams carrying `xss`. -/
def init (xss : List (List Int)) : State :=
  { branches := xss.map (fun xs =>
      { orig := xs, pending := xs, closed := false, pc := .recv, sent := [] }),
    out := Out.init xss.length }

/-- One step on input `i` or of forwarder `i`, the branch being `b`. -/
def stepBranch (s : State) (i : Nat) (b : Branch) : BranchOp → Option State
  | .closeInput =>
    match b.pending, b.closed with
    | [], false => some { s with branches := s.branches.set i { b with closed := true } }
    | _, _ => none
  | .fwdRecv =>
    match b.pc, b.pending with
    | .recv, n :: rest =>
      some { s with branches := s.branches.set i { b with pc := .send n, pending := rest } }
    | _, _ => none
  | .fwdEnd =>
    match b.pc, b.pending, b.closed with
    | .recv, [], true =>
      some { s with branches := s.branches.set i { b with pc := .exiting } }
    | _, _, _ => none
  | .fwdSend =>
    match b.pc with
    | .send n =>
      match s.out.send i n with
      | none => none
      | some o =>
        if o.panicked then some { s with out := o }
        else some { branches := s.branches.set i { b with pc := .recv, sent := b.sent ++ [n] },
                    out := o }
    | _ => none
  | .fwdDone =>
    match b.pc with
    | .exiting =>
      some { branches := s.branches.set i { b with pc := .done }, out := s.out.wgDone }
    | _ => none

/-- One step of one goroutine. -/
def step (s : State) (a : Action) : Option State :=
  if s.out.panicked then none else
  match a with
  | .closerWake => (s.out.closerWake).map (fun o => { s with out := o })
  | .closerClose => (s.out.closerClose).map (fun o => { s with out := o })
  | .consumerEnd => (s.out.consumerEnd).map (fun o => { s with out := o })
  | .branch i op =>
    match s.branches[i]? with
    | none => none
    | some b => stepBranch s i b op

/-- The items of a log that came from forwarder `i`, in the order of the log. -/
def proj (i : Nat) (log : List (Nat × Int)) : List Int :=
  (log.filter (fun p => decide (p.1 = i))).map Prod.snd

/-- The item a forwarder holds. -/
def holding : FwdPc → List Int
  | .send n => [n]
  | _ => []

/-- What the control point of a forwarder says about its input, and the order
of the items of its input. -/
structure BranchOk (b : Branch) : Prop where
  order : b.sent ++ holding b.pc ++ b.pending = b.orig
  closedOk : b.closed = true → b.pending = []
  endOk : (b.pc = .exiting ∨ b.pc = .done) → b.pending = [] ∧ b.closed = true

/-- Whether the forwarder has still to call `wg.Done()`: 1 if so, else 0. -/
def wgPending (b : Branch) : Nat :=
  match b.pc with
  | .done => 0
  | _ => 1

/-- The items of a branch that have not reached `out` yet. -/
def content (b : Branch) : Multiset Int := ↑(holding b.pc) + ↑b.pending

/-- What the control point of the closing goroutine says about `out` and `wg`. -/
def CloserOk (o : Out) : Prop :=
  match o.closer with
  | .waiting => o.outClosed = false
  | .closing => o.outClosed = false ∧ o.wg = 0
  | .done => o.outClosed = true ∧ o.wg = 0

/-- Invariant of the shared part of `merge`. -/
structure OutOk (o : Out) : Prop where
  closerOk : CloserOk o
  closesOk : o.closes = if o.outClosed then 1 else 0
  consumerOk : o.consumerDone = true → o.outClosed = true
  noPanic : o.panicked = false

/-- Invariant of `merge` on input streams carrying `xss`. -/
structure Inv (xss : List (List Int)) (s : State) : Prop where
  origs : s.branches.map (fun b => b.orig) = xss
  branchesOk : ∀ b ∈ s.branches, BranchOk b
  /-- the items delivered from forwarder `i` are those it has sent, in order -/
  link : ∀ i b, s.branches[i]? = some b → proj i s.out.delivered = b.sent
  tags : ∀ p ∈ s.out.delivered, p.1 < xss.length
  /-- every item of every input is delivered, held by a forwarder or pending -/
  conserve : ((xss.flatten : List Int) : Multiset Int)
    = ↑(s.out.delivered.map Prod.snd) + (s.branches.map content).sum
  wgOk : s.out.wg = (s.branches.map wgPending).sum
  outOk : OutOk s.out

/-- Steps a forwarder and its input have still to take. -/
def branchRank (b : Branch) : Nat :=
  2 * b.pending.length + (if b.closed then 0 else 1)
    + (match b.pc with
       | .send _ => 3
       | .recv => 2
       | .exiting => 1
       | .done => 0)

/-- Steps the shared part has still to take. -/
def outRank (o : Out) : Nat :=
  (match o.closer with
   | .waiting => 2
   | .closing => 1
   | .done => 0)
  + (if o.consumerDone then 0 else 1) + (if o.panicked then 0 else 1)

/-- Number of steps left until every goroutine has returned. -/
def measure (s : State) : Nat := (s.branches.map branchRank).sum + outRank s.out

/-- A schedule of `merge` on two inputs carrying 1, 2, 3 and 10, 20, in which
the two forwarders alternate. -/
def demoSched : List Action :=
  [.branch 0 .fwdRecv, .branch 1 .fwdRecv, .branch 1 .fwdSend, .branch 0 .fwdSend,
   .branch 0 .fwdRecv, .branch 0 .fwdSend, .branch 1 .fwdRecv, .branch 1 .fwdSend,
   .branch 1 .closeInput, .branch 1 .fwdEnd, .branch 1 .fwdDone, .branch 0 .fwdRecv,
   .branch 0 .fwdSend, .branch 0 .closeInput, .branch 0 .fwdEnd, .branch 0 .fwdDone,
   .closerWake, .closerClose, .consumerEnd]

/-- State of `merge` at the end of `demoSched`. -/
def demoFinal : State :=
  { branches :=
      [{ orig := [1, 2, 3], pending := [], closed := true, pc := .done, sent := [1, 2, 3] },
       { orig := [10, 20], pending := [], closed := true, pc := .done, sent := [10, 20] }],
    out := { wg := 0, closer := .done, outClosed := true, closes := 1,
             delivered := [(1, 10), (0, 1), (0, 2), (1, 20), (0, 3)],
             consumerDone := true, panicked := false } }

/-- State of `merge` after the first 17 steps of `demoSched`: both forwarders
have returned and `wg.Wait()` has returned, `close(out)` comes next. -/
def demoBeforeClose : State :=
  { branches := demoFinal.branches,
    out := { wg := 0, closer := .closing, outClosed := false, closes := 0,
             delivered := [(1, 10), (0, 1), (0, 2), (1, 20), (0, 3)],
             consumerDone := false, panicked := false } }

end Merge

/-! ## Fan-out, fan-in: `merge(square(in), square(in))` in `main` -/

namespace FanOut

/-- One `square` stage reading the shared channel `in`, with the forwarder
`merge` starts on the stage's output channel. -/
structure Lane where
  /-- the goroutine of `square` -/
  sq : Pipeline.StagePc
  /-- the goroutine `output(c)` of `merge` -/
  fwd : Merge.FwdPc
  /-- the items the stage has received from `in`, oldest first -/
  got : List Int
  deriving DecidableEq, Repr

/-- State of the fan-out, fan-in demo. -/
structure State where
  /-- items the producer has not sent yet -/
  nums : List Int
  /-- the producer's deferred `close(out)` has run: `in` is closed -/
  inClosed : Bool
  lanes : List Lane
  /-- the shared part of `merge` and the loop of `main` ranging over its result -/
  out : Merge.Out
  deriving DecidableEq, Repr

/-- The operations of stage `k` and of forwarder `k`. -/
inductive LaneOp where
  /-- `out <- n` in `producer` meets the receive of `range in` in the stage -/
  | sqRecv
  /-- `out <- n * n` in the stage meets the receive of `range c` in the forwarder -/
  | sqSend
  /-- `range in` in the stage finds `in` closed and drained -/
  | sqExit
  /-- the deferred `close(out)` of the stage runs -/
  | sqClose
  /-- `range c` in the forwarder finds the stage's output closed -/
  | fwdEnd
  /-- `out <- n` in the forwarder meets the receive of `main` -/
  | fwdSend
  /-- the deferred `wg.Done()` of the forwarder -/
  | fwdDone
  deriving DecidableEq, Repr

/-- The operations of the goroutines. -/
inductive Action where
  /-- the producer's loop is over and its deferred `close(out)` runs -/
  | prodClose
  | lane (k : Nat) (op : LaneOp)
  /-- `wg.Wait()` returns -/
  | closerWake
  /-- `close(out)` in `merge` -/
  | closerClose
  /-- the loop of `main` ranging over the merged channel ends -/
  | consumerEnd
  deriving DecidableEq, Repr

/-- State after `in := producer(xs...)`, `k` calls of `square(in)` and `merge`
of their results. -/
def init (xs : List Int) (k : Nat) : State :=
  { nums := xs, inClosed := false,
    lanes := List.replicate k { sq := .recv, fwd := .recv, got := [] },
    out := Merge.Out.init k }

/-- The demo of `main`: `c1 := square(in)`, `c2 := square(in)`, `merge(c1, c2)`. -/
def mainInit (xs : List Int) : State := init xs 2

/-- One step of stage `k` or forwarder `k`, the lane being `l`. -/
def stepLane (s : State) (k : Nat) (l : Lane) : LaneOp → Option State
  | .sqRecv =>
    match s.nums, l.sq with
    | n :: rest, .recv =>
      some { s with nums := rest,
                    lanes := s.lanes.set k { l with sq := .send n, got := l.got ++ [n] } }
    | _, _ => none
  | .sqSend =>
    match l.sq, l.fwd with
    | .send n, .recv =>
      some { s with lanes := s.lanes.set k { l with sq := .recv, fwd := .send (mulInt n n) } }
    | _, _ => none
  | .sqExit =>
    match l.sq, s.nums, s.inClosed with
    | .recv, [], true => some { s with lanes := s.lanes.set k { l with sq := .exiting } }
    | _, _, _ => none
  | .sqClose =>
    match l.sq with
    | .exiting => some { s with lanes := s.lanes.set k { l with sq := .closed } }
    | _ => none
  | .fwdEnd =>
    match l.fwd, l.sq with
    | .recv, .closed => some { s with lanes := s.lanes.set k { l with fwd := .exiting } }
    | _, _ => none
  | .fwdSend =>
    match l.fwd with
    | .send n =>
      match s.out.send k n with
      | none => none
      | some o =>
        if o.panicked then some { s with out := o }
        else some { s with lanes := s.lanes.set k { l with fwd := .recv }, out := o }
    | _ => none
  | .fwdDone =>
    match l.fwd with
    | .exiting =>
      some { s with lanes := s.lanes.set k { l with fwd := .done }, out := s.out.wgDone }
    | _ => none

/-- One step of one goroutine. -/
def step (s : State) (a : Action) : Option State :=
  if s.out.panicked then none else
  match a with
  | .prodClose =>
    match s.nums, s.inClosed with
    | [], false => some { s with inClosed := true }
    | _, _ => none
  | .closerWake => (s.out.closerWake).map (fun o => { s with out := o })
  | .closerClose => (s.out.closerClose).map (fun o => { s with out := o })
  | .consumerEnd => (s.out.consumerEnd).map (fun o => { s with out := o })
  | .lane k op =>
    match s.lanes[k]? with
    | none => none
    | some l => stepLane s k l op

/-- The squares a lane holds and has not handed to `out` yet. -/
def laneContent (l : Lane) : Multiset Int :=
  ↑(Pipeline.inFlight l.sq) + ↑(Merge.holding l.fwd)

/-- Whether the forwarder has still to call `wg.Done()`: 1 if so, else 0. -/
def wgPending (l : Lane) : Nat :=
  match l.fwd with
  | .done => 0
  | _ => 1

/-- Steps a lane has still to take on its own. -/
def laneRank (l : Lane) : Nat :=
  (match l.sq with
   | .send _ => 4
   | .recv => 2
   | .exiting => 1
   | .closed => 0)
  + (match l.fwd with
     | .send _ => 3
     | .recv => 2
     | .exiting => 1
     | .done => 0)

/-- Upper bound on the number of steps left. -/
def measure (s : State) : Nat :=
  3 * s.nums.length + (if s.inClosed then 0 else 1) + (s.lanes.map laneRank).sum
    + Merge.outRank s.out

/-- Invariant of the fan-out, fan-in demo on the items `xs`. -/
structure Inv (xs : List Int) (s : State) : Prop where
  /-- every item is unsent or was received by exactly one stage -/
  distribute : (↑xs : Multiset Int)
    = (s.lanes.map (fun l => (Multiset.ofList l.got))).sum + ↑s.nums
  /-- the square of every item is delivered, held in a lane, or still to come -/
  conserve : (↑(Pipeline.squares xs) : Multiset Int)
    = ↑(s.out.delivered.map Prod.snd) + (s.lanes.map laneContent).sum
      + ↑(Pipeline.squares s.nums)
  inClosedOk : s.inClosed = true → s.nums = []
  /-- a stage leaves its loop only when `in` is closed and drained -/
  sqEnd : ∀ l ∈ s.lanes, (l.sq = .exiting ∨ l.sq = .closed) →
    s.nums = [] ∧ s.inClosed = true
  /-- a forwarder leaves its loop only when its stage has closed its output -/
  fwdEnd : ∀ l ∈ s.lanes, (l.fwd = .exiting ∨ l.fwd = .done) → l.sq = .closed
  wgOk : s.out.wg = (s.lanes.map wgPending).sum
  outOk : Merge.OutOk s.out

/-- The items `main` passes to `producer`: 1 to 8. -/
def mainNums : List Int := [1, 2, 3, 4, 5, 6, 7, 8]

/-- The steps that take the next item through lane `k`: the stage receives it,
hands its square to the forwarder, and the forwarder hands it to `main`. -/
def through (k : Nat) : List Action :=
  [.lane k .sqRecv, .lane k .sqSend, .lane k .fwdSend]

/-- The steps by which stage `k` and forwarder `k` return once `in` is closed. -/
def wind (k : Nat) : List Action :=
  [.lane k .sqExit, .lane k .sqClose, .lane k .fwdEnd, .lane k .fwdDone]

/-- A schedule of the demo on 1..8: the stages take 1 and 2 at the same time and
stage 1 is first to deliver, then the items 3..8 go through the lanes 0, 0, 1,
0, 1, 1. -/
def demoSched : List Action :=
  [.lane 0 .sqRecv, .lane 1 .sqRecv, .lane 0 .sqSend, .lane 1 .sqSend,
   .lane 1 .fwdSend, .lane 0 .fwdSend]
  ++ through 0 ++ through 0 ++ through 1 ++ through 0 ++ through 1 ++ through 1
  ++ [.prodClose] ++ wind 1 ++ wind 0 ++ [.closerWake, .closerClose, .consumerEnd]

/-- State of the demo at the end of `demoSched`. -/
def demoFinal : State :=
  { nums := [], inClosed := true,
    lanes := [{ sq := .closed, fwd := .done, got := [1, 3, 4, 6] },
              { sq := .closed, fwd := .done, got := [2, 5, 7, 8] }],
    out := { wg := 0, closer := .done, outClosed := true, closes := 1,
             delivered := [(1, 4), (0, 1), (0, 9), (0, 16), (1, 25), (0, 36), (1, 49),
                           (1, 64)],
             consumerDone := true, panicked := false } }

end FanOut

/-! ## Closing channels and `range` in `16_channels` -/

namespace Chan

/-- The statements `ch <- v` for the items of a list, one after the other, in a
goroutine that is alone with the channel: `none` when one of them panics or
blocks, which then is for ever. -/
def sendAll {α : Type} : Chan α → List α → Option (Chan α)
  | c, [] => some c
  | c, v :: vs =>
    match c.send v with
    | .sent c' => sendAll c' vs
    | _ => none

/-- The loop `for elem := range ch { ... }` in a goroutine that is alone with
the channel: the items received, oldest first, and the channel when the loop
ends; `none` when a receive blocks, which then is for ever, or when the fuel
runs out.  One unit of fuel is used per receive. -/
def rangeLoop {α : Type} : Nat → Chan α → List α → Option (List α × Chan α)
  | 0, _, _ => none
  | fuel + 1, c, acc =>
    match c.recv with
    | .got v c' => rangeLoop fuel c' (acc ++ [v])
    | .drained => some (acc, c)
    | .blocks => none

end Chan

namespace Channels

/-- The section "closing channels and range" of `main`:
`queue := make(chan string, 2)`, the two sends, `close(queue)` and the loop
`for elem := range queue`; the result is what the loop prints and the channel
after it. -/
def rangeDemo (fuel : Nat) : Option (List String × Chan String) :=
  match (Chan.make String 2).sendAll ["one", "two"] with
  | none => none
  | some q =>
    match q.close with
    | none => none
    | some q' => Chan.rangeLoop fuel q' []

end Channels

namespace AdvancedConcurrency

/-- The job `Job{ID: j, Data: j * 10}` that `main` builds for the number `j`. -/
def mkJob (j : Nat) : Job := { ID := (j : Int), Data := mulInt (j : Int) 10 }

/-- A schedule of the pool with 22 jobs and one worker: `main` fills the job
queue, then the worker takes a job, `main` sends the next one and the worker
publishes, ten times over, and once more the worker takes and `main` sends. -/
def blockSched : List Pool.Action :=
  List.replicate 10 .mainSend
  ++ (List.range 10).flatMap (fun _ => [.take 0, .mainSend, .publish 0])
  ++ [.take 0, .mainSend]

/-- State of the pool at the end of `blockSched`: both queues are full, the
worker holds job 11 and `main` has job 22 left to send. -/
def blockState : Pool.State Job Result :=
  { main := .send [mkJob 22], numJobs := 22,
    jobs := { buf := (List.range 10).map (fun i => mkJob (i + 12)), cap := 10,
              closed := false },
    results := { buf := (List.range 10).map (fun i => worker (mkJob (i + 1))), cap := 10,
                 closed := false },
    workers := [.busy (mkJob 11)],
    published := (List.range 10).map (fun i => worker (mkJob (i + 1))),
    collected := [], panicked := false }

end AdvancedConcurrency

/-! ## Pattern 4 of `21_advanced_concurrency`: `rateLimiter`

Time is a logical clock counting nanoseconds, as `time.Duration` does.  A
receive from a ticker takes until a tick is there; every other statement takes
no time, except where a delay is passed in explicitly. -/

namespace RateLimit

/-- The constant `time.Millisecond`, in nanoseconds. -/
def millisecond : Nat := 1000000

/-- The interval `200 * time.Millisecond` of both tickers of `rateLimiter`. -/
def interval : Nat := 200 * millisecond

/-- A ticker as made by `time.Tick(d)` or `time.NewTicker(d)`: ticks happen at
`created + k * period` for `k = 1, 2, ...`; its channel holds at most one tick,
and a tick that finds the channel full is dropped. -/
structure Ticker where
  /-- instant of creation -/
  created : Nat
  /-- the duration `d` -/
  period : Nat
  /-- instant since which the channel holds no tick: the creation or the last
  receive -/
  emptySince : Nat
  deriving DecidableEq, Repr

namespace Ticker

/-- The ticker made at instant `now` with period `d`. -/
def new (now d : Nat) : Ticker := { created := now, period := d, emptySince := now }

/-- The first tick after the channel became empty: the one a receive gets. -/
def nextTick (tk : Ticker) : Nat :=
  tk.created + ((tk.emptySince - tk.created) / tk.period + 1) * tk.period

/-- A receive from the ticker's channel started at instant `now`: the instant at
which it returns (at once when the tick is already in the channel, else when the
tick happens) and the ticker after it. -/
def recv (tk : Ticker) (now : Nat) : Nat × Ticker :=
  let t := max now tk.nextTick
  (t, { tk with emptySince := t })

end Ticker

/-- State of the loop `for req := range requests` of `rateLimiter`. -/
structure LoopState where
  /-- the clock -/
  now : Nat
  /-- the ticker behind `limiter := time.Tick(...)` -/
  limiter : Ticker
  /-- `ticker := time.NewTicker(...)` -/
  ticker : Ticker
  /-- the requests granted so far, each with the instant of its `Println` -/
  granted : List (Int × Nat)
  deriving DecidableEq, Repr

/-- One iteration of the loop for the request `req`: `<-limiter`, `<-ticker.C`,
then the `Println`, which takes `delay req`. -/
def serve (delay : Int → Nat) (s : LoopState) (req : Int) : LoopState :=
  let r1 := s.limiter.recv s.now
  let r2 := s.ticker.recv r1.1
  { now := r2.1 + delay req, limiter := r1.2, ticker := r2.2,
    granted := s.granted ++ [(req, r2.1)] }

/-- The loop `for req := range requests`, by the receives from `requests`;
`none` when a receive blocks or the fuel runs out. -/
def serveAll (delay : Int → Nat) : Nat → Chan Int → LoopState → Option LoopState
  | 0, _, _ => none
  | fuel + 1, c, s =>
    match c.recv with
    | .got req c' => serveAll delay fuel c' (serve delay s req)
    | .drained => some s
    | .blocks => none

/-- The function `rateLimiter`, the clock starting at 0 when `limiter` is made:
`gap` is the time between the making of `limiter` and of `ticker`, `delay req`
the time the `Println` of request `req` takes.  The result is the list of the
requests granted, each with the instant it was granted. -/
def rateLimiter (gap : Nat) (delay : Int → Nat) : Option (List (Int × Nat)) :=
  match (Chan.make Int 5).sendAll [1, 2, 3, 4, 5] with
  | none => none
  | some requests =>
    match requests.close with
    | none => none
    | some requests =>
      let limiter := Ticker.new 0 interval
      let ticker := Ticker.new gap interval
      match serveAll delay 6 requests
          { now := gap, limiter := limiter, ticker := ticker, granted := [] } with
      | none => none
      | some s => some s.granted

/-- Number of requests granted up to and including the instant `d`. -/
def grantedBy (log : List (Int × Nat)) (d : Nat) : Nat :=
  (log.filter (fun p => decide (p.2 ≤ d))).length

end RateLimit

/-! ## `22_context`: `doWork` -/

namespace Context

/-- Modelled from the spec: the reason of a Done context, `Cancelled` or
`DeadlineExceeded` (the values `context.Canceled` and
`context.DeadlineExceeded` of `ctx.Err()`; the package `context` is only called
by the repository). -/
inductive Reason where
  | cancelled
  | deadlineExceeded
  deriving DecidableEq, Repr

/-- Modelled from the spec: the state of a cancellation context, `Active` or
`Done(reason)`; `ctx.Done()` is closed exactly in the state `done`. -/
inductive CtxState where
  | active
  | done (reason : Reason)
  deriving DecidableEq, Repr

/-- What `doWork` prints. -/
inductive Event where
  /-- the `default` case: `"Working..."` and the sleep of 500 ms -/
  | working
  /-- the case `<-ctx.Done()`: `"Cancelled! Reason: ..."` with `ctx.Err()` -/
  | cancelled (reason : Reason)
  deriving DecidableEq, Repr

/-- The function `doWork(ctx, name)`, from its iteration number `iter` on, for at
most `fuel` iterations: `observe k` is the state in which the `select` of
iteration `k` finds `ctx`.  The result is what is printed and whether `doWork`
has returned. -/
def doWork (observe : Nat → CtxState) : Nat → Nat → List Event × Bool
  | 0, _ => ([], false)
  | fuel + 1, iter =>
    match observe iter with
    | .done reason => ([.cancelled reason], true)
    | .active =>
      let rest := doWork observe fuel (iter + 1)
      (.working :: rest.1, rest.2)

/-- The context of "Worker 1" in `main` as its `select` finds it: cancelled by
`cancel1()` after the sleep of two seconds, during which four iterations start. -/
def observeWorker1 (k : Nat) : CtxState :=
  if k < 4 then .active else .done .cancelled

end Context

/-! ## `22_context`: the cancellation context

The repository calls the package `context` and does not contain it.  The
context is modelled from section 4.1 of the spec as a tree of nodes under a
logical clock; the nodes are kept newest first, so that the number of a node is
the number of nodes older than it and a parent is always older than its
children. -/

namespace Context

/-- The constant `time.Second`, in nanoseconds. -/
def second : Nat := 1000 * RateLimit.millisecond

/-- The identity of a Go type: `string`, or a type defined by a declaration
`type name ...` inside the function `scope`.  Two type declarations define two
different types, also when they use the same name. -/
inductive GoType where
  | string
  | defined (scope : String) (name : String)
  deriving DecidableEq, Repr

/-- A value of interface type `any`: its dynamic type and its value.  Two such
values are equal (`==`) when both the types and the values are. -/
structure Dyn where
  typ : GoType
  val : String
  deriving DecidableEq, Repr

/-- Modelled from the spec: a node of the context tree, with its parent, its
state, its deadline if it has a timer, whether it still holds the timer
resource, whether it was derived with a cancel operation, whether that
operation has made it Done, and its binding if it was derived with a value. -/
structure Node where
  parent : Option Nat
  state : CtxState
  deadline : Option Nat
  timer : Bool
  canCancel : Bool
  cancelCalled : Bool
  binding : Option (Dyn × Dyn)
  deriving DecidableEq, Repr

/-- Modelled from the spec: the contexts of a program, newest first, and the
clock. -/
structure Tree where
  now : Nat
  nodes : List Node
  deriving DecidableEq, Repr

/-- Modelled from the spec: the node with number `id`. -/
def getNode : List Node → Nat → Option Node
  | [], _ => none
  | n :: older, id => if id = older.length then some n else getNode older id

/-- Modelled from the spec: the state of the parent of a node, if it has one. -/
def parentState (older : List Node) (n : Node) : Option CtxState :=
  match n.parent with
  | none => none
  | some p => (getNode older p).map (fun m => m.state)

/-- Modelled from the spec: the transition Active → Done of one node: an Active
node becomes Done with its parent's reason when its parent is Done, else Done
with `DeadlineExceeded` when its deadline has come; a Done node stays as it
is. -/
def settleNode (now : Nat) (older : List Node) (n : Node) : Node :=
  match n.state with
  | .done _ => n
  | .active =>
    match parentState older n with
    | some (.done r) => { n with state := .done r, timer := false }
    | _ =>
      match n.deadline with
      | some dl =>
        if dl ≤ now then { n with state := .done .deadlineExceeded, timer := false }
        else n
      | none => n

/-- Modelled from the spec: the transitions of all nodes, parents before
children. -/
def settle (now : Nat) : List Node → List Node
  | [] => []
  | n :: older => settleNode now (settle now older) n :: settle now older

/-- Modelled from the spec: the effect of `cancel(ctx)` on the node itself: an
Active node derived with a cancel operation becomes Done with `Cancelled` and
gives up its timer; any other node stays as it is. -/
def markCancelled (id : Nat) : List Node → List Node
  | [] => []
  | n :: older =>
    if id = older.length then
      (match n.canCancel, n.state with
       | true, .active =>
         { n with state := .done .cancelled, timer := false, cancelCalled := true }
       | _, _ => n) :: older
    else n :: markCancelled id older

/-- Modelled from the spec: `context_background()`, the clock at 0. -/
def background : Tree :=
  { now := 0,
    nodes := [{ parent := none, state := .active, deadline := none, timer := false,
                canCancel := false, cancelCalled := false, binding := none }] }

/-- Modelled from the spec: a new node is added; it is Done at once when its
parent is Done or its deadline has come.  The result is the tree and the number
of the new node. -/
def derive (t : Tree) (n : Node) : Tree × Nat :=
  ({ t with nodes := settleNode t.now t.nodes n :: t.nodes }, t.nodes.length)

/-- Modelled from the spec: `derive_cancel(parent)`. -/
def deriveCancel (t : Tree) (parent : Nat) : Tree × Nat :=
  derive t { parent := some parent, state := .active, deadline := none, timer := false,
             canCancel := true, cancelCalled := false, binding := none }

/-- Modelled from the spec: `derive_deadline(parent, instant)`. -/
def deriveDeadline (t : Tree) (parent instant : Nat) : Tree × Nat :=
  derive t { parent := some parent, state := .active, deadline := some instant,
             timer := true, canCancel := true, cancelCalled := false, binding := none }

/-- Modelled from the spec: `derive_timeout(parent, duration)`. -/
def deriveTimeout (t : Tree) (parent duration : Nat) : Tree × Nat :=
  deriveDeadline t parent (t.now + duration)

/-- Modelled from the spec: `derive_value(parent, key, value)`. -/
def deriveValue (t : Tree) (parent : Nat) (key value : Dyn) : Tree × Nat :=
  derive t { parent := some parent, state := .active, deadline := none, timer := false,
             canCancel := false, cancelCalled := false, binding := some (key, value) }

/-- Modelled from the spec: `cancel(ctx)`, which also makes the descendants of
the node Done. -/
def cancel (t : Tree) (id : Nat) : Tree :=
  { t with nodes := settle t.now (markCancelled id t.nodes) }

/-- Modelled from the spec: the clock moves on by `dt`; the timers whose
deadline has come fire. -/
def advance (t : Tree) (dt : Nat) : Tree :=
  { now := t.now + dt, nodes := settle (t.now + dt) t.nodes }

/-- Modelled from the spec: the state of context `id` (Active for a number that
names no context). -/
def stateOf (t : Tree) (id : Nat) : CtxState :=
  match getNode t.nodes id with
  | some n => n.state
  | none => .active

/-- Modelled from the spec: `is_done(ctx)`. -/
def isDone (t : Tree) (id : Nat) : Bool :=
  match stateOf t id with
  | .done _ => true
  | .active => false

/-- Modelled from the spec: `reason(ctx)`, the value of `ctx.Err()`; `none` is
`None`. -/
def reason (t : Tree) (id : Nat) : Option Reason :=
  match stateOf t id with
  | .done r => some r
  | .active => none

/-- Modelled from the spec: `lookup(ctx, key)`, from the node numbered `id`
through its ancestors, the nearest binding of the key first. -/
def lookupIn : List Node → Option Nat → Dyn → Option Dyn
  | [], _, _ => none
  | n :: older, id, key =>
    if id = some older.length then
      match n.binding with
      | some (k, v) => if k = key then some v else lookupIn older n.parent key
      | none => lookupIn older n.parent key
    else lookupIn older id key

/-- Modelled from the spec: `value(ctx, key)`, the call `ctx.Value(key)`. -/
def value (t : Tree) (id : Nat) (key : Dyn) : Option Dyn :=
  lookupIn t.nodes (some id) key

/-- The operations a program performs on its contexts, and the passing of
time. -/
inductive Op where
  | deriveCancel (parent : Nat)
  | deriveTimeout (parent duration : Nat)
  | deriveDeadline (parent instant : Nat)
  | deriveValue (parent : Nat) (key value : Dyn)
  | cancel (id : Nat)
  | advance (dt : Nat)
  deriving DecidableEq, Repr

/-- The tree after an operation. -/
def applyOp (t : Tree) : Op → Tree
  | .deriveCancel p => (deriveCancel t p).1
  | .deriveTimeout p d => (deriveTimeout t p d).1
  | .deriveDeadline p i => (deriveDeadline t p i).1
  | .deriveValue p k v => (deriveValue t p k v).1
  | .cancel id => cancel t id
  | .advance dt => advance t dt

/-- The tree after a sequence of operations. -/
def runOps (t : Tree) (ops : List Op) : Tree := ops.foldl applyOp t

end Context
namespace Context

/-- No transition is pending: every node has made the transitions its parent
and its deadline call for. -/
def Settled (t : Tree) : Prop := settle t.now t.nodes = t.nodes

/-- Every Done node has a cause: `DeadlineExceeded` comes from its own deadline
or from its parent, `Cancelled` from its own cancel operation or from its
parent; and a Done node holds no timer. -/
def Justified (now : Nat) : List Node → Prop
  | [] => True
  | n :: older =>
    (∀ r, n.state = .done r → n.timer = false)
    ∧ (n.state = .done .deadlineExceeded →
        (∃ dl, n.deadline = some dl ∧ dl ≤ now)
          ∨ parentState older n = some (.done .deadlineExceeded))
    ∧ (n.state = .done .cancelled →
        (n.cancelCalled = true ∧ n.canCancel = true)
          ∨ parentState older n = some (.done .cancelled))
    ∧ Justified now older

/-- The operations of `main` on its contexts, with the sleeps between them and
the second it waits in its `select`, up to its return; the contexts `ctx1` to
`ctx5` get the numbers 1 to 5. -/
def mainOps : List Op :=
  [.deriveCancel 0, .advance (2 * second), .cancel 1, .advance (second / 2),
   .deriveTimeout 0 (2 * second), .advance (3 * second),
   .deriveDeadline 0 (5 * second + second / 2 + (second + second / 2)),
   .advance (2 * second),
   .deriveValue 0 ⟨.defined "main" "key", "user"⟩ ⟨.string, "Alice"⟩,
   .deriveTimeout 0 second, .advance second]

/-- The deferred calls `cancel5()`, `cancel3()`, `cancel2()` that run when `main`
returns. -/
def mainDeferred : List Op := [.cancel 5, .cancel 3, .cancel 2]

end Context
namespace Context

/-- The node of the background context. -/
def rootNode : Node :=
  { parent := none, state := .active, deadline := none, timer := false,
    canCancel := false, cancelCalled := false, binding := none }

/-- What the `select` of the simulated HTTP request does. -/
inductive Outcome where
  /-- the case `<-ctx5.Done()`: `"Request timeout:"` with `ctx5.Err()` -/
  | timeout (err : Option Reason)
  /-- the case `res := <-result`: `"Got result:"` with `res` -/
  | result (res : String)
  deriving DecidableEq, Repr

/-- State of the simulated HTTP request while `main` waits in its `select`. -/
structure HttpState where
  tree : Tree
  /-- the channel `result` -/
  result : Chan String
  /-- the goroutine has sent its response -/
  sent : Bool
  deriving DecidableEq, Repr

/-- The goroutine of the simulated request at one instant: once its sleep is
over, at instant `respAt`, it sends `"API Response"` on `result`. -/
def httpGoroutine (respAt : Nat) (s : HttpState) : HttpState :=
  if s.sent = false ∧ respAt ≤ s.tree.now then
    match s.result.send "API Response" with
    | .sent c => { s with result := c, sent := true }
    | _ => s
  else s

/-- The `select` of `main` on `ctx5.Done()` and `result`, instant by instant: it
takes a case that is ready, the one `pick` names when both are, and lets the
clock move on by one unit when none is; `none` when the fuel runs out. -/
def httpSelect (ctx5 respAt : Nat) (pick : Bool) : Nat → HttpState → Option Outcome
  | 0, _ => none
  | fuel + 1, s =>
    let s1 := httpGoroutine respAt s
    match isDone s1.tree ctx5, s1.result.recv with
    | true, .got res _ =>
      if pick then some (.timeout (reason s1.tree ctx5)) else some (.result res)
    | true, _ => some (.timeout (reason s1.tree ctx5))
    | false, .got res _ => some (.result res)
    | false, _ => httpSelect ctx5 respAt pick fuel { s1 with tree := advance s1.tree 1 }

/-- The simulated HTTP request of `main`, started in the tree `t`:
`ctx5, cancel5 := context.WithTimeout(context.Background(), timeout)`,
`result := make(chan string, 1)`, the goroutine that sleeps `respAfter` and sends,
and the `select`. -/
def httpRequest (t : Tree) (timeout respAfter : Nat) (pick : Bool) (fuel : Nat) :
    Option Outcome :=
  let d := deriveTimeout t 0 timeout
  httpSelect d.2 (t.now + respAfter) pick fuel
    { tree := d.1, result := Chan.make String 1, sent := false }

end Context

namespace Context

/-- No transition caused by a parent is pending: no Active node has a Done
parent. -/
def NoPending : List Node → Prop
  | [] => True
  | n :: older =>
    (n.state = .active → ∀ r, parentState older n ≠ some (.done r)) ∧ NoPending older

/-- What holds while `main` waits in its `select` and the goroutine has not sent
yet: `ctx5` is the newest context, a child of the background context with the
deadline `dl`, Active before `dl` and Done with `DeadlineExceeded` from `dl`
on; `result` is empty. -/
def HttpInv (dl : Nat) (ctx5 : Nat) (s : HttpState) : Prop :=
  ∃ n older, s.tree.nodes = n :: older ∧ ctx5 = older.length
    ∧ getNode older 0 = some rootNode
    ∧ n.parent = some 0 ∧ n.deadline = some dl
    ∧ (s.tree.now < dl → n.state = .active)
    ∧ (dl ≤ s.tree.now → n.state = .done .deadlineExceeded)
    ∧ s.sent = false ∧ s.result = Chan.make String 1

/-- The operations of `main` before its simulated HTTP request. -/
def mainOpsBeforeHttp : List Op := mainOps.take 9

end Context

namespace Context

/-- The constant `userKey` of `main`: the string `"user"` with the type `key`
that `main` declares. -/
def mainUserKey : Dyn := ⟨.defined "main" "key", "user"⟩

/-- The constant `userKey` of `processRequest`: the string `"user"` with the type
`key` that `processRequest` declares. -/
def processRequestUserKey : Dyn := ⟨.defined "processRequest" "key", "user"⟩

/-- The type assertion `x.(string)` in its two-value form, on the result of
`ctx.Value`: `none` is `ok == false`, for `nil` and for a value of another
type. -/
def assertString : Option Dyn → Option String
  | some ⟨.string, v⟩ => some v
  | _ => none

/-- What `processRequest` prints. -/
inductive RequestOutput where
  /-- the line `"Processing request for user: "` with the user -/
  | processing (user : String)
  /-- the line `"No user in context"` -/
  | noUser
  deriving DecidableEq, Repr

/-- The function `processRequest`: it looks up its own `userKey` in `ctx` and
asserts the result to be a string. -/
def processRequest (t : Tree) (ctx : Nat) : RequestOutput :=
  match assertString (value t ctx processRequestUserKey) with
  | some user => .processing user
  | none => .noUser

/-- The statement `ctx4 := context.WithValue(context.Background(), userKey, "Alice")`
of `main`, in the tree `t`. -/
def mainCtx4 (t : Tree) : Tree × Nat := deriveValue t 0 mainUserKey ⟨.string, "Alice"⟩

end Context

namespace Pool

/-- The operations of the pool, and a fault raised in worker `w` while it
processes the job it holds. -/
inductive FaultAction where
  /-- an operation of `main` or of a worker -/
  | op (a : Action)
  /-- a panic in worker `w` between its receive of a job and its send of the
  result -/
  | fault (w : Nat)
  deriving DecidableEq, Repr

/-- One step of the pool when the processing of a job may fault.  `worker` has no
deferred call and no `recover`: a panic raised while it processes a job is not
caught, it ends the program, and no goroutine takes a further step. -/
def stepFaulty {α β : Type} [Inhabited β] (f : α → β) (s : State α β) :
    FaultAction → Option (State α β)
  | .op a => step f s a
  | .fault w =>
    if s.panicked then none else
    match s.workers[w]? with
    | some (.busy _) => some { s with panicked := true }
    | _ => none

/-- The program has ended by a fault in a worker that held a job. -/
def Crashed {α β : Type} (f : α → β) (js : List α) (numWorkers jobCap resCap : Nat)
    (s : State α β) : Prop :=
  ∃ (s0 : State α β) (w : Nat) (j : α), Inv f js numWorkers jobCap resCap s0
    ∧ s0.workers[w]? = some (.busy j) ∧ s = { s0 with panicked := true }

end Pool

namespace AdvancedConcurrency

/-- A schedule of the pool demo of `main` in which worker 1 faults while it
processes job 2, after worker 0 has published the result of job 1. -/
def poolFaultSched : List Pool.FaultAction :=
  [.op .mainSend, .op .mainSend, .op .mainSend, .op .mainSend, .op .mainSend,
   .op .mainClose, .op (.take 0), .op (.take 1), .op (.publish 0), .fault 1]

/-- State of the pool demo at the end of that schedule. -/
def poolFaultFinal : Pool.State Job Result :=
  { main := .collect 5, numJobs := 5,
    jobs := { buf := [⟨3, 30⟩, ⟨4, 40⟩, ⟨5, 50⟩], cap := 10, closed := true },
    results := { buf := [worker ⟨1, 10⟩], cap := 10, closed := false },
    workers := [.idle, .busy ⟨2, 20⟩, .idle],
    published := [worker ⟨1, 10⟩], collected := [], panicked := true }

end AdvancedConcurrency

/-! ## `06_functions`: the closure `counter` -/

namespace Functions

/-- The variables `count` captured by the closures made so far: each call of
`counter` makes a new one, and the closure it returns is known by the number of
its variable. -/
abbrev Heap := List Int

/-- The function `counter`: `count := 0`, and the closure over `count` is
returned. -/
def counter (h : Heap) : Heap × Nat := (h ++ [0], h.length)

/-- A call of the closure `c`: `count++`, then `return count`; `none` for a
number that names no closure. -/
def call (h : Heap) (c : Nat) : Option (Heap × Int) :=
  match h[c]? with
  | some count => some (h.set c (addInt count 1), addInt count 1)
  | none => none

/-- A statement of a program that uses `counter`. -/
inductive Op where
  /-- `counter()` -/
  | counter
  /-- a call of the closure `c` -/
  | call (c : Nat)
  deriving DecidableEq, Repr

/-- A program run statement by statement; the log holds, oldest first, the
closure and the returned value of every call. -/
def run : Heap → List (Nat × Int) → List Op → Option (Heap × List (Nat × Int))
  | h, log, [] => some (h, log)
  | h, log, .counter :: ops => run (counter h).1 log ops
  | h, log, .call c :: ops =>
    match call h c with
    | some (h', v) => run h' (log ++ [(c, v)]) ops
    | none => none

/-- The number of calls of the closure `c` in a log. -/
def callsOn (c : Nat) (log : List (Nat × Int)) : Nat :=
  (log.filter (fun e => decide (e.1 = c))).length

/-- Each variable `count` holds the number of calls of its closure, as an
`int`, and every call in the log is a call of a closure that exists. -/
def CounterInv (h : Heap) (log : List (Nat × Int)) : Prop :=
  (∀ c count, h[c]? = some count → count = wrapInt (callsOn c log))
  ∧ ∀ e ∈ log, e.1 < h.length

/-- The closure part of `main`: `increment := counter()`, three calls of it,
`newCounter := counter()` and one call of it. -/
def mainOps : List Op := [.counter, .call 0, .call 0, .call 0, .counter, .call 1]

end Functions

namespace Functions

/-- Every call in the log returned the number of calls of its closure up to and
including itself, as an `int`. -/
def LogOk (log : List (Nat × Int)) : Prop :=
  ∀ (i c : Nat) (v : Int), log[i]? = some (c, v) → v = wrapInt (callsOn c (log.take (i + 1)))

end Functions

/-! ## `23_generics`: the generic `Stack` -/

namespace Generics

/-- The struct `Stack[T]`: `items` is the slice, the bottom of the stack first. -/
structure Stack (α : Type) where
  items : List α
  deriving DecidableEq, Repr

namespace Stack

/-- The method `Push`: `s.items = append(s.items, item)`. -/
def Push {α : Type} (s : Stack α) (item : α) : Stack α :=
  { items := s.items ++ [item] }

/-- The method `Pop`: the returned item, the returned flag and the stack
afterwards.  On the empty stack the item is the zero value of `T`, the element
`default`. -/
def Pop {α : Type} [Inhabited α] (s : Stack α) : α × Bool × Stack α :=
  if s.items.length = 0 then (default, false, s)
  else
    (s.items.getD (s.items.length - 1) default, true,
      { items := s.items.take (s.items.length - 1) })

/-- The method `IsEmpty`. -/
def IsEmpty {α : Type} (s : Stack α) : Bool := decide (s.items.length = 0)

end Stack

/-- The pushes `Push(x1)`, ..., `Push(xn)` one after the other. -/
def pushAll {α : Type} (s : Stack α) (xs : List α) : Stack α := xs.foldl Stack.Push s

/-- The loop `for !s.IsEmpty() { item, _ := s.Pop(); fmt.Println("Popped:", item) }`
of `main`: the items printed, in order, and the stack afterwards; `fuel` bounds
the number of evaluations of the loop condition, `none` when it runs out. -/
def popLoop {α : Type} [Inhabited α] : Nat → Stack α → Option (List α × Stack α)
  | 0, _ => none
  | fuel + 1, s =>
    if s.IsEmpty then some ([], s)
    else
      match popLoop fuel s.Pop.2.2 with
      | some (out, s') => some (s.Pop.1 :: out, s')
      | none => none

end Generics

/-! ## `28_middleware_patterns`: `Chain` -/

namespace Middleware

/-- The loop of `Chain` with the index `i` at `k - 1`: the middlewares with the
indices `k - 1` down to `0` are still to be applied to `f`. -/
def chainLoop {H : Type} (middlewares : List (H → H)) :
    (k : Nat) → k ≤ middlewares.length → H → H
  | 0, _, f => f
  | i + 1, h, f =>
    chainLoop middlewares i (Nat.le_of_succ_le h) (middlewares.get ⟨i, h⟩ f)

/-- The function `Chain`, for handlers of any type `H` and middlewares that map a
handler to a handler: `for i := len(middlewares) - 1; i >= 0; i--` with the body
`f = middlewares[i](f)`, then `return f`. -/
def Chain {H : Type} (f : H) (middlewares : List (H → H)) : H :=
  chainLoop middlewares middlewares.length (Nat.le_refl _) f

end Middleware

/-! ## `11_methods`: `Node.Sum` -/

namespace Methods

/-- The struct `Node`; the pointer `Next` is `none` for `nil` and else the
address of a node. -/
structure Node where
  Value : Int
  Next : Option Nat
  deriving DecidableEq, Repr

/-- The nodes that have been allocated, by address. -/
abbrev Heap := List Node

/-- The method `Sum` on the pointer `n`: `0` on `nil`, else
`n.Value + n.Next.Sum()` in `int` arithmetic.  `fuel` bounds the depth of the
recursion; `none` when it runs out. -/
def Sum (heap : Heap) : Nat → Option Nat → Option Int
  | 0, _ => none
  | _ + 1, none => some 0
  | fuel + 1, some a =>
    match heap[a]? with
    | none => none
    | some node =>
      match Sum heap fuel node.Next with
      | some rest => some (addInt node.Value rest)
      | none => none

/-- The pointer `n` is the head of a finite list that ends in `nil` and holds
the values `vs`. -/
def IsList (heap : Heap) : Option Nat → List Int → Prop
  | n, [] => n = none
  | n, v :: vs =>
    ∃ a node, n = some a ∧ heap[a]? = some node ∧ node.Value = v
      ∧ IsList heap node.Next vs

/-- The heap of `main` after `node = &Node{Value: 10, Next: &Node{Value: 20, Next: nil}}`:
the inner node at address 0, the outer one at address 1. -/
def mainHeap : Heap := [{ Value := 20, Next := none }, { Value := 10, Next := some 0 }]

end Methods

/-! ## `25_testing`: `Add` and its documented tests -/

namespace Testing

/-- The function `Add`: `return a + b` on `int`. -/
def Add (a b : Int) : Int := addInt a b

/-- The documented test `TestAdd`: the `t.Errorf` messages it produces, as the
pairs of the result and the expected value. -/
def TestAdd : List (Int × Int) :=
  let result := Add 2 3
  let expected := 5
  if result ≠ expected then [(result, expected)] else []

/-- The documented test `TestAddNegative`. -/
def TestAddNegative : List (Int × Int) :=
  let result := Add (-1) (-1)
  let expected := -2
  if result ≠ expected then [(result, expected)] else []

/-- The table `tests` of the documented test `TestAddTable`: name, `a`, `b`,
`expected`. -/
def addTable : List (String × Int × Int × Int) :=
  [("positive", 2, 3, 5), ("negative", -1, -1, -2), ("zero", 0, 5, 5), ("mixed", -3, 5, 2)]

/-- The documented test `TestAddTable`: the names of the subtests that call
`t.Errorf`. -/
def TestAddTable : List String :=
  (addTable.filter (fun tt => decide (Add tt.2.1 tt.2.2.1 ≠ tt.2.2.2))).map (fun tt => tt.1)

end Testing

/-! ## `26_benchmarking`: `Fibonacci` and `FibonacciIterative` -/

namespace Benchmarking

/-- The largest `int`, `math.MaxInt64`. -/
def maxInt : Int := 2 ^ (intBits - 1) - 1

/-- The function `Fibonacci`; `fuel` bounds the depth of the recursion, `none`
when it runs out. -/
def Fibonacci : Nat → Int → Option Int
  | 0, _ => none
  | fuel + 1, n =>
    if n ≤ 1 then some n
    else
      match Fibonacci fuel (wrapInt (n - 1)), Fibonacci fuel (wrapInt (n - 2)) with
      | some x, some y => some (addInt x y)
      | _, _ => none

/-- The loop `for i := 2; i <= n; i++ { a, b = b, a+b }` of
`FibonacciIterative` followed by `return b`; `fuel` bounds the number of
evaluations of the condition, `none` when it runs out. -/
def fibLoop (n : Int) : Nat → Int → Int → Int → Option Int
  | 0, _, _, _ => none
  | fuel + 1, i, a, b =>
    if i ≤ n then fibLoop n fuel (addInt i 1) b (addInt a b) else some b

/-- The function `FibonacciIterative`. -/
def FibonacciIterative (fuel : Nat) (n : Int) : Option Int :=
  if n ≤ 1 then some n else fibLoop n fuel 2 0 1

/-- The Fibonacci numbers in `int` arithmetic. -/
def fibSeq : Nat → Int
  | 0 => 0
  | 1 => 1
  | k + 2 => addInt (fibSeq (k + 1)) (fibSeq k)

end Benchmarking

namespace Middleware

/-- The constant `http.StatusUnauthorized`. -/
def StatusUnauthorized : Nat := 401

/-- The type `http.HandlerFunc`, for any type `W` of the state of a response
writer and any type `R` of requests: a handler maps the state of the writer
before the call and the request to the state of the writer after the call. -/
abbrev HandlerFunc (W R : Type) := W → R → W

/-- The function `AuthMiddleware`.  The package `net/http` is not part of the
repository: `headerGet r key` stands for `r.Header.Get(key)` and
`httpError w msg code` for `http.Error(w, msg, code)`. -/
def AuthMiddleware {W R : Type} (headerGet : R → String → String)
    (httpError : W → String → Nat → W) (next : HandlerFunc W R) : HandlerFunc W R :=
  fun w r =>
    let token := headerGet r "Authorization"
    if token = "" then httpError w "Missing authorization token" StatusUnauthorized
    else if token ≠ "Bearer valid-token" then httpError w "Invalid token" StatusUnauthorized
    else next w r

/-- A handler that also counts its calls, next to the state of the writer. -/
def counted {W R : Type} (next : HandlerFunc W R) : HandlerFunc (W × Nat) R :=
  fun p r => (next p.1 r, p.2 + 1)

/-- The function `httpError` on a writer that carries a count of calls: the
count is left as it is. -/
def countedError {W : Type} (httpError : W → String → Nat → W) :
    W × Nat → String → Nat → W × Nat :=
  fun p msg code => (httpError p.1 msg code, p.2)

/-- A response for the examples: the status code and the body. -/
structure Response where
  status : Nat
  body : String
  deriving DecidableEq, Repr

/-- A request for the examples: its header fields. -/
abbrev Request := List (String × String)

/-- The value of a header field of a request of the examples, `""` when the
request has no such field. -/
def exampleHeaderGet (r : Request) (key : String) : String :=
  match r.find? (fun kv => kv.1 == key) with
  | some kv => kv.2
  | none => ""

/-- An error reply in the examples: the status code, and the message as a line
of the body. -/
def exampleError (w : Response) (msg : String) (code : Nat) : Response :=
  { status := code, body := w.body ++ msg ++ "\n" }

/-- The handler `apiHandler` in the examples: `fmt.Fprintf(w, "API endpoint")`. -/
def exampleApiHandler : HandlerFunc Response Request :=
  fun w _ => { w with body := w.body ++ "API endpoint" }

end Middleware

namespace Middleware

/-- The interval `time.Second / time.Duration(requestsPerSecond)` of
`RateLimitMiddleware`, in nanoseconds: Go's integer division, which truncates;
`none` is the run-time panic of a division by zero. -/
def tickInterval (requestsPerSecond : Int) : Option Int :=
  if requestsPerSecond = 0 then none
  else some (Int.tdiv (Context.second : Int) requestsPerSecond)

/-- The instant of tick number `k` (from 0) of the ticker `time.Tick(d)` made at
the instant `created`, for `d > 0`: the ticks are `d` apart, the first one `d`
after the ticker was made. -/
def tickTime (created d : Int) (k : Nat) : Int := created + ((k : Int) + 1) * d

/-- Tick number `k` happens in the half-open window from `a` of length `len`. -/
def inWindow (created d a len : Int) (k : Nat) : Bool :=
  decide (a ≤ tickTime created d k ∧ tickTime created d k < a + len)

/-- How many of the first `bound` ticks happen in the half-open window from `a`
of length `len`. -/
def ticksIn (created d a len : Int) (bound : Nat) : Nat :=
  ((List.range bound).filter (inWindow created d a len)).length

end Middleware

/-! ## `15_goroutines`: the counter protected by a mutex -/

namespace Goroutines

/-- Control point of a goroutine `func() { defer wg2.Done(); mu.Lock(); counter++; mu.Unlock() }`. -/
inductive TaskPc where
  /-- started, at `defer wg2.Done()` -/
  | start
  /-- at `mu.Lock()` -/
  | lock
  /-- holding `mu`, at the read of `counter` in `counter++` -/
  | load
  /-- holding `mu`, at the write of `counter` in `counter++`, having read `v` -/
  | store (v : Int)
  /-- at `mu.Unlock()` -/
  | unlock
  /-- returning: at the deferred `wg2.Done()` -/
  | wgDone
  /-- returned -/
  | returned
  deriving DecidableEq, Repr

/-- State of the counter example of `main`. -/
structure State where
  /-- iterations the launching loop has still to run -/
  toLaunch : Nat
  /-- the variable `counter` -/
  counter : Int
  /-- the mutex `mu` is locked -/
  mu : Bool
  /-- the counter of the WaitGroup `wg2` -/
  wg : Nat
  /-- the goroutines launched so far, in launch order -/
  tasks : List TaskPc
  /-- the value `main` has printed as `Final Counter`, once `wg2.Wait()` has
  returned -/
  printed : Option Int
  /-- a panic has ended the program -/
  panicked : Bool
  deriving DecidableEq, Repr

/-- The operations of `main` and of goroutine number `i`. -/
inductive Action where
  /-- `wg2.Add(1)` and `go func() {...}()` in the loop -/
  | launch
  /-- `wg2.Wait()` returns and `main` prints `counter` -/
  | wait
  /-- the next operation of goroutine number `i` (in launch order, from 0) -/
  | task (i : Nat)
  deriving DecidableEq, Repr

/-- State when `main` enters the loop, set to launch `n` goroutines (1000 in the
source). -/
def init (n : Nat) : State :=
  { toLaunch := n, counter := 0, mu := false, wg := 0, tasks := [], printed := none,
    panicked := false }

/-- One step of goroutine number `i`, which is at `pc`.  `mu.Lock()` waits while
`mu` is locked; `counter++` reads and then writes; `mu.Unlock()` on an unlocked
mutex and `wg2.Done()` on a zero counter end the program. -/
def stepTask (s : State) (i : Nat) : TaskPc → Option State
  | .start => some { s with tasks := s.tasks.set i .lock }
  | .lock =>
    if s.mu then none
    else some { s with mu := true, tasks := s.tasks.set i .load }
  | .load => some { s with tasks := s.tasks.set i (.store s.counter) }
  | .store v => some { s with counter := addInt v 1, tasks := s.tasks.set i .unlock }
  | .unlock =>
    if s.mu then some { s with mu := false, tasks := s.tasks.set i .wgDone }
    else some { s with panicked := true }
  | .wgDone =>
    match s.wg with
    | 0 => some { s with panicked := true }
    | k + 1 => some { s with wg := k, tasks := s.tasks.set i .returned }
  | .returned => none

/-- One step of one goroutine. -/
def step (s : State) (a : Action) : Option State :=
  if s.panicked then none else
  match a with
  | .launch =>
    match s.toLaunch with
    | 0 => none
    | k + 1 => some { s with toLaunch := k, wg := s.wg + 1, tasks := s.tasks ++ [.start] }
  | .wait =>
    if s.toLaunch = 0 ∧ s.wg = 0 ∧ s.printed = none then
      some { s with printed := some s.counter }
    else none
  | .task i =>
    match s.tasks[i]? with
    | some pc => stepTask s i pc
    | none => none

/-- 1 for a goroutine that has done its `counter++`. -/
def stored : TaskPc → Nat
  | .unlock => 1
  | .wgDone => 1
  | .returned => 1
  | _ => 0

/-- 1 for a goroutine that has completed its critical section: it has unlocked
`mu`. -/
def completed : TaskPc → Nat
  | .wgDone => 1
  | .returned => 1
  | _ => 0

/-- 1 for a goroutine that holds `mu`. -/
def holds : TaskPc → Nat
  | .load => 1
  | .store _ => 1
  | .unlock => 1
  | _ => 0

/-- 1 for a goroutine between the read and the write of `counter++`. -/
def storing : TaskPc → Nat
  | .store _ => 1
  | _ => 0

/-- 1 for a goroutine that has not yet called `wg2.Done()`. -/
def wgPending : TaskPc → Nat
  | .returned => 0
  | _ => 1

/-- Steps a goroutine has still to take. -/
def taskRank : TaskPc → Nat
  | .start => 6
  | .lock => 5
  | .load => 4
  | .store _ => 3
  | .unlock => 2
  | .wgDone => 1
  | .returned => 0

/-- Upper bound on the number of steps left. -/
def measure (s : State) : Nat :=
  7 * s.toLaunch + (s.tasks.map taskRank).sum + (if s.printed = none then 1 else 0)
    + (if s.panicked then 0 else 1)

/-- Invariant of the counter example set to launch `n` goroutines. -/
structure Inv (n : Nat) (s : State) : Prop where
  /-- `counter` is the number of goroutines that have done `counter++` -/
  counterOk : s.counter = wrapInt ((s.tasks.map stored).sum : Nat)
  /-- `mu` is locked exactly when one goroutine holds it -/
  muOk : (s.tasks.map holds).sum = if s.mu then 1 else 0
  /-- the value a goroutine has read is still the value of `counter` -/
  storeOk : ∀ v, TaskPc.store v ∈ s.tasks → v = s.counter
  wgOk : s.wg = (s.tasks.map wgPending).sum
  launched : s.toLaunch + s.tasks.length = n
  printedOk : ∀ v, s.printed = some v → s.toLaunch = 0 ∧ s.wg = 0 ∧ v = s.counter
  noPanic : s.panicked = false

/-- A schedule of three goroutines: all are launched, goroutine 1 takes `mu`
first, then goroutine 2, then goroutine 0, and each does its `counter++` while
the others wait. -/
def demoSched : List Action :=
  [.launch, .launch, .launch, .task 1, .task 0, .task 1, .task 2, .task 1, .task 1,
   .task 1, .task 2, .task 1, .task 2, .task 2, .task 2, .task 0, .task 0, .task 0,
   .task 0, .task 0, .task 2, .wait]

/-- The state after the first seven steps of that schedule: goroutine 1 holds
`mu`, the others are at `mu.Lock()`. -/
def demoMid : State :=
  { toLaunch := 0, counter := 0, mu := true, wg := 3, tasks := [.lock, .load, .lock],
    printed := none, panicked := false }

/-- The state at the end of that schedule. -/
def demoFinal : State :=
  { toLaunch := 0, counter := 3, mu := false, wg := 0,
    tasks := [.returned, .returned, .returned], printed := some 3, panicked := false }

end Goroutines

end GoBasics

/-! # Theorems -/

namespace GoBasics

/-! ## Schedules -/

theorem runSched_inv {σ α : Type} (step : σ → α → Option σ) (P : σ → Prop)
    (hstep : ∀ s a s', P s → step s a = some s' → P s') :
    ∀ (sched : List α) (s s' : σ), P s → runSched step s sched = some s' → P s' := by
  intro sched
  induction sched with
  | nil =>
    intro s s' hP h
    simp only [runSched, Option.some.injEq] at h
    exact h ▸ hP
  | cons a as ih =>
    intro s s' hP h
    simp only [runSched] at h
    cases hs : step s a with
    | none => simp [hs] at h
    | some s1 =>
      rw [hs] at h
      exact ih s1 s' (hstep s a s1 hP hs) h

theorem runSched_length {σ α : Type} (step : σ → α → Option σ) (μ : σ → Nat)
    (hdec : ∀ s a s', step s a = some s' → μ s' < μ s) :
    ∀ (sched : List α) (s s' : σ), runSched step s sched = some s' →
      sched.length + μ s' ≤ μ s := by
  intro sched
  induction sched with
  | nil =>
    intro s s' h
    simp only [runSched, Option.some.injEq] at h
    subst h
    simp
  | cons a as ih =>
    intro s s' h
    simp only [runSched] at h
    cases hs : step s a with
    | none => simp [hs] at h
    | some s1 =>
      rw [hs] at h
      have h1 := ih s1 s' h
      have h2 := hdec s a s1 hs
      simp only [List.length_cons]
      omega

theorem runSched_append {σ α : Type} (step : σ → α → Option σ) :
    ∀ (p q : List α) (s s1 s2 : σ), runSched step s p = some s1 →
      runSched step s1 q = some s2 → runSched step s (p ++ q) = some s2 := by
  intro p
  induction p with
  | nil =>
    intro q s s1 s2 h1 h2
    simp only [runSched, Option.some.injEq] at h1
    subst h1
    simpa using h2
  | cons a as ih =>
    intro q s s1 s2 h1 h2
    simp only [runSched] at h1
    cases hs : step s a with
    | none => simp [hs] at h1
    | some s' =>
      rw [hs] at h1
      simp only [List.cons_append, runSched, hs]
      exact ih q s' s1 s2 h1 h2

/-- With a measure that every step decreases, every state has a schedule that
runs it to a state where nothing is enabled. -/
theorem exists_run_to_stuck {σ α : Type} (step : σ → α → Option σ) (μ : σ → Nat)
    (hdec : ∀ s a s', step s a = some s' → μ s' < μ s) :
    ∀ (n : Nat) (s : σ), μ s ≤ n →
      ∃ sched s', runSched step s sched = some s' ∧ Stuck step s' := by
  intro n
  induction n with
  | zero =>
    intro s hs
    refine ⟨[], s, rfl, ?_⟩
    intro a
    cases h : step s a with
    | none => rfl
    | some s1 =>
      have := hdec s a s1 h
      omega
  | succ n ih =>
    intro s hs
    by_cases hst : Stuck step s
    · exact ⟨[], s, rfl, hst⟩
    · simp only [Stuck, not_forall] at hst
      obtain ⟨a, ha⟩ := hst
      cases h : step s a with
      | none => exact absurd h ha
      | some s1 =>
        have hlt := hdec s a s1 h
        obtain ⟨sched, s', hrun, hstuck⟩ := ih s1 (by omega)
        refine ⟨a :: sched, s', ?_, hstuck⟩
        simp only [runSched, h]
        exact hrun

/-! ## Go `int` -/

theorem wrapInt_of_inInt (x : Int) (h : InInt x) : wrapInt x = x := by
  unfold InInt intBits at h
  unfold wrapInt intBits
  norm_num at h ⊢
  rw [Int.emod_eq_of_lt (by omega) (by omega)]
  omega

theorem wrapInt_wrapInt_add (x y : Int) : wrapInt (wrapInt x + y) = wrapInt (x + y) := by
  unfold wrapInt
  have h : (x + 2 ^ (intBits - 1)) % 2 ^ intBits - 2 ^ (intBits - 1) + y + 2 ^ (intBits - 1)
      = (x + 2 ^ (intBits - 1)) % 2 ^ intBits + y := by ring
  rw [h, Int.emod_add_emod]
  congr 2
  ring

namespace Pipeline

theorem pipeline_step_inv (xs : List Int) (s : State) (a : Action) (s' : State)
    (hI : Inv xs s) (h : step s a = some s') : Inv xs s' := by
  obtain ⟨h1, h2, h3, h4⟩ := hI
  cases a <;> simp only [step] at h <;> split at h <;> simp at h <;> subst h <;>
    simp_all [Inv, inFlight, squares]

theorem pipeline_step_measure (s : State) (a : Action) (s' : State)
    (h : step s a = some s') : measure s' < measure s := by
  cases a <;> simp only [step] at h <;> split at h <;> simp at h <;> subst h <;>
    (simp_all [measure, rank]; try omega)

theorem pipeline_stuck_done (xs : List Int) (s : State) (hI : Inv xs s)
    (hst : Stuck step s) : s.mainDone = true := by
  obtain ⟨h1, h2, h3, h4⟩ := hI
  have a1 := hst .prodSend
  have a2 := hst .prodClose
  have a3 := hst .sqSend
  have a4 := hst .sqExit
  have a5 := hst .sqClose
  have a6 := hst .mainExit
  simp only [step] at a1 a2 a3 a4 a5 a6
  rcases s with ⟨nums, nc, sq, seen, md⟩
  cases sq <;> cases md <;> cases nc <;> cases nums <;> simp_all

theorem pipeline_init_inv (xs : List Int) : Inv xs (init xs) := by
  simp [Inv, init, inFlight]

theorem pipeline_squares_exact (xs : List Int) (h : ∀ n ∈ xs, InInt (n * n)) :
    squares xs = xs.map (fun n => n * n) := by
  unfold squares
  apply List.map_congr_left
  intro n hn
  exact wrapInt_of_inInt _ (h n hn)

/-- C1: for every finite `xs` and every schedule of `producer(xs...)`, `square`
and the draining loop, what the loop has received is at every moment an initial
segment of the squares `n * n` (Go `int` product) of `xs` in the order of `xs`;
the output of `square` is closed only once all of them were received; a run in
which no goroutine can move has received exactly the squares, one per input, has
the output closed and the loop ended; and every run is finite and can be carried
on to such a state. -/
theorem pipeline_square_of_producer (xs : List Int) (sched : List Action) (s : State)
    (h : runSched step (init xs) sched = some s) :
    s.seen <+: squares xs
    ∧ (s.sq = .closed → s.seen = squares xs)
    ∧ (s.mainDone = true → s.sq = .closed)
    ∧ (Stuck step s →
        s.seen = squares xs ∧ s.seen.length = xs.length ∧ s.sq = .closed
          ∧ s.mainDone = true)
    ∧ sched.length + measure s ≤ 2 * xs.length + 4
    ∧ (∃ rest s', runSched step s rest = some s' ∧ Stuck step s')
    ∧ ((∀ n ∈ xs, InInt (n * n)) → squares xs = xs.map (fun n => n * n)) := by
  have hI : Inv xs s := runSched_inv step (Inv xs) (pipeline_step_inv xs) sched _ _ (pipeline_init_inv xs) h
  have hlen := runSched_length step measure pipeline_step_measure sched _ _ h
  obtain ⟨h1, h2, h3, h4⟩ := hI
  have hclosed : s.sq = .closed → s.seen = squares xs := by
    intro hc
    have hn := (h3 (Or.inr hc)).1
    rw [hc, hn] at h1
    simpa [inFlight, squares] using h1
  refine ⟨?_, hclosed, h4, ?_, ?_, ?_, pipeline_squares_exact xs⟩
  · rw [← h1, List.append_assoc]
    exact List.prefix_append _ _
  · intro hst
    have hd := pipeline_stuck_done xs s ⟨h1, h2, h3, h4⟩ hst
    have hs := hclosed (h4 hd)
    refine ⟨hs, ?_, h4 hd, hd⟩
    rw [hs]
    simp [squares]
  · simpa [measure, init, rank] using hlen
  · exact exists_run_to_stuck step measure pipeline_step_measure _ s (Nat.le_refl _)

theorem pipeline_square_of_producer_witness :
    runSched step (init [1, 2, 3, 4, 5]) demoSched = some demoFinal
    ∧ demoFinal.seen = [1, 4, 9, 16, 25]
    ∧ (Stuck step demoFinal →
        demoFinal.seen = squares [1, 2, 3, 4, 5] ∧ demoFinal.seen.length = 5
          ∧ demoFinal.sq = .closed ∧ demoFinal.mainDone = true) :=
  ⟨by decide, rfl,
   (pipeline_square_of_producer [1, 2, 3, 4, 5] demoSched demoFinal (by decide)).2.2.2.1⟩

end Pipeline

/-! ## Lists of goroutines -/

theorem list_set_sum {α M : Type} [AddCommMonoid M] (f : α → M) :
    ∀ (l : List α) (i : Nat) (a b : α), l[i]? = some a →
      ((l.set i b).map f).sum + f a = (l.map f).sum + f b := by
  intro l
  induction l with
  | nil => intro i a b h; simp at h
  | cons x xs ih =>
    intro i a b h
    cases i with
    | zero =>
      simp only [List.getElem?_cons_zero, Option.some.injEq] at h
      subst h
      simp only [List.set_cons_zero, List.map_cons, List.sum_cons]
      abel
    | succ i =>
      simp only [List.getElem?_cons_succ] at h
      have := ih i a b h
      simp only [List.set_cons_succ, List.map_cons, List.sum_cons]
      rw [add_assoc, this, add_assoc]

theorem list_mem_set {α : Type} :
    ∀ (l : List α) (i : Nat) (b x : α), x ∈ l.set i b → x = b ∨ x ∈ l := by
  intro l i b x h
  rcases List.mem_or_eq_of_mem_set h with h | h
  · exact Or.inr h
  · exact Or.inl h

/-! ## Buffered channels -/

theorem chan_send_sent {α : Type} (c c' : Chan α) (v : α) (h : c.send v = .sent c') :
    c.closed = false ∧ c.buf.length < c.cap
      ∧ c' = { buf := c.buf ++ [v], cap := c.cap, closed := c.closed } := by
  unfold Chan.send at h
  split at h
  · simp at h
  · split at h
    · simp only [Chan.SendOutcome.sent.injEq] at h
      subst h
      simp_all
    · simp at h

theorem chan_send_blocks {α : Type} (c : Chan α) (v : α) (h : c.send v = .blocks) :
    c.closed = false ∧ c.cap ≤ c.buf.length := by
  unfold Chan.send at h
  split at h
  · simp at h
  · split at h
    · simp at h
    · simp_all

theorem chan_send_panics {α : Type} (c : Chan α) (v : α) (h : c.send v = .panics) :
    c.closed = true := by
  unfold Chan.send at h
  split at h
  · assumption
  · split at h <;> simp at h

theorem chan_recv_got {α : Type} (c c' : Chan α) (v : α) (h : c.recv = .got v c') :
    c.buf = v :: c'.buf ∧ c'.cap = c.cap ∧ c'.closed = c.closed := by
  unfold Chan.recv at h
  split at h
  · simp only [Chan.RecvOutcome.got.injEq] at h
    obtain ⟨h1, h2⟩ := h
    subst h1 h2
    simp_all
  · split at h <;> simp at h

theorem chan_recv_drained {α : Type} (c : Chan α) (h : c.recv = .drained) :
    c.buf = [] ∧ c.closed = true := by
  unfold Chan.recv at h
  split at h
  · simp at h
  · split at h
    · simp_all
    · simp at h

theorem chan_recv_blocks {α : Type} (c : Chan α) (h : c.recv = .blocks) :
    c.buf = [] ∧ c.closed = false := by
  unfold Chan.recv at h
  split at h
  · simp at h
  · split at h
    · simp at h
    · simp_all

theorem chan_close_some {α : Type} (c c' : Chan α) (h : c.close = some c') :
    c.closed = false ∧ c' = { buf := c.buf, cap := c.cap, closed := true } := by
  unfold Chan.close at h
  split at h
  · simp at h
  · simp only [Option.some.injEq] at h
    subst h
    simp_all

namespace Pool

theorem pool_init_inv {α β : Type} (f : α → β) (js : List α)
    (numWorkers jobCap resCap : Nat) :
    Inv f js numWorkers jobCap resCap (init js numWorkers jobCap resCap) := by
  refine ⟨?_, ?_, rfl, ?_, ?_, rfl, rfl, ?_, rfl, rfl⟩
  · simp [init, unsent, Chan.make, heldOut]
  · simp [init, Chan.make]
  · simp [MainOk, init, Chan.make]
  · intro h
    simp [init, List.mem_replicate] at h
  · simp [init]

theorem pool_step_inv {α β : Type} [Inhabited β] (f : α → β) (js : List α)
    (numWorkers jobCap resCap : Nat) (s : State α β) (a : Action) (s' : State α β)
    (hI : Inv f js numWorkers jobCap resCap s) (h : step f s a = some s') :
    Inv f js numWorkers jobCap resCap s' := by
  obtain ⟨hC, hF, hN, hM, hD, hR, hX, hW, hJc, hRc⟩ := hI
  unfold step at h
  rw [if_neg (by simp [hX])] at h
  cases a with
  | mainSend =>
    simp only at h
    split at h
    · rename_i j rest hmain
      simp only [MainOk, hmain] at hM
      split at h
      · rename_i c hsend
        obtain ⟨hcl, hlen, hc⟩ := chan_send_sent _ _ _ hsend
        simp only [Option.some.injEq] at h
        subst h
        subst hc
        refine ⟨?_, hF, hN, ?_, ?_, hR, hX, hW, hJc, hRc⟩
        · simp only [hmain, unsent, List.map_cons, List.map_append] at hC ⊢
          rw [hC]
          simp only [← Multiset.coe_add, ← Multiset.singleton_add, ← Multiset.cons_coe,
            Multiset.coe_nil, Multiset.coe_singleton, add_zero, List.map_nil]
          abel
        · simpa [MainOk] using hM
        · intro hd
          have := (hD hd).1
          simp [hcl] at this
      · simp at h
      · rename_i hsend
        have := chan_send_panics _ _ hsend
        simp [hM.1] at this
    · simp at h
  | mainClose =>
    simp only at h
    split at h
    · rename_i hmain
      simp only [MainOk, hmain] at hM
      split at h
      · rename_i c hclose
        obtain ⟨hcl, hc⟩ := chan_close_some _ _ hclose
        simp only [Option.some.injEq] at h
        subst h
        subst hc
        refine ⟨?_, hF, hN, ?_, ?_, hR, hX, hW, hJc, hRc⟩
        · simpa [hmain, unsent] using hC
        · simp [MainOk, hM.2, hN]
        · intro hd
          have := (hD hd).1
          simp [hcl] at this
      · rename_i hclose
        simp [Chan.close, hM.1] at hclose
    · simp at h
  | mainCollect =>
    simp only at h
    split at h
    · rename_i k hmain
      simp only [MainOk, hmain] at hM
      split at h
      · rename_i r c hrecv
        obtain ⟨hb, hcap, hcl⟩ := chan_recv_got _ _ _ hrecv
        simp only [Option.some.injEq] at h
        subst h
        refine ⟨?_, ?_, hN, ?_, hD, ?_, hX, hW, hJc, ?_⟩
        · simpa [hmain, unsent] using hC
        · simp [hF, hb]
        · simp only [MainOk, List.length_append, List.length_singleton]
          exact ⟨hM.1, by omega⟩
        · simpa [hcl] using hR
        · simpa [hcap] using hRc
      · rename_i hrecv
        have := (chan_recv_drained _ hrecv).2
        simp [hR] at this
      · simp at h
    · simp at h
  | take w =>
    simp only at h
    split at h
    · rename_i hw
      split at h
      · rename_i j c hrecv
        obtain ⟨hb, hcap, hcl⟩ := chan_recv_got _ _ _ hrecv
        simp only [Option.some.injEq] at h
        subst h
        have hsum := list_set_sum (heldOut f) s.workers w .idle (.busy j) hw
        simp only [heldOut, add_zero] at hsum
        refine ⟨?_, hF, hN, ?_, ?_, hR, hX, ?_, ?_, hRc⟩
        · simp only [hb, List.map_cons] at hC
          simp only [hsum]
          rw [hC]
          simp only [← Multiset.coe_add, ← Multiset.singleton_add, ← Multiset.cons_coe,
            Multiset.coe_nil, Multiset.coe_singleton, add_zero, List.map_nil]
          abel
        · revert hM
          simp only [MainOk, hcl]
          exact id
        · intro hd
          rcases list_mem_set _ _ _ _ hd with hd | hd
          · cases hd
          · have := (hD hd).2
            simp [hb] at this
        · simpa using hW
        · simpa [hcap] using hJc
      · rename_i hrecv
        obtain ⟨hb, hcl⟩ := chan_recv_drained _ hrecv
        simp only [Option.some.injEq] at h
        subst h
        have hsum := list_set_sum (heldOut f) s.workers w .idle .done hw
        simp only [heldOut, add_zero] at hsum
        refine ⟨?_, hF, hN, hM, ?_, hR, hX, ?_, hJc, hRc⟩
        · simpa only [hsum] using hC
        · intro _
          exact ⟨hcl, hb⟩
        · simpa using hW
      · simp at h
    · simp at h
  | publish w =>
    simp only at h
    split at h
    · rename_i j hw
      split at h
      · rename_i c hsend
        obtain ⟨hcl, hlen, hc⟩ := chan_send_sent _ _ _ hsend
        simp only [Option.some.injEq] at h
        subst h
        subst hc
        have hsum := list_set_sum (heldOut f) s.workers w (.busy j) .idle hw
        simp only [heldOut, add_zero] at hsum
        refine ⟨?_, ?_, hN, hM, ?_, hR, hX, ?_, hJc, hRc⟩
        · simp only
          rw [hC, ← hsum]
          simp only [← Multiset.coe_add, ← Multiset.singleton_add, ← Multiset.cons_coe,
            Multiset.coe_nil, Multiset.coe_singleton, add_zero, List.map_nil]
          abel
        · simp [hF]
        · intro hd
          rcases list_mem_set _ _ _ _ hd with hd | hd
          · cases hd
          · exact hD hd
        · simpa using hW
      · simp at h
      · rename_i hsend
        have := chan_send_panics _ _ hsend
        simp [hR] at this
    · simp at h

theorem pool_step_measure {α β : Type} [Inhabited β] (f : α → β) (s : State α β)
    (a : Action) (s' : State α β) (h : step f s a = some s') :
    measure s' < measure s := by
  unfold step at h
  split at h
  · simp at h
  rename_i hX
  cases a with
  | mainSend =>
    simp only at h
    split at h
    · rename_i j rest hmain
      split at h
      · rename_i c hsend
        obtain ⟨hcl, hlen, hc⟩ := chan_send_sent _ _ _ hsend
        simp only [Option.some.injEq] at h
        subst h
        subst hc
        simp [measure, mainRank, hmain, hX]
        omega
      · simp at h
      · simp only [Option.some.injEq] at h
        subst h
        simp [measure, hX]
    · simp at h
  | mainClose =>
    simp only at h
    split at h
    · rename_i hmain
      split at h
      · rename_i c hclose
        obtain ⟨hcl, hc⟩ := chan_close_some _ _ hclose
        simp only [Option.some.injEq] at h
        subst h
        subst hc
        simp [measure, mainRank, hmain, hX]
      · simp only [Option.some.injEq] at h
        subst h
        simp [measure, hX]
    · simp at h
  | mainCollect =>
    simp only at h
    split at h
    · rename_i k hmain
      split at h
      · rename_i r c hrecv
        obtain ⟨hb, hcap, hcl⟩ := chan_recv_got _ _ _ hrecv
        simp only [Option.some.injEq] at h
        subst h
        simp [measure, mainRank, hmain, hX]
      · simp only [Option.some.injEq] at h
        subst h
        simp [measure, mainRank, hmain, hX]
      · simp at h
    · simp at h
  | take w =>
    simp only at h
    split at h
    · rename_i hw
      split at h
      · rename_i j c hrecv
        obtain ⟨hb, hcap, hcl⟩ := chan_recv_got _ _ _ hrecv
        simp only [Option.some.injEq] at h
        subst h
        have hsum := list_set_sum workerRank s.workers w .idle (.busy j) hw
        simp only [workerRank] at hsum
        simp only [measure, hb, List.length_cons]
        omega
      · simp only [Option.some.injEq] at h
        subst h
        have hsum := list_set_sum workerRank s.workers w .idle .done hw
        simp only [workerRank] at hsum
        simp only [measure]
        omega
      · simp at h
    · simp at h
  | publish w =>
    simp only at h
    split at h
    · rename_i j hw
      split at h
      · rename_i c hsend
        simp only [Option.some.injEq] at h
        subst h
        have hsum := list_set_sum workerRank s.workers w (.busy j) .idle hw
        simp only [workerRank] at hsum
        simp only [measure]
        omega
      · simp at h
      · simp only [Option.some.injEq] at h
        subst h
        simp [measure, hX]
    · simp at h

theorem heldOut_sum_card {α β : Type} (f : α → β) (ws : List (WorkerPc α)) (j : α)
    (h : WorkerPc.busy j ∈ ws) : 1 ≤ Multiset.card (ws.map (heldOut f)).sum := by
  induction ws with
  | nil => simp at h
  | cons x xs ih =>
    simp only [List.map_cons, List.sum_cons, Multiset.card_add]
    rcases List.mem_cons.mp h with h | h
    · subst h
      simp [heldOut]
    · have := ih h
      omega

theorem heldOut_sum_done {α β : Type} (f : α → β) (ws : List (WorkerPc α))
    (h : ∀ pc ∈ ws, pc = WorkerPc.done) : (ws.map (heldOut f)).sum = 0 := by
  induction ws with
  | nil => rfl
  | cons x xs ih =>
    have hx := h x (List.mem_cons_self _ _)
    subst hx
    simp only [List.map_cons, List.sum_cons, heldOut, zero_add]
    exact ih (fun pc hpc => h pc (List.mem_cons_of_mem _ hpc))

/-- With the job queue closed, a state in which nothing can move has every
worker returned, every result published and every result collected. -/
theorem pool_stuck {α β : Type} [Inhabited β] (f : α → β) (js : List α)
    (numWorkers jobCap resCap : Nat) (s : State α β)
    (hI : Inv f js numWorkers jobCap resCap s) (hres : 1 ≤ resCap)
    (hnw : 1 ≤ numWorkers) (hst : Stuck (step f) s) (hcl : s.jobs.closed = true) :
    (∀ pc ∈ s.workers, pc = WorkerPc.done) ∧ (s.published : Multiset β) = ↑(js.map f)
      ∧ s.collected = s.published ∧ s.main = .collect 0 := by
  obtain ⟨hC, hF, hN, hM, hD, hR, hX, hW, hJc, hRc⟩ := hI
  have hcard := congrArg Multiset.card hC
  simp only [Multiset.card_add, Multiset.coe_card, List.length_map] at hcard
  have hpl : s.published.length = s.collected.length + s.results.buf.length := by
    rw [hF, List.length_append]
  -- main is in the collecting loop
  obtain ⟨k, hmain⟩ : ∃ k, s.main = .collect k := by
    cases hm : s.main with
    | send rest => simp [MainOk, hm, hcl] at hM
    | collect k => exact ⟨k, rfl⟩
  simp only [MainOk, hmain] at hM
  -- main cannot receive
  have hcollect : k = 0 ∨ s.results.buf = [] := by
    cases k with
    | zero => exact Or.inl rfl
    | succ k =>
      right
      have := hst .mainCollect
      simp only [step, hX, hmain] at this
      cases hb : s.results.buf with
      | nil => rfl
      | cons r rest => simp [Chan.recv, hb] at this
  have hdone : ∀ pc ∈ s.workers, pc = WorkerPc.done := by
    intro pc hpc
    obtain ⟨w, hw⟩ := List.getElem?_of_mem hpc
    cases pc with
    | done => rfl
    | idle =>
      have := hst (.take w)
      simp only [step, hX, hw] at this
      cases hb : s.jobs.buf with
      | nil => simp [Chan.recv, hb, hcl] at this
      | cons r rest => simp [Chan.recv, hb] at this
    | busy j =>
      exfalso
      have := hst (.publish w)
      simp only [step, hX, hw] at this
      have hfull : s.results.cap ≤ s.results.buf.length := by
        by_contra hlt
        simp [Chan.send, hR, Nat.lt_of_not_le hlt] at this
      have hheld := heldOut_sum_card f s.workers j hpc
      rcases hcollect with hk | hb
      · omega
      · rw [hb] at hfull
        simp only [List.length_nil] at hfull
        omega
  have hne : s.workers ≠ [] := by
    intro h0
    rw [h0] at hW
    simp only [List.length_nil] at hW
    omega
  obtain ⟨pc, hpc⟩ := List.exists_mem_of_ne_nil _ hne
  have hdm : WorkerPc.done ∈ s.workers := hdone pc hpc ▸ hpc
  have hbuf := (hD hdm).2
  have hsum := heldOut_sum_done f s.workers hdone
  have hpub : (s.published : Multiset β) = ↑(js.map f) := by
    rw [hC, hsum, hbuf]
    simp [hmain, unsent]
  have hlen := congrArg Multiset.card hpub
  simp only [Multiset.coe_card, List.length_map] at hlen
  have hk : k = 0 := by
    rcases hcollect with hk | hb
    · exact hk
    · rw [hb] at hpl
      simp only [List.length_nil] at hpl
      omega
  subst hk
  refine ⟨hdone, hpub, ?_, hmain⟩
  have : s.results.buf = [] := by
    apply List.eq_nil_of_length_eq_zero
    omega
  rw [hF, this, List.append_nil]

/-- When the job queue has room for all jobs, `main` never waits at a send, so
a state in which nothing can move has the job queue closed. -/
theorem pool_stuck_closed {α β : Type} [Inhabited β] (f : α → β) (js : List α)
    (numWorkers jobCap resCap : Nat) (s : State α β)
    (hI : Inv f js numWorkers jobCap resCap s) (hcap : js.length ≤ jobCap)
    (hst : Stuck (step f) s) : s.jobs.closed = true := by
  obtain ⟨hC, hF, hN, hM, hD, hR, hX, hW, hJc, hRc⟩ := hI
  have hcard := congrArg Multiset.card hC
  simp only [Multiset.card_add, Multiset.coe_card, List.length_map] at hcard
  cases hm : s.main with
  | collect k =>
    simp only [MainOk, hm] at hM
    exact hM.1
  | send rest =>
    exfalso
    simp only [MainOk, hm] at hM
    cases rest with
    | nil =>
      have := hst .mainClose
      simp [step, hX, hm, Chan.close, hM.1] at this
    | cons j rest =>
      have := hst .mainSend
      simp only [hm, unsent, List.length_cons] at hcard
      have hlt : s.jobs.buf.length < s.jobs.cap := by omega
      simp [step, hX, hm, Chan.send, hM.1, hlt] at this

theorem pool_measure_init {α β : Type} (js : List α) (numWorkers jobCap resCap : Nat) :
    measure (init js numWorkers jobCap resCap : State α β)
      = 4 * js.length + numWorkers + 2 := by
  simp [measure, init, mainRank, Chan.make, workerRank]
  omega

/-- Every reachable state of the pool satisfies the invariant, every run is
bounded in length and can be carried on until nothing can move. -/
theorem pool_reach {α β : Type} [Inhabited β] (f : α → β) (js : List α)
    (numWorkers jobCap resCap : Nat) (sched : List Action) (s : State α β)
    (h : runSched (step f) (init js numWorkers jobCap resCap) sched = some s) :
    Inv f js numWorkers jobCap resCap s
      ∧ sched.length + measure s ≤ 4 * js.length + numWorkers + 2
      ∧ ∃ rest s', runSched (step f) s rest = some s' ∧ Stuck (step f) s' := by
  refine ⟨?_, ?_, ?_⟩
  · exact runSched_inv (step f) (Inv f js numWorkers jobCap resCap)
      (pool_step_inv f js numWorkers jobCap resCap) sched _ _
      (pool_init_inv f js numWorkers jobCap resCap) h
  · have := runSched_length (step f) measure (pool_step_measure f) sched _ _ h
    rwa [pool_measure_init] at this
  · exact exists_run_to_stuck (step f) measure (pool_step_measure f) _ s (Nat.le_refl _)

/-- Whatever has been published is the result of one of the jobs. -/
theorem pool_published_mem {α β : Type} (f : α → β) (js : List α)
    (numWorkers jobCap resCap : Nat) (s : State α β)
    (hI : Inv f js numWorkers jobCap resCap s) (r : β) (hr : r ∈ s.published) :
    ∃ j ∈ js, f j = r := by
  have hm : r ∈ ((js.map f : List β) : Multiset β) := by
    rw [hI.conserve]
    exact Multiset.mem_add.mpr (Or.inr (Multiset.mem_coe.mpr hr))
  exact List.mem_map.mp (Multiset.mem_coe.mp hm)

theorem pool_published_length {α β : Type} (f : α → β) (js : List α)
    (numWorkers jobCap resCap : Nat) (s : State α β)
    (hI : Inv f js numWorkers jobCap resCap s) : s.published.length ≤ js.length := by
  have hcard := congrArg Multiset.card hI.conserve
  simp only [Multiset.card_add, Multiset.coe_card, List.length_map] at hcard
  omega

end Pool

namespace AdvancedConcurrency

theorem filter_worker_of_nodup (js : List Job) (hids : (js.map (fun j => j.ID)).Nodup)
    (j : Job) (hj : j ∈ js) :
    (js.map worker).filter (fun r => decide (r.Job.ID = j.ID)) = [worker j] := by
  induction js with
  | nil => simp at hj
  | cons x xs ih =>
    simp only [List.map_cons, List.nodup_cons, List.mem_map, not_exists, not_and] at hids
    rcases List.mem_cons.mp hj with hx | hx
    · subst hx
      have hnone : (xs.map worker).filter (fun r => decide (r.Job.ID = j.ID)) = [] := by
        rw [List.filter_eq_nil_iff]
        intro r hr
        obtain ⟨y, hy, rfl⟩ := List.mem_map.mp hr
        simpa [worker] using hids.1 y hy
      simpa [List.filter_cons, worker] using hnone
    · have hne : ¬ x.ID = j.ID := fun e => hids.1 j hx e.symm
      simp only [List.map_cons, List.filter_cons, worker, hne, decide_False]
      simpa [worker] using ih hids.2 hx

/-- C2: for every list `js` of jobs with distinct IDs, every number of workers
`numWorkers >= 1` and every schedule of `main` and the workers of the pool of
`main` (job and result queues of capacity 10): no goroutine panics; every
published Result is `worker` of one of the jobs, that is, it carries the job
unchanged next to `Data * 2` (Go `int` product); and in every state where the
job queue has been closed and no goroutine can move, exactly `js.length` Results
were published, they are a permutation of the Results of the jobs, each job has
exactly one Result, the (ID, Result) pairs are those of `(ID, Data * 2)` over the
jobs, and `main` has collected all of them.  The job queue is closed in every
such state when there are at most 10 jobs.  Every run is finite and can be
carried on until no goroutine can move.  Nothing on the right-hand sides depends
on `numWorkers`. -/
theorem worker_pool_one_result_per_job (js : List Job) (numWorkers : Nat)
    (hnw : 1 ≤ numWorkers) (hids : (js.map (fun j => j.ID)).Nodup)
    (sched : List Pool.Action) (s : Pool.State Job Result)
    (h : runSched (Pool.step worker) (poolInit js numWorkers) sched = some s) :
    s.panicked = false
    ∧ (∀ r ∈ s.published, r.Job ∈ js ∧ r = { Job := r.Job, Result := mulInt r.Job.Data 2 })
    ∧ s.published.length ≤ js.length
    ∧ (Stuck (Pool.step worker) s → s.jobs.closed = true →
        s.published.length = js.length
        ∧ s.published.Perm (js.map worker)
        ∧ (∀ j ∈ js, s.published.filter (fun r => decide (r.Job.ID = j.ID))
              = [{ Job := j, Result := mulInt j.Data 2 }])
        ∧ (s.published.map (fun r => (r.Job.ID, r.Result))).Perm
              (js.map (fun j => (j.ID, mulInt j.Data 2)))
        ∧ s.collected = s.published)
    ∧ (js.length ≤ 10 → Stuck (Pool.step worker) s → s.jobs.closed = true)
    ∧ sched.length + Pool.measure s ≤ 4 * js.length + numWorkers + 2
    ∧ (∃ rest s', runSched (Pool.step worker) s rest = some s'
          ∧ Stuck (Pool.step worker) s') := by
  obtain ⟨hI, hlen, hex⟩ := Pool.pool_reach worker js numWorkers 10 10 sched s h
  refine ⟨hI.noPanic, ?_, Pool.pool_published_length _ _ _ _ _ _ hI, ?_, ?_, hlen, hex⟩
  · intro r hr
    obtain ⟨j, hj, rfl⟩ := Pool.pool_published_mem _ _ _ _ _ _ hI r hr
    exact ⟨hj, rfl⟩
  · intro hst hcl
    obtain ⟨_, hpub, hcol, _⟩ :=
      Pool.pool_stuck worker js numWorkers 10 10 s hI (by decide) hnw hst hcl
    have hperm : s.published.Perm (js.map worker) := Multiset.coe_eq_coe.mp hpub
    refine ⟨?_, hperm, ?_, ?_, hcol⟩
    · simpa using hperm.length_eq
    · intro j hj
      have hf := hperm.filter (fun r => decide (r.Job.ID = j.ID))
      rw [filter_worker_of_nodup js hids j hj] at hf
      exact List.perm_singleton.mp hf
    · have := hperm.map (fun r => (r.Job.ID, r.Result))
      simpa [List.map_map, Function.comp_def, worker] using this
  · intro hcap hst
    exact Pool.pool_stuck_closed worker js numWorkers 10 10 s hI hcap hst

theorem worker_pool_one_result_per_job_witness :
    (1 ≤ 3) ∧ (mainJobs.map (fun j => j.ID)).Nodup
    ∧ runSched (Pool.step worker) (poolInit mainJobs 3) poolDemoSched = some poolDemoFinal
    ∧ Stuck (Pool.step worker) poolDemoFinal
    ∧ poolDemoFinal.published.length = 5
    ∧ poolDemoFinal.published.Perm (mainJobs.map worker) := by
  have hst : Stuck (Pool.step worker) poolDemoFinal := by
    intro a
    cases a with
    | mainSend => rfl
    | mainClose => rfl
    | mainCollect => rfl
    | take w =>
      match w with
      | 0 => rfl
      | 1 => rfl
      | 2 => rfl
      | _ + 3 => rfl
    | publish w =>
      match w with
      | 0 => rfl
      | 1 => rfl
      | 2 => rfl
      | _ + 3 => rfl
  have hfin := (worker_pool_one_result_per_job mainJobs 3 (by decide) (by decide)
    poolDemoSched poolDemoFinal (by decide)).2.2.2.1 hst rfl
  exact ⟨by decide, by decide, by decide, hst, hfin.1, hfin.2.1⟩

end AdvancedConcurrency

namespace Pool

theorem pool_published_le {α β : Type} (f : α → β) (js : List α)
    (numWorkers jobCap resCap : Nat) (s : State α β)
    (hI : Inv f js numWorkers jobCap resCap s) :
    (s.published : Multiset β) ≤ ↑(js.map f) := by
  rw [hI.conserve]
  exact Multiset.le_add_left _ _

end Pool

namespace Channels

/-- C3: for every list `js` of int jobs, every number of workers
`numWorkers >= 1` and every schedule of `main` and the workers of the pool of
`16_channels` (queues of capacity `numJobs`): no goroutine panics, the values
published so far are part of the multiset of `j * 2` (Go `int` product) over the
jobs, and in every state where no goroutine can move the job queue is closed, the
multiset of published values is exactly the multiset of `j * 2` over the jobs,
and `main` has received them all; every run is finite and can be carried on to
such a state.  For the jobs 1..5 the multiset is {2, 4, 6, 8, 10}. -/
theorem channels_pool_multiset (js : List Int) (numWorkers : Nat) (hnw : 1 ≤ numWorkers)
    (sched : List Pool.Action) (s : Pool.State Int Int)
    (h : runSched (Pool.step worker) (poolInit js numWorkers) sched = some s) :
    s.panicked = false
    ∧ (s.published : Multiset Int) ≤ Multiset.map (fun j => mulInt j 2) ↑js
    ∧ (Stuck (Pool.step worker) s →
        s.jobs.closed = true
        ∧ (s.published : Multiset Int) = Multiset.map (fun j => mulInt j 2) ↑js
        ∧ s.collected = s.published)
    ∧ (js = mainJobs → Stuck (Pool.step worker) s →
        (s.published : Multiset Int) = {2, 4, 6, 8, 10})
    ∧ ((∀ j ∈ js, InInt (j * 2)) →
        Multiset.map (fun j => mulInt j 2) (↑js : Multiset Int)
          = Multiset.map (fun j => 2 * j) ↑js)
    ∧ sched.length + Pool.measure s ≤ 4 * js.length + numWorkers + 2
    ∧ (∃ rest s', runSched (Pool.step worker) s rest = some s'
          ∧ Stuck (Pool.step worker) s') := by
  obtain ⟨hI, hlen, hex⟩ :=
    Pool.pool_reach worker js numWorkers js.length js.length sched s h
  have hle := Pool.pool_published_le _ _ _ _ _ _ hI
  have hmap : ((js.map worker : List Int) : Multiset Int)
      = Multiset.map (fun j => mulInt j 2) ↑js := by
    rw [Multiset.map_coe]
    rfl
  have hstuck : Stuck (Pool.step worker) s →
      s.jobs.closed = true
      ∧ (s.published : Multiset Int) = Multiset.map (fun j => mulInt j 2) ↑js
      ∧ s.collected = s.published := by
    intro hst
    have hcl := Pool.pool_stuck_closed worker js numWorkers _ _ s hI (Nat.le_refl _) hst
    refine ⟨hcl, ?_⟩
    cases js with
    | nil =>
      have hp := Pool.pool_published_length _ _ _ _ _ _ hI
      have hpub : s.published = [] := List.eq_nil_of_length_eq_zero (by simpa using hp)
      have hf := hI.fifo
      rw [hpub] at hf
      have hcol : s.collected = [] := (List.append_eq_nil.mp hf.symm).1
      simp [hpub, hcol]
    | cons j js =>
      obtain ⟨_, hpub, hcol, _⟩ :=
        Pool.pool_stuck worker (j :: js) numWorkers _ _ s hI (by simp) hnw hst hcl
      exact ⟨hpub.trans hmap, hcol⟩
  refine ⟨hI.noPanic, hmap ▸ hle, hstuck, ?_, ?_, hlen, hex⟩
  · intro hjs hst
    rw [(hstuck hst).2.1, hjs]
    decide
  · intro hin
    apply Multiset.map_congr rfl
    intro j hj
    rw [mulInt, wrapInt_of_inInt _ (hin j (Multiset.mem_coe.mp hj)), mul_comm]

theorem channels_pool_multiset_witness :
    (1 ≤ 3)
    ∧ runSched (Pool.step worker) (poolInit mainJobs 3) poolDemoSched = some poolDemoFinal
    ∧ Stuck (Pool.step worker) poolDemoFinal
    ∧ (poolDemoFinal.published : Multiset Int) = {2, 4, 6, 8, 10} := by
  have hst : Stuck (Pool.step worker) poolDemoFinal := by
    intro a
    cases a with
    | mainSend => rfl
    | mainClose => rfl
    | mainCollect => rfl
    | take w =>
      match w with
      | 0 => rfl
      | 1 => rfl
      | 2 => rfl
      | _ + 3 => rfl
    | publish w =>
      match w with
      | 0 => rfl
      | 1 => rfl
      | 2 => rfl
      | _ + 3 => rfl
  exact ⟨by decide, by decide, hst,
    (channels_pool_multiset mainJobs 3 (by decide) poolDemoSched poolDemoFinal
      (by decide)).2.2.2.1 rfl hst⟩

end Channels

theorem list_le_sum_of_mem {α : Type} (f : α → Nat) :
    ∀ (l : List α) (x : α), x ∈ l → f x ≤ (l.map f).sum := by
  intro l
  induction l with
  | nil => intro x h; simp at h
  | cons y ys ih =>
    intro x h
    simp only [List.map_cons, List.sum_cons]
    rcases List.mem_cons.mp h with h | h
    · subst h
      omega
    · have := ih x h
      omega

theorem list_sum_eq_zero_of_forall {α : Type} (f : α → Nat) :
    ∀ (l : List α), (∀ x ∈ l, f x = 0) → (l.map f).sum = 0 := by
  intro l
  induction l with
  | nil => intro _; rfl
  | cons y ys ih =>
    intro h
    simp only [List.map_cons, List.sum_cons]
    rw [h y (List.mem_cons_self _ _), ih (fun x hx => h x (List.mem_cons_of_mem _ hx))]

namespace Semaphore

theorem semaphore_init_inv (n : Nat) : Inv n (init n) := by
  refine ⟨?_, ?_, rfl, ?_, rfl, ?_, ?_, ?_⟩ <;> simp [init, held, Chan.make]

theorem semaphore_set_inv (n : Nat) (s : State) (i : Nat) (t t' : Task) (c : Chan Unit)
    (wg' : Nat) (md : Bool) (cr : Bool)
    (hI : Inv n s) (ht : s.tasks[i]? = some t) (hok : TaskOk t')
    (hsem : c.buf.length + holds t = s.sem.buf.length + holds t')
    (hcap : c.cap = s.sem.cap) (hbound : c.buf.length ≤ c.cap) (hopen : c.closed = false)
    (hwg : wg' + wgPending t = s.wg + wgPending t')
    (hmd : md = true → s.toLaunch = 0 ∧ wg' = 0) :
    Inv n { sem := c, tasks := s.tasks.set i t', toLaunch := s.toLaunch, wg := wg',
            mainDone := md, crashed := cr } := by
  obtain ⟨h1, h2, h3, h4, h5, h6, h7, h8⟩ := hI
  have hh := list_set_sum holds s.tasks i t t' ht
  have hw := list_set_sum wgPending s.tasks i t t' ht
  refine ⟨?_, ?_, ?_, hbound, hopen, ?_, ?_, hmd⟩
  · intro x hx
    rcases list_mem_set _ _ _ _ hx with hx | hx
    · exact hx ▸ hok
    · exact h1 x hx
  · simp only [held] at h2 ⊢
    omega
  · simpa [hcap] using h3
  · simp only
    omega
  · simpa using h7

theorem semaphore_crash_inv (n : Nat) (s : State) (hI : Inv n s) :
    Inv n { s with crashed := true } := by
  obtain ⟨h1, h2, h3, h4, h5, h6, h7, h8⟩ := hI
  exact ⟨h1, h2, h3, h4, h5, h6, h7, h8⟩

theorem semaphore_stepTask_inv (n : Nat) (s : State) (i : Nat) (t : Task) (op : TaskOp)
    (s' : State) (hI : Inv n s) (ht : s.tasks[i]? = some t)
    (h : stepTask s i t op = some s') : Inv n s' := by
  have htok : TaskOk t := hI.tasksOk t (List.getElem?_mem ht)
  have hmd := hI.mainOk
  have hpend : wgPending t ≤ s.wg := by
    rw [hI.wgOk]
    exact list_le_sum_of_mem wgPending s.tasks t (List.getElem?_mem ht)
  have hhold : holds t ≤ s.sem.buf.length := by
    rw [hI.semHeld]
    exact list_le_sum_of_mem holds s.tasks t (List.getElem?_mem ht)
  cases op with
  | deferDone =>
    simp only [stepTask] at h
    split at h
    · rename_i hpc
      simp only [Option.some.injEq] at h
      subst h
      simp only [TaskOk, hpc] at htok
      apply semaphore_set_inv n s i t _ s.sem s.wg s.mainDone s.crashed hI ht
      · simp [TaskOk, htok]
      · simp [holds, htok]
      · rfl
      · exact hI.semBound
      · exact hI.semOpen
      · simp [wgPending, hpc]
      · exact hmd
    · simp at h
  | acquire =>
    simp only [stepTask] at h
    split at h
    · rename_i hpc
      simp only [TaskOk, hpc] at htok
      split at h
      · rename_i c hsend
        obtain ⟨hcl, hlen, hc⟩ := chan_send_sent _ _ _ hsend
        simp only [Option.some.injEq] at h
        subst h
        subst hc
        apply semaphore_set_inv n s i t _ _ s.wg s.mainDone s.crashed hI ht
        · simp [TaskOk, htok]
        · simp [holds, htok]
        · rfl
        · simp only [List.length_append, List.length_singleton]
          omega
        · exact hcl
        · simp [wgPending, hpc, htok]
        · exact hmd
      · simp at h
      · simp only [Option.some.injEq] at h
        subst h
        exact semaphore_crash_inv n s hI
    · simp at h
  | deferRelease =>
    simp only [stepTask] at h
    split at h
    · rename_i hpc
      simp only [Option.some.injEq] at h
      subst h
      simp only [TaskOk, hpc] at htok
      apply semaphore_set_inv n s i t _ s.sem s.wg s.mainDone s.crashed hI ht
      · simp [TaskOk, htok]
      · simp [holds, htok]
      · rfl
      · exact hI.semBound
      · exact hI.semOpen
      · simp [wgPending, hpc, htok]
      · exact hmd
    · simp at h
  | exitBody fault =>
    simp only [stepTask] at h
    split at h
    · rename_i hpc
      simp only [Option.some.injEq] at h
      subst h
      simp only [TaskOk, hpc] at htok
      apply semaphore_set_inv n s i t _ s.sem s.wg s.mainDone s.crashed hI ht
      · simp [TaskOk, htok]
      · simp [holds, htok]
      · rfl
      · exact hI.semBound
      · exact hI.semOpen
      · simp [wgPending, hpc, htok]
      · exact hmd
    · simp at h
  | runDeferred =>
    simp only [stepTask] at h
    split at h
    · rename_i p rest hpc hdef
      simp only [TaskOk, hpc, hdef] at htok
      simp only [List.cons.injEq, true_and, false_and, or_false, reduceCtorEq] at htok
      obtain ⟨hrest, hacq, hrel⟩ := htok
      have hh : holds t = 1 := by simp [holds, hacq, hrel]
      split at h
      · rename_i u c hrecv
        obtain ⟨hb, hcap, hcl⟩ := chan_recv_got _ _ _ hrecv
        simp only [Option.some.injEq] at h
        subst h
        apply semaphore_set_inv n s i t _ c s.wg s.mainDone s.crashed hI ht
        · simp [TaskOk, hpc, hrest, hacq, hrel]
        · simp [holds, hacq, hrel, hb]
        · exact hcap
        · have := hI.semBound
          rw [hb] at this
          simp only [List.length_cons] at this
          omega
        · rw [hcl]
          exact hI.semOpen
        · simp [wgPending, hpc, hdef, hrest]
        · exact hmd
      · rename_i hrecv
        have := (chan_recv_drained _ hrecv).2
        simp [hI.semOpen] at this
      · simp at h
    · rename_i p rest hpc hdef
      simp only [TaskOk, hpc, hdef] at htok
      simp only [List.cons.injEq, true_and, false_and, false_or, or_false, reduceCtorEq]
        at htok
      obtain ⟨hrest, hacq, hrel⟩ := htok
      have hw : wgPending t = 1 := by simp [wgPending, hpc, hdef]
      split at h
      · simp only [Option.some.injEq] at h
        subst h
        exact semaphore_crash_inv n s hI
      · rename_i k hk
        simp only [Option.some.injEq] at h
        subst h
        apply semaphore_set_inv n s i t _ s.sem k s.mainDone s.crashed hI ht
        · simp [TaskOk, hpc, hrest, hacq, hrel]
        · simp [holds, hacq, hrel]
        · rfl
        · exact hI.semBound
        · exact hI.semOpen
        · simp [wgPending, hpc, hdef, hrest, hk]
        · intro hm
          have := (hmd hm).2
          omega
    · simp at h
  | finish =>
    simp only [stepTask] at h
    split at h
    · rename_i p hpc hdef
      simp only [TaskOk, hpc, hdef] at htok
      simp only [true_and, false_and, false_or, reduceCtorEq] at htok
      simp only [Option.some.injEq] at h
      subst h
      apply semaphore_set_inv n s i t _ s.sem s.wg s.mainDone p hI ht
      · simp [TaskOk, htok, hdef]
      · simp [holds, htok]
      · rfl
      · exact hI.semBound
      · exact hI.semOpen
      · simp [wgPending, hpc, hdef]
      · exact hmd
    · simp at h

theorem semaphore_step_inv (n : Nat) (s : State) (a : Action) (s' : State)
    (hI : Inv n s) (h : step s a = some s') : Inv n s' := by
  unfold step at h
  split at h
  · simp at h
  cases a with
  | launch =>
    simp only at h
    split at h
    · simp at h
    · rename_i k hk
      simp only [Option.some.injEq] at h
      subst h
      obtain ⟨h1, h2, h3, h4, h5, h6, h7, h8⟩ := hI
      refine ⟨?_, ?_, h3, h4, h5, ?_, ?_, ?_⟩
      · intro x hx
        rcases List.mem_append.mp hx with hx | hx
        · exact h1 x hx
        · simp only [List.mem_singleton] at hx
          subst hx
          simp [TaskOk]
      · simpa [held, holds] using h2
      · simp [h6, wgPending]
      · simp only [List.length_append, List.length_singleton]
        omega
      · intro hm
        have := (h8 hm).1
        omega
  | mainWait =>
    simp only at h
    split at h
    · rename_i h0 hw hm
      simp only [Option.some.injEq] at h
      subst h
      obtain ⟨h1, h2, h3, h4, h5, h6, h7, h8⟩ := hI
      exact ⟨h1, h2, h3, h4, h5, h6, h7, fun _ => ⟨h0, hw⟩⟩
    · simp at h
  | task i op =>
    simp only at h
    split at h
    · simp at h
    · rename_i t ht
      exact semaphore_stepTask_inv n s i t op s' hI ht h

theorem semaphore_stepTask_measure (s : State) (i : Nat) (t : Task) (op : TaskOp)
    (s' : State) (hcr : s.crashed = false) (ht : s.tasks[i]? = some t)
    (h : stepTask s i t op = some s') : measure s' < measure s := by
  have key : ∀ (t' : Task) (c : Chan Unit) (wg' : Nat) (cr : Bool),
      taskRank t' < taskRank t →
      measure { sem := c, tasks := s.tasks.set i t', toLaunch := s.toLaunch, wg := wg',
                mainDone := s.mainDone, crashed := cr } < measure s := by
    intro t' c wg' cr hlt
    have := list_set_sum taskRank s.tasks i t t' ht
    have e1 : (if (false : Bool) = true then (0 : Nat) else 1) = 1 := rfl
    have e2 : (if (true : Bool) = true then (0 : Nat) else 1) = 0 := rfl
    simp only [measure, hcr]
    cases cr
    · omega
    · rw [e1, e2]
      omega
  have crash : measure { s with crashed := true } < measure s := by
    simp [measure, hcr]
  cases op with
  | deferDone =>
    simp only [stepTask] at h
    split at h
    · rename_i hpc
      simp only [Option.some.injEq] at h
      subst h
      exact key _ _ _ _ (by simp [taskRank, hpc]; omega)
    · simp at h
  | acquire =>
    simp only [stepTask] at h
    split at h
    · rename_i hpc
      split at h
      · simp only [Option.some.injEq] at h
        subst h
        exact key _ _ _ _ (by simp [taskRank, hpc])
      · simp at h
      · simp only [Option.some.injEq] at h
        subst h
        exact crash
    · simp at h
  | deferRelease =>
    simp only [stepTask] at h
    split at h
    · rename_i hpc
      simp only [Option.some.injEq] at h
      subst h
      exact key _ _ _ _ (by simp [taskRank, hpc]; omega)
    · simp at h
  | exitBody fault =>
    simp only [stepTask] at h
    split at h
    · rename_i hpc
      simp only [Option.some.injEq] at h
      subst h
      exact key _ _ _ _ (by simp [taskRank, hpc])
    · simp at h
  | runDeferred =>
    simp only [stepTask] at h
    split at h
    · rename_i p rest hpc hdef
      split at h
      · simp only [Option.some.injEq] at h
        subst h
        exact key _ _ _ _ (by simp [taskRank, hpc, hdef])
      · simp only [Option.some.injEq] at h
        subst h
        exact key _ _ _ _ (by simp [taskRank, hpc, hdef])
      · simp at h
    · rename_i p rest hpc hdef
      split at h
      · simp only [Option.some.injEq] at h
        subst h
        exact crash
      · simp only [Option.some.injEq] at h
        subst h
        exact key _ _ _ _ (by simp [taskRank, hpc, hdef])
    · simp at h
  | finish =>
    simp only [stepTask] at h
    split at h
    · rename_i p hpc hdef
      simp only [Option.some.injEq] at h
      subst h
      exact key _ _ _ _ (by simp [taskRank, hpc, hdef])
    · simp at h

theorem semaphore_step_measure (s : State) (a : Action) (s' : State)
    (h : step s a = some s') : measure s' < measure s := by
  unfold step at h
  split at h
  · simp at h
  rename_i hcr
  simp only [Bool.not_eq_true] at hcr
  cases a with
  | launch =>
    simp only at h
    split at h
    · simp at h
    · rename_i k hk
      simp only [Option.some.injEq] at h
      subst h
      simp only [measure, hk, List.map_append, List.sum_append, List.map_cons,
        List.map_nil, List.sum_cons, List.sum_nil, taskRank, List.length_nil]
      omega
  | mainWait =>
    simp only at h
    split at h
    · rename_i h0 hw hm
      simp only [Option.some.injEq] at h
      subst h
      simp [measure, hm]
    · simp at h
  | task i op =>
    simp only at h
    split at h
    · simp at h
    · rename_i t ht
      exact semaphore_stepTask_measure s i t op s' hcr ht h

/-- A task that holds a permit can always take a step. -/
theorem semaphore_holder_moves (n : Nat) (s : State) (hI : Inv n s)
    (hcr : s.crashed = false) (i : Nat) (t : Task) (ht : s.tasks[i]? = some t)
    (hh : holds t = 1) : ∃ op s', step s (.task i op) = some s' := by
  have htok : TaskOk t := hI.tasksOk t (List.getElem?_mem ht)
  have hhold : holds t ≤ s.sem.buf.length := by
    rw [hI.semHeld]
    exact list_le_sum_of_mem holds s.tasks t (List.getElem?_mem ht)
  cases hpc : t.pc with
  | start => simp [TaskOk, hpc] at htok; simp [holds, htok] at hh
  | acquire => simp [TaskOk, hpc] at htok; simp [holds, htok] at hh
  | done => simp [TaskOk, hpc] at htok; simp [holds, htok] at hh
  | deferRelease =>
    exact ⟨.deferRelease, _, by simp [step, hcr, ht, stepTask, hpc]; rfl⟩
  | body =>
    exact ⟨.exitBody false, _, by simp [step, hcr, ht, stepTask, hpc]; rfl⟩
  | unwinding p =>
    simp only [TaskOk, hpc] at htok
    rcases htok with h1 | h1 | h1
    · cases hb : s.sem.buf with
      | nil => rw [hb, hh] at hhold; simp at hhold
      | cons u rest =>
        exact ⟨.runDeferred, _, by simp [step, hcr, ht, stepTask, hpc, h1, Chan.recv, hb]; rfl⟩
    · simp [holds, h1] at hh
    · simp [holds, h1] at hh

theorem semaphore_stuck (n : Nat) (s : State) (hI : Inv n s) (hst : Stuck step s)
    (hcr : s.crashed = false) :
    (∀ t ∈ s.tasks, t.pc = .done) ∧ s.tasks.length = n ∧ s.mainDone = true := by
  have hnone : ∀ t ∈ s.tasks, holds t = 0 := by
    intro t htm
    obtain ⟨i, ht⟩ := List.getElem?_of_mem htm
    by_contra hne
    have h1 : holds t = 1 := by
      unfold holds at hne ⊢
      split <;> simp_all
    obtain ⟨op, s', hs⟩ := semaphore_holder_moves n s hI hcr i t ht h1
    rw [hst (.task i op)] at hs
    cases hs
  have hheld : s.sem.buf.length = 0 := by
    rw [hI.semHeld]
    exact list_sum_eq_zero_of_forall holds s.tasks hnone
  have hdone : ∀ t ∈ s.tasks, t.pc = .done := by
    intro t htm
    obtain ⟨i, ht⟩ := List.getElem?_of_mem htm
    have htok : TaskOk t := hI.tasksOk t htm
    have hh := hnone t htm
    cases hpc : t.pc with
    | done => rfl
    | start =>
      have := hst (.task i .deferDone)
      simp [step, hcr, ht, stepTask, hpc] at this
    | acquire =>
      have := hst (.task i .acquire)
      have hlt : s.sem.buf.length < s.sem.cap := by
        rw [hheld, hI.semCap]
        decide
      simp [step, hcr, ht, stepTask, hpc, Chan.send, hI.semOpen, hlt] at this
    | deferRelease =>
      simp [TaskOk, hpc] at htok
      simp [holds, htok] at hh
    | body =>
      simp [TaskOk, hpc] at htok
      simp [holds, htok] at hh
    | unwinding p =>
      simp only [TaskOk, hpc] at htok
      rcases htok with h1 | h1 | h1
      · simp [holds, h1] at hh
      · have := hst (.task i .runDeferred)
        simp only [step, hcr, ht, stepTask, hpc, h1] at this
        cases hw : s.wg <;> simp [hw] at this
      · have := hst (.task i .finish)
        simp [step, hcr, ht, stepTask, hpc, h1] at this
  have hl : s.toLaunch = 0 := by
    have := hst .launch
    cases hk : s.toLaunch with
    | zero => rfl
    | succ k => simp [step, hcr, hk] at this
  have hwg : s.wg = 0 := by
    rw [hI.wgOk]
    apply list_sum_eq_zero_of_forall
    intro t htm
    have htok : TaskOk t := hI.tasksOk t htm
    have hpc := hdone t htm
    simp only [TaskOk, hpc] at htok
    simp [wgPending, hpc, htok]
  refine ⟨hdone, ?_, ?_⟩
  · have := hI.launched
    omega
  · have := hst .mainWait
    cases hm : s.mainDone with
    | true => rfl
    | false => simp [step, hcr, hl, hwg, hm] at this

theorem semaphore_reach (n : Nat) (sched : List Action) (s : State)
    (h : runSched step (init n) sched = some s) :
    Inv n s ∧ sched.length + measure s ≤ 8 * n + 2 := by
  refine ⟨runSched_inv step (Inv n) (semaphore_step_inv n) sched _ _
    (semaphore_init_inv n) h, ?_⟩
  have := runSched_length step measure semaphore_step_measure sched _ _ h
  simpa [measure, init] using this

/-- C4: in every state `semaphore()` can reach, for any number `n` of tasks it
is set to launch and any schedule, the number of tasks that have acquired and
not yet released is the number of tokens in `sem`, and it is at least 0 and at
most `maxConcurrent = 3`. -/
theorem semaphore_held_le_maxConcurrent (n : Nat) (sched : List Action) (s : State)
    (h : runSched step (init n) sched = some s) :
    0 ≤ held s ∧ held s ≤ maxConcurrent ∧ maxConcurrent = 3
      ∧ held s = s.sem.buf.length := by
  obtain ⟨hI, _⟩ := semaphore_reach n sched s h
  refine ⟨Nat.zero_le _, ?_, rfl, hI.semHeld.symm⟩
  rw [← hI.semHeld, ← hI.semCap]
  exact hI.semBound

theorem semaphore_held_le_maxConcurrent_witness :
    runSched step (init 10) fullSched = some fullState
    ∧ held fullState = 3
    ∧ step fullState (.task 3 .acquire) = none
    ∧ (0 ≤ held fullState ∧ held fullState ≤ maxConcurrent ∧ maxConcurrent = 3
        ∧ held fullState = fullState.sem.buf.length) :=
  ⟨by decide, by decide, by decide,
   semaphore_held_le_maxConcurrent 10 fullSched fullState (by decide)⟩

/-- C5: in every state `semaphore()` can reach, for any number of tasks and any
schedule, each task has released at most as often as it has acquired and has
acquired at most once; a task in its body holds its permit with the release
among its deferred calls, so that however the body is left (return or panic) the
task either has the release still deferred and has not released, or has released
exactly once; a task that has returned has acquired once and released once; when
every launched task has returned no permit is held and `sem` is empty; and a
state where no goroutine can move, the program not having crashed, has all `n`
tasks launched and returned and `wg.Wait()` returned.  Every run is finite. -/
theorem semaphore_release_matches_acquire (n : Nat) (sched : List Action) (s : State)
    (h : runSched step (init n) sched = some s) :
    (∀ t ∈ s.tasks, t.released ≤ t.acquired ∧ t.acquired ≤ 1)
    ∧ (∀ t ∈ s.tasks, t.pc = .body →
        t.acquired = 1 ∧ t.released = 0 ∧ Deferred.release ∈ t.defers)
    ∧ (∀ t ∈ s.tasks, ∀ p, t.pc = .unwinding p →
        t.acquired = 1
        ∧ ((t.released = 0 ∧ Deferred.release ∈ t.defers)
            ∨ (t.released = 1 ∧ Deferred.release ∉ t.defers)))
    ∧ (∀ t ∈ s.tasks, t.pc = .done →
        t.acquired = 1 ∧ t.released = 1 ∧ t.defers = [])
    ∧ ((∀ t ∈ s.tasks, t.pc = .done) → held s = 0 ∧ s.sem.buf = [])
    ∧ (Stuck step s → s.crashed = false →
        (∀ t ∈ s.tasks, t.pc = .done) ∧ s.tasks.length = n ∧ s.mainDone = true
          ∧ held s = 0)
    ∧ sched.length + measure s ≤ 8 * n + 2 := by
  obtain ⟨hI, hlen⟩ := semaphore_reach n sched s h
  have hall : (∀ t ∈ s.tasks, t.pc = .done) → held s = 0 ∧ s.sem.buf = [] := by
    intro hd
    have h0 : held s = 0 := by
      apply list_sum_eq_zero_of_forall
      intro t htm
      have htok := hI.tasksOk t htm
      simp only [TaskOk, hd t htm] at htok
      simp [holds, htok]
    refine ⟨h0, List.eq_nil_of_length_eq_zero ?_⟩
    rw [hI.semHeld, h0]
  refine ⟨?_, ?_, ?_, ?_, hall, ?_, hlen⟩
  · intro t htm
    have htok := hI.tasksOk t htm
    unfold TaskOk at htok
    split at htok <;> omega
  · intro t htm hpc
    have htok := hI.tasksOk t htm
    simp only [TaskOk, hpc] at htok
    simp [htok]
  · intro t htm p hpc
    have htok := hI.tasksOk t htm
    simp only [TaskOk, hpc] at htok
    rcases htok with h1 | h1 | h1 <;> simp [h1]
  · intro t htm hpc
    have htok := hI.tasksOk t htm
    simp only [TaskOk, hpc] at htok
    simp [htok]
  · intro hst hcr
    obtain ⟨hd, hl, hm⟩ := semaphore_stuck n s hI hst hcr
    exact ⟨hd, hl, hm, (hall hd).1⟩

theorem semaphore_release_matches_acquire_witness :
    runSched step (init 10) demoSched = some demoFinal
    ∧ (∀ t ∈ demoFinal.tasks, t.pc = .done)
    ∧ held demoFinal = 0 ∧ demoFinal.sem.buf = [] := by
  have hd : ∀ t ∈ demoFinal.tasks, t.pc = .done := by
    intro t ht
    rw [List.eq_of_mem_replicate ht]
    rfl
  have hfin := (semaphore_release_matches_acquire 10 demoSched demoFinal
    (by decide)).2.2.2.2.1 hd
  exact ⟨by decide, hd, hfin.1, hfin.2⟩

end Semaphore

theorem list_getElem?_set_cases {α : Type} (l : List α) (i j : Nat) (b x : α)
    (h : (l.set i b)[j]? = some x) : (j = i ∧ x = b) ∨ (j ≠ i ∧ l[j]? = some x) := by
  rw [List.getElem?_set] at h
  by_cases hij : i = j
  · rw [if_pos hij] at h
    split at h
    · simp only [Option.some.injEq] at h
      exact Or.inl ⟨hij.symm, h.symm⟩
    · cases h
  · rw [if_neg hij] at h
    exact Or.inr ⟨fun e => hij e.symm, h⟩

theorem list_map_set_same {α β : Type} (f : α → β) (l : List α) (i : Nat) (b b' : α)
    (hb : l[i]? = some b) (hf : f b' = f b) : (l.set i b').map f = l.map f := by
  induction l generalizing i with
  | nil => rfl
  | cons x xs ih =>
    cases i with
    | zero =>
      simp only [List.getElem?_cons_zero, Option.some.injEq] at hb
      subst hb
      simp [hf]
    | succ i =>
      simp only [List.getElem?_cons_succ] at hb
      simp only [List.set_cons_succ, List.map_cons, ih i hb]

namespace Merge

theorem proj_append_single (j i : Nat) (n : Int) (log : List (Nat × Int)) :
    proj j (log ++ [(i, n)]) = proj j log ++ (if i = j then [n] else []) := by
  unfold proj
  by_cases h : i = j <;> simp [List.filter_append, List.filter_cons, h]

theorem merge_init_inv (xss : List (List Int)) : Inv xss (init xss) := by
  refine ⟨?_, ?_, ?_, ?_, ?_, ?_, ?_⟩
  · simp [init, Function.comp_def]
  · intro b hb
    simp only [init, List.mem_map] at hb
    obtain ⟨xs, _, rfl⟩ := hb
    exact ⟨by simp [holding], by simp, by simp⟩
  · intro i b hb
    simp only [init, List.getElem?_map, Option.map_eq_some'] at hb
    obtain ⟨xs, _, rfl⟩ := hb
    simp [init, Out.init, proj]
  · simp [init, Out.init]
  · simp only [init, Out.init, List.map_nil, Multiset.coe_nil, zero_add, List.map_map]
    induction xss with
    | nil => rfl
    | cons xs xss ih =>
      simp only [List.flatten_cons, List.map_cons, List.sum_cons, ← Multiset.coe_add, ih,
        Function.comp_apply, content, holding, Multiset.coe_nil, zero_add]
  · simp only [init, Out.init, List.map_map]
    induction xss with
    | nil => rfl
    | cons xs xss ih =>
      simp only [List.length_cons, List.map_cons, List.sum_cons, Function.comp_apply,
        wgPending, ← ih]
      omega
  · exact ⟨by simp [init, Out.init, CloserOk], by simp [init, Out.init],
      by simp [init, Out.init], by simp [init, Out.init]⟩

/-- Replacing branch `i` keeps the invariant when the new branch and the new
shared part account for the same items and the same pending `wg.Done()`. -/
theorem merge_set_inv (xss : List (List Int)) (s : State) (i : Nat) (b b' : Branch)
    (o' : Out) (hI : Inv xss s) (hb : s.branches[i]? = some b)
    (horig : b'.orig = b.orig) (hok : BranchOk b')
    (hlink : proj i o'.delivered = b'.sent)
    (hlink' : ∀ j, j ≠ i → proj j o'.delivered = proj j s.out.delivered)
    (htags : ∀ p ∈ o'.delivered, p.1 < xss.length)
    (hcons : (↑(o'.delivered.map Prod.snd) : Multiset Int) + content b'
      = ↑(s.out.delivered.map Prod.snd) + content b)
    (hwg : o'.wg + wgPending b = s.out.wg + wgPending b')
    (hout : OutOk o') :
    Inv xss { branches := s.branches.set i b', out := o' } := by
  obtain ⟨h1, h2, h3, h4, h5, h6, h7⟩ := hI
  have hc := list_set_sum content s.branches i b b' hb
  have hw := list_set_sum wgPending s.branches i b b' hb
  refine ⟨?_, ?_, ?_, htags, ?_, ?_, hout⟩
  · simp only
    rw [list_map_set_same (fun b => b.orig) _ _ _ _ hb horig, h1]
  · intro x hx
    rcases list_mem_set _ _ _ _ hx with hx | hx
    · exact hx ▸ hok
    · exact h2 x hx
  · intro j x hx
    rcases list_getElem?_set_cases _ _ _ _ _ hx with ⟨hj, hxb⟩ | ⟨hj, hxb⟩
    · subst hj
      subst hxb
      exact hlink
    · simp only
      rw [hlink' j hj]
      exact h3 j x hxb
  · simp only
    apply add_right_cancel (b := content b)
    rw [add_assoc, hc, ← add_assoc, add_right_comm, hcons, h5]
    abel
  · simp only
    omega

theorem merge_out_inv (xss : List (List Int)) (s : State) (o : Out) (hI : Inv xss s)
    (hd : o.delivered = s.out.delivered) (hw : o.wg = s.out.wg) (hout : OutOk o) :
    Inv xss { s with out := o } := by
  obtain ⟨h1, h2, h3, h4, h5, h6, h7⟩ := hI
  exact ⟨h1, h2, by simpa [hd] using h3, by simpa [hd] using h4, by simpa [hd] using h5,
    by simpa [hw] using h6, hout⟩

/-- While some forwarder has not called `wg.Done()`, `out` is open and the
closing goroutine waits. -/
theorem merge_open_of_wg (o : Out) (hout : OutOk o) (hwg : 1 ≤ o.wg) :
    o.outClosed = false ∧ o.closer = .waiting ∧ o.consumerDone = false := by
  have hc := hout.closerOk
  unfold CloserOk at hc
  have hcl : o.outClosed = false ∧ o.closer = .waiting := by
    split at hc
    · rename_i h
      exact ⟨hc, h⟩
    · omega
    · omega
  refine ⟨hcl.1, hcl.2, ?_⟩
  cases hcd : o.consumerDone with
  | false => rfl
  | true =>
    have := hout.consumerOk hcd
    rw [hcl.1] at this
    cases this

theorem merge_stepBranch_inv (xss : List (List Int)) (s : State) (i : Nat) (b : Branch)
    (op : BranchOp) (s' : State) (hI : Inv xss s) (hb : s.branches[i]? = some b)
    (h : stepBranch s i b op = some s') : Inv xss s' := by
  have hbok : BranchOk b := hI.branchesOk b (List.getElem?_mem hb)
  obtain ⟨hord, hclo, hend⟩ := hbok
  have hpend : wgPending b ≤ s.out.wg := by
    rw [hI.wgOk]
    exact list_le_sum_of_mem wgPending s.branches b (List.getElem?_mem hb)
  have hlinkb := hI.link i b hb
  have hilt : i < xss.length := by
    have := (List.getElem?_eq_some_iff.mp hb).1
    rw [← hI.origs, List.length_map]
    exact this
  cases op with
  | closeInput =>
    simp only [stepBranch] at h
    split at h
    · rename_i hp hc
      simp only [Option.some.injEq] at h
      subst h
      apply merge_set_inv xss s i b _ s.out hI hb
      · rfl
      · refine ⟨hord, fun _ => hp, fun hpc => ?_⟩
        have := (hend hpc).2
        rw [hc] at this
        cases this
      · exact hlinkb
      · intro j _
        rfl
      · exact hI.tags
      · simp [content]
      · simp [wgPending]
      · exact hI.outOk
    · simp at h
  | fwdRecv =>
    simp only [stepBranch] at h
    split at h
    · rename_i n rest hpc hp
      simp only [Option.some.injEq] at h
      subst h
      have hnc : b.closed = false := by
        cases hc : b.closed with
        | false => rfl
        | true =>
          have := hclo hc
          rw [hp] at this
          cases this
      apply merge_set_inv xss s i b _ s.out hI hb
      · rfl
      · refine ⟨?_, ?_, ?_⟩
        · simpa [holding, hpc, hp] using hord
        · simp [hnc]
        · simp
      · exact hlinkb
      · intro j _
        rfl
      · exact hI.tags
      · simp only [content, holding, hpc, hp]
        simp only [← Multiset.coe_add, ← Multiset.singleton_add, ← Multiset.cons_coe,
          Multiset.coe_nil, Multiset.coe_singleton, add_zero, zero_add]
      · simp [wgPending, hpc]
      · exact hI.outOk
    · simp at h
  | fwdEnd =>
    simp only [stepBranch] at h
    split at h
    · rename_i hpc hp hc
      simp only [Option.some.injEq] at h
      subst h
      apply merge_set_inv xss s i b _ s.out hI hb
      · rfl
      · refine ⟨?_, fun _ => hp, fun _ => ⟨hp, hc⟩⟩
        simpa [holding, hpc] using hord
      · exact hlinkb
      · intro j _
        rfl
      · exact hI.tags
      · simp [content, holding, hpc]
      · simp [wgPending, hpc]
      · exact hI.outOk
    · simp at h
  | fwdSend =>
    simp only [stepBranch] at h
    split at h
    · rename_i n hpc
      have hw1 : 1 ≤ s.out.wg := by simpa [wgPending, hpc] using hpend
      obtain ⟨hopen, hwait, hcons⟩ := merge_open_of_wg s.out hI.outOk hw1
      simp only [Out.send, hopen, hcons, Bool.false_eq_true, if_false, hI.outOk.noPanic]
        at h
      simp only [Option.some.injEq] at h
      subst h
      have hnp : b.closed = true → b.pending = [] := hclo
      apply merge_set_inv xss s i b _ _ hI hb
      · rfl
      · refine ⟨?_, hclo, ?_⟩
        · simpa [holding, hpc] using hord
        · simp
      · simp [proj_append_single, hlinkb]
      · intro j hj
        have : ¬ i = j := fun e => hj e.symm
        simp [proj_append_single, this]
      · intro p hp
        rcases List.mem_append.mp hp with hp | hp
        · exact hI.tags p hp
        · simp only [List.mem_singleton] at hp
          subst hp
          exact hilt
      · simp only [content, holding, hpc, List.map_append, List.map_cons, List.map_nil]
        simp only [← Multiset.coe_add, ← Multiset.singleton_add, ← Multiset.cons_coe,
          Multiset.coe_nil, Multiset.coe_singleton, add_zero, zero_add]
        abel
      · simp [wgPending, hpc]
      · have o2 := hI.outOk.closesOk
        rw [hopen] at o2
        exact ⟨by simp [CloserOk, hwait], by simpa using o2, by simp, rfl⟩
    · simp at h
  | fwdDone =>
    simp only [stepBranch] at h
    split at h
    · rename_i hpc
      have hw1 : 1 ≤ s.out.wg := by simpa [wgPending, hpc] using hpend
      obtain ⟨hopen, hwait, hcons⟩ := merge_open_of_wg s.out hI.outOk hw1
      obtain ⟨k, hk⟩ : ∃ k, s.out.wg = k + 1 := ⟨s.out.wg - 1, by omega⟩
      simp only [Option.some.injEq] at h
      subst h
      have hwd : s.out.wgDone = { s.out with wg := k } := by
        simp [Out.wgDone, hk]
      rw [hwd]
      apply merge_set_inv xss s i b _ _ hI hb
      · rfl
      · refine ⟨?_, hclo, fun _ => hend (Or.inl hpc)⟩
        simpa [holding, hpc] using hord
      · exact hlinkb
      · intro j _
        rfl
      · exact hI.tags
      · simp [content, holding, hpc]
      · simp only [wgPending, hpc, hk]
      · obtain ⟨o1, o2, o3, o4⟩ := hI.outOk
        refine ⟨?_, o2, o3, o4⟩
        simp only [CloserOk, hwait]
        exact hopen
    · simp at h

theorem merge_step_inv (xss : List (List Int)) (s : State) (a : Action) (s' : State)
    (hI : Inv xss s) (h : step s a = some s') : Inv xss s' := by
  unfold step at h
  split at h
  · simp at h
  obtain ⟨o1, o2, o3, o4⟩ := hI.outOk
  cases a with
  | branch i op =>
    simp only at h
    split at h
    · simp at h
    · rename_i b hb
      exact merge_stepBranch_inv xss s i b op s' hI hb h
  | closerWake =>
    simp only [Option.map_eq_some'] at h
    obtain ⟨o, ho, rfl⟩ := h
    unfold Out.closerWake at ho
    split at ho
    · rename_i hc hw
      simp only [Option.some.injEq] at ho
      subst ho
      apply merge_out_inv xss s _ hI ?_ ?_ ?_
      · rfl
      · rfl
      simp only [CloserOk, hc] at o1
      exact ⟨by simp [CloserOk, o1, hw], o2, o3, o4⟩
    · simp at ho
  | closerClose =>
    simp only [Option.map_eq_some'] at h
    obtain ⟨o, ho, rfl⟩ := h
    unfold Out.closerClose at ho
    split at ho
    · rename_i hc
      simp only [CloserOk, hc] at o1
      simp only [o1.1, Bool.false_eq_true, if_false, Option.some.injEq] at ho
      subst ho
      apply merge_out_inv xss s _ hI ?_ ?_ ?_
      · rfl
      · rfl
      refine ⟨by simp [CloserOk, o1.2], ?_, by simp, o4⟩
      simp [o2, o1.1]
    · simp at ho
  | consumerEnd =>
    simp only [Option.map_eq_some'] at h
    obtain ⟨o, ho, rfl⟩ := h
    unfold Out.consumerEnd at ho
    split at ho
    · rename_i hc hd
      simp only [Option.some.injEq] at ho
      subst ho
      apply merge_out_inv xss s _ hI ?_ ?_ ?_
      · rfl
      · rfl
      refine ⟨?_, o2, fun _ => hc, o4⟩
      revert o1
      simp only [CloserOk]
      exact id
    · simp at ho

theorem merge_stepBranch_measure (s : State) (i : Nat) (b : Branch) (op : BranchOp)
    (s' : State) (hnp : s.out.panicked = false) (hb : s.branches[i]? = some b)
    (h : stepBranch s i b op = some s') : measure s' < measure s := by
  have key : ∀ (b' : Branch) (o' : Out), branchRank b' < branchRank b →
      outRank o' ≤ outRank s.out →
      measure { branches := s.branches.set i b', out := o' } < measure s := by
    intro b' o' hlt hle
    have := list_set_sum branchRank s.branches i b b' hb
    simp only [measure]
    omega
  cases op with
  | closeInput =>
    simp only [stepBranch] at h
    split at h
    · rename_i hp hc
      simp only [Option.some.injEq] at h
      subst h
      exact key _ _ (by simp [branchRank, hc]) (Nat.le_refl _)
    · simp at h
  | fwdRecv =>
    simp only [stepBranch] at h
    split at h
    · rename_i n rest hpc hp
      simp only [Option.some.injEq] at h
      subst h
      exact key _ _ (by simp only [branchRank, hpc, hp, List.length_cons]; omega)
        (Nat.le_refl _)
    · simp at h
  | fwdEnd =>
    simp only [stepBranch] at h
    split at h
    · rename_i hpc hp hc
      simp only [Option.some.injEq] at h
      subst h
      exact key _ _ (by simp only [branchRank, hpc]; omega) (Nat.le_refl _)
    · simp at h
  | fwdSend =>
    simp only [stepBranch] at h
    split at h
    · rename_i n hpc
      cases hs : s.out.send i n with
      | none => simp [hs] at h
      | some o =>
        simp only [hs] at h
        have ho : (o.panicked = true ∧ outRank o < outRank s.out)
            ∨ (o.panicked = false ∧ outRank o = outRank s.out) := by
          unfold Out.send at hs
          split at hs
          · simp only [Option.some.injEq] at hs
            subst hs
            left
            simp [outRank, hnp]
          · split at hs
            · simp at hs
            · simp only [Option.some.injEq] at hs
              subst hs
              right
              simp [outRank, hnp]
        rcases ho with ⟨hp, hlt⟩ | ⟨hp, heq⟩
        · simp only [hp, if_true, Option.some.injEq] at h
          subst h
          simp only [measure]
          omega
        · simp only [hp, Bool.false_eq_true, if_false, Option.some.injEq] at h
          subst h
          exact key _ _ (by simp only [branchRank, hpc]; omega) (Nat.le_of_eq heq)
    · simp at h
  | fwdDone =>
    simp only [stepBranch] at h
    split at h
    · rename_i hpc
      simp only [Option.some.injEq] at h
      subst h
      refine key _ _ (by simp only [branchRank, hpc]; omega) ?_
      unfold Out.wgDone
      split <;> simp [outRank]
    · simp at h

theorem merge_step_measure (s : State) (a : Action) (s' : State)
    (h : step s a = some s') : measure s' < measure s := by
  unfold step at h
  split at h
  · simp at h
  rename_i hnp
  simp only [Bool.not_eq_true] at hnp
  cases a with
  | branch i op =>
    simp only at h
    split at h
    · simp at h
    · rename_i b hb
      exact merge_stepBranch_measure s i b op s' hnp hb h
  | closerWake =>
    simp only [Option.map_eq_some'] at h
    obtain ⟨o, ho, rfl⟩ := h
    unfold Out.closerWake at ho
    split at ho
    · rename_i hc hw
      simp only [Option.some.injEq] at ho
      subst ho
      simp [measure, outRank, hc]
    · simp at ho
  | closerClose =>
    simp only [Option.map_eq_some'] at h
    obtain ⟨o, ho, rfl⟩ := h
    unfold Out.closerClose at ho
    split at ho
    · rename_i hc
      split at ho
      · simp only [Option.some.injEq] at ho
        subst ho
        simp [measure, outRank, hnp]
      · simp only [Option.some.injEq] at ho
        subst ho
        simp [measure, outRank, hc]
    · simp at ho
  | consumerEnd =>
    simp only [Option.map_eq_some'] at h
    obtain ⟨o, ho, rfl⟩ := h
    unfold Out.consumerEnd at ho
    split at ho
    · rename_i hc hd
      simp only [Option.some.injEq] at ho
      subst ho
      simp [measure, outRank, hd]
    · simp at ho

theorem merge_measure_init (xss : List (List Int)) :
    measure (init xss) = 2 * xss.flatten.length + 3 * xss.length + 4 := by
  have : ∀ (l : List (List Int)),
      ((init l).branches.map branchRank).sum = 2 * l.flatten.length + 3 * l.length := by
    intro l
    induction l with
    | nil => rfl
    | cons xs l ih =>
      simp only [init, List.map_cons, List.sum_cons] at ih ⊢
      simp only [ih, List.flatten_cons, List.length_append, List.length_cons, branchRank]
      simp
      omega
  simp only [measure, this]
  simp [init, outRank, Out.init]

/-- When every forwarder has called `wg.Done()`, every forwarder has returned
and every input is drained and closed. -/
theorem merge_all_done (xss : List (List Int)) (s : State) (hI : Inv xss s)
    (hwg : s.out.wg = 0) :
    ∀ b ∈ s.branches, b.pc = .done ∧ b.pending = [] ∧ b.closed = true ∧ b.sent = b.orig := by
  intro b hb
  have hle := list_le_sum_of_mem wgPending s.branches b hb
  rw [← hI.wgOk, hwg] at hle
  have hpc : b.pc = .done := by
    unfold wgPending at hle
    split at hle
    · assumption
    · omega
  obtain ⟨hord, _, hend⟩ := hI.branchesOk b hb
  obtain ⟨hp, hc⟩ := hend (Or.inr hpc)
  refine ⟨hpc, hp, hc, ?_⟩
  simpa [hpc, hp, holding] using hord

theorem merge_stuck (xss : List (List Int)) (s : State) (hI : Inv xss s)
    (hst : Stuck step s) :
    s.out.wg = 0 ∧ s.out.closer = .done ∧ s.out.outClosed = true
      ∧ s.out.consumerDone = true := by
  have hnp := hI.outOk.noPanic
  have hdone : ∀ b ∈ s.branches, wgPending b = 0 := by
    intro b hbm
    obtain ⟨i, hb⟩ := List.getElem?_of_mem hbm
    have hle := list_le_sum_of_mem wgPending s.branches b hbm
    rw [← hI.wgOk] at hle
    obtain ⟨hord, hclo, hend⟩ := hI.branchesOk b hbm
    cases hpc : b.pc with
    | done => simp [wgPending, hpc]
    | exiting =>
      have := hst (.branch i .fwdDone)
      simp [step, hnp, hb, stepBranch, hpc] at this
    | send n =>
      exfalso
      have hw1 : 1 ≤ s.out.wg := by simpa [wgPending, hpc] using hle
      obtain ⟨hopen, _, hcons⟩ := merge_open_of_wg s.out hI.outOk hw1
      have := hst (.branch i .fwdSend)
      simp [step, hnp, hb, stepBranch, hpc, Out.send, hopen, hcons] at this
    | recv =>
      exfalso
      cases hp : b.pending with
      | cons n rest =>
        have := hst (.branch i .fwdRecv)
        simp [step, hnp, hb, stepBranch, hpc, hp] at this
      | nil =>
        cases hc : b.closed with
        | false =>
          have := hst (.branch i .closeInput)
          simp [step, hnp, hb, stepBranch, hp, hc] at this
        | true =>
          have := hst (.branch i .fwdEnd)
          simp [step, hnp, hb, stepBranch, hpc, hp, hc] at this
  have hwg : s.out.wg = 0 := by
    rw [hI.wgOk]
    exact list_sum_eq_zero_of_forall wgPending s.branches hdone
  have hcl : s.out.closer = .done := by
    cases hc : s.out.closer with
    | done => rfl
    | waiting =>
      have := hst .closerWake
      simp [step, hnp, Out.closerWake, hc, hwg] at this
    | closing =>
      have := hst .closerClose
      have h1 := hI.outOk.closerOk
      simp only [CloserOk, hc] at h1
      simp [step, hnp, Out.closerClose, hc, h1.1] at this
  have hoc : s.out.outClosed = true := by
    have h1 := hI.outOk.closerOk
    simp only [CloserOk, hcl] at h1
    exact h1.1
  refine ⟨hwg, hcl, hoc, ?_⟩
  cases hd : s.out.consumerDone with
  | true => rfl
  | false =>
    have := hst .consumerEnd
    simp [step, hnp, Out.consumerEnd, hoc, hd] at this

theorem merge_reach (xss : List (List Int)) (sched : List Action) (s : State)
    (h : runSched step (init xss) sched = some s) :
    Inv xss s
      ∧ sched.length + measure s ≤ 2 * xss.flatten.length + 3 * xss.length + 4
      ∧ ∃ rest s', runSched step s rest = some s' ∧ Stuck step s' := by
  refine ⟨runSched_inv step (Inv xss) (merge_step_inv xss) sched _ _
    (merge_init_inv xss) h, ?_, ?_⟩
  · have := runSched_length step measure merge_step_measure sched _ _ h
    rwa [merge_measure_init] at this
  · exact exists_run_to_stuck step measure merge_step_measure _ s (Nat.le_refl _)

theorem merge_stuck_of_final : Stuck step demoFinal := by
  intro a
  cases a with
  | closerWake => rfl
  | closerClose => rfl
  | consumerEnd => rfl
  | branch i op =>
    match i with
    | 0 => cases op <;> rfl
    | 1 => cases op <;> rfl
    | _ + 2 => rfl

theorem coe_flatten_eq_sum (xss : List (List Int)) :
    ((xss.flatten : List Int) : Multiset Int)
      = (xss.map Multiset.ofList).sum := by
  induction xss with
  | nil => rfl
  | cons xs xss ih =>
    simp only [List.flatten_cons, List.map_cons, List.sum_cons, ← Multiset.coe_add, ih]

/-- C6: for every list `xss` of finite input sequences and every schedule of
`merge`, its forwarders, the closing of the inputs and the draining loop, the
items delivered on the output so far are part of the multiset sum of the inputs,
and in every state where no goroutine can move the multiset of delivered items
is exactly the multiset sum of all inputs and the draining loop has ended; every
run is finite and can be carried on to such a state. -/
theorem merge_delivers_multiset_union (xss : List (List Int)) (sched : List Action)
    (s : State) (h : runSched step (init xss) sched = some s) :
    (↑(s.out.delivered.map Prod.snd) : Multiset Int)
        ≤ (xss.map Multiset.ofList).sum
    ∧ (Stuck step s →
        (↑(s.out.delivered.map Prod.snd) : Multiset Int)
            = (xss.map Multiset.ofList).sum
          ∧ s.out.consumerDone = true)
    ∧ sched.length + measure s ≤ 2 * xss.flatten.length + 3 * xss.length + 4
    ∧ (∃ rest s', runSched step s rest = some s' ∧ Stuck step s') := by
  obtain ⟨hI, hlen, hex⟩ := merge_reach xss sched s h
  rw [← coe_flatten_eq_sum]
  refine ⟨?_, ?_, hlen, hex⟩
  · rw [hI.conserve]
    exact Multiset.le_add_right _ _
  · intro hst
    obtain ⟨hwg, _, _, hcd⟩ := merge_stuck xss s hI hst
    refine ⟨?_, hcd⟩
    have hall := merge_all_done xss s hI hwg
    have h0 : (s.branches.map content).sum = 0 := by
      have : ∀ (l : List Branch), (∀ b ∈ l, content b = 0) → (l.map content).sum = 0 := by
        intro l
        induction l with
        | nil => intro _; rfl
        | cons y ys ih =>
          intro hl
          simp only [List.map_cons, List.sum_cons]
          rw [hl y (List.mem_cons_self _ _),
            ih (fun x hx => hl x (List.mem_cons_of_mem _ hx)), add_zero]
      apply this
      intro b hb
      obtain ⟨hpc, hp, _, _⟩ := hall b hb
      simp [content, hpc, hp, holding]
    rw [hI.conserve, h0, add_zero]

theorem merge_delivers_multiset_union_witness :
    runSched step (init [[1, 2, 3], [10, 20]]) demoSched = some demoFinal
    ∧ Stuck step demoFinal
    ∧ (↑(demoFinal.out.delivered.map Prod.snd) : Multiset Int)
        = Multiset.ofList [1, 2, 3] + Multiset.ofList [10, 20] := by
  have h := ((merge_delivers_multiset_union [[1, 2, 3], [10, 20]] demoSched demoFinal
    (by decide)).2.1 merge_stuck_of_final).1
  exact ⟨by decide, merge_stuck_of_final, by simpa using h⟩

/-- C7: in every state `merge` can reach, `close(out)` has been called at most
once, and exactly once if and only if `out` is closed; no goroutine has panicked,
so no forwarder has sent on the closed `out` and `out` was not closed twice; when
`out` is closed, and already when `close(out)` is about to run, every forwarder
has returned and every input is drained and closed; a forwarder sends on `out`
only while it is open; and in every state where no goroutine can move `out` has
been closed exactly once. -/
theorem merge_closes_out_once (xss : List (List Int)) (sched : List Action)
    (s : State) (h : runSched step (init xss) sched = some s) :
    s.out.closes ≤ 1
    ∧ (s.out.outClosed = true ↔ s.out.closes = 1)
    ∧ s.out.panicked = false
    ∧ (s.out.outClosed = true →
        ∀ b ∈ s.branches, b.pc = .done ∧ b.pending = [] ∧ b.closed = true)
    ∧ (∀ s', step s .closerClose = some s' →
        (∀ b ∈ s.branches, b.pc = .done ∧ b.pending = [] ∧ b.closed = true)
          ∧ s.out.closes = 0 ∧ s'.out.closes = 1 ∧ s'.out.outClosed = true
          ∧ s'.out.panicked = false)
    ∧ (∀ i s', step s (.branch i .fwdSend) = some s' →
        s.out.outClosed = false ∧ s'.out.outClosed = false)
    ∧ (Stuck step s → s.out.closes = 1 ∧ s.out.outClosed = true) := by
  obtain ⟨hI, _, _⟩ := merge_reach xss sched s h
  obtain ⟨o1, o2, o3, o4⟩ := hI.outOk
  have hdone : s.out.wg = 0 →
      ∀ b ∈ s.branches, b.pc = .done ∧ b.pending = [] ∧ b.closed = true := by
    intro hwg b hb
    obtain ⟨h1, h2, h3, _⟩ := merge_all_done xss s hI hwg b hb
    exact ⟨h1, h2, h3⟩
  refine ⟨?_, ?_, o4, ?_, ?_, ?_, ?_⟩
  · rw [o2]
    split <;> omega
  · rw [o2]
    cases s.out.outClosed <;> simp
  · intro hc
    apply hdone
    unfold CloserOk at o1
    split at o1
    · rw [hc] at o1
      cases o1
    · rw [hc] at o1
      cases o1.1
    · exact o1.2
  · intro s' hs
    have hI' := merge_step_inv xss s _ s' hI hs
    simp only [step, o4, Bool.false_eq_true, if_false, Option.map_eq_some'] at hs
    obtain ⟨o, ho, rfl⟩ := hs
    unfold Out.closerClose at ho
    split at ho
    · rename_i hc
      simp only [CloserOk, hc] at o1
      simp only [o1.1, Bool.false_eq_true, if_false, Option.some.injEq] at ho
      subst ho
      refine ⟨hdone o1.2, ?_, ?_, rfl, o4⟩
      · simpa [o1.1] using o2
      · simp [o2, o1.1]
    · simp at ho
  · intro i s' hs
    have hI' := merge_step_inv xss s _ s' hI hs
    simp only [step, o4, Bool.false_eq_true, if_false] at hs
    split at hs
    · simp at hs
    · rename_i b hb
      simp only [stepBranch] at hs
      split at hs
      · rename_i n hpc
        have hle := list_le_sum_of_mem wgPending s.branches b (List.getElem?_mem hb)
        rw [← hI.wgOk] at hle
        have hw1 : 1 ≤ s.out.wg := by simpa [wgPending, hpc] using hle
        obtain ⟨hopen, _, hcons⟩ := merge_open_of_wg s.out hI.outOk hw1
        simp only [Out.send, hopen, hcons, Bool.false_eq_true, if_false, o4,
          Option.some.injEq] at hs
        subst hs
        exact ⟨hopen, rfl⟩
      · simp at hs
  · intro hst
    obtain ⟨_, _, hoc, _⟩ := merge_stuck xss s hI hst
    refine ⟨?_, hoc⟩
    simp [o2, hoc]

theorem merge_closes_out_once_witness :
    runSched step (init [[1, 2, 3], [10, 20]]) (demoSched.take 17) = some demoBeforeClose
    ∧ step demoBeforeClose .closerClose
        = some { demoBeforeClose with
                  out := { demoBeforeClose.out with closer := .done, outClosed := true,
                                                    closes := 1 } }
    ∧ (∀ b ∈ demoBeforeClose.branches, b.pc = .done ∧ b.pending = [] ∧ b.closed = true) := by
  have h := (merge_closes_out_once [[1, 2, 3], [10, 20]] (demoSched.take 17)
    demoBeforeClose (by decide)).2.2.2.2.1 _ (by decide :
      step demoBeforeClose .closerClose
        = some { demoBeforeClose with
                  out := { demoBeforeClose.out with closer := .done, outClosed := true,
                                                    closes := 1 } })
  exact ⟨by decide, by decide, h.1⟩

/-- C8: for every schedule of `merge`, every delivered item carries the number
of one of the inputs; the delivered sequence restricted to the items of input
`i` is at every moment an initial segment of the sequence of input `i`; and in
every state where no goroutine can move it is exactly that sequence, in its
original order. -/
theorem merge_keeps_branch_order (xss : List (List Int)) (sched : List Action)
    (s : State) (h : runSched step (init xss) sched = some s) :
    (∀ p ∈ s.out.delivered, p.1 < xss.length)
    ∧ (∀ (i : Nat) (xs : List Int), xss[i]? = some xs → proj i s.out.delivered <+: xs)
    ∧ (Stuck step s → ∀ (i : Nat) (xs : List Int), xss[i]? = some xs → proj i s.out.delivered = xs) := by
  obtain ⟨hI, _, _⟩ := merge_reach xss sched s h
  have hget : ∀ (i : Nat) (xs : List Int), xss[i]? = some xs →
      ∃ b, s.branches[i]? = some b ∧ b ∈ s.branches ∧ b.orig = xs := by
    intro i xs hx
    have hx' : (s.branches.map (fun b => b.orig))[i]? = some xs := by
      rw [hI.origs]
      exact hx
    rw [List.getElem?_map, Option.map_eq_some'] at hx'
    obtain ⟨b, hb, hbo⟩ := hx'
    exact ⟨b, hb, List.getElem?_mem hb, hbo⟩
  refine ⟨hI.tags, ?_, ?_⟩
  · intro i xs hx
    obtain ⟨b, hb, hbm, rfl⟩ := hget i xs hx
    rw [hI.link i b hb, ← (hI.branchesOk b hbm).order, List.append_assoc]
    exact List.prefix_append _ _
  · intro hst i xs hx
    obtain ⟨b, hb, hbm, rfl⟩ := hget i xs hx
    obtain ⟨hwg, _, _, _⟩ := merge_stuck xss s hI hst
    rw [hI.link i b hb]
    exact (merge_all_done xss s hI hwg b hbm).2.2.2

theorem merge_keeps_branch_order_witness :
    runSched step (init [[1, 2, 3], [10, 20]]) demoSched = some demoFinal
    ∧ demoFinal.out.delivered.map Prod.snd = [10, 1, 2, 20, 3]
    ∧ proj 0 demoFinal.out.delivered = [1, 2, 3]
    ∧ proj 1 demoFinal.out.delivered = [10, 20] := by
  have h := (merge_keeps_branch_order [[1, 2, 3], [10, 20]] demoSched demoFinal
    (by decide)).2.2 merge_stuck_of_final
  exact ⟨by decide, by decide, h 0 _ rfl, h 1 _ rfl⟩

theorem out_send_open (o : Out) (hok : OutOk o) (hw : 1 ≤ o.wg) (i : Nat) (n : Int) :
    o.send i n = some { o with delivered := o.delivered ++ [(i, n)] }
      ∧ OutOk { o with delivered := o.delivered ++ [(i, n)] } := by
  obtain ⟨hopen, hwait, hcons⟩ := merge_open_of_wg o hok hw
  obtain ⟨o1, o2, o3, o4⟩ := hok
  refine ⟨by simp [Out.send, hopen, hcons], ?_, o2, o3, o4⟩
  revert o1
  simp only [CloserOk]
  exact id

theorem out_wgDone_ok (o : Out) (hok : OutOk o) (k : Nat) (hk : o.wg = k + 1) :
    o.wgDone = { o with wg := k } ∧ OutOk { o with wg := k } := by
  obtain ⟨hopen, hwait, hcons⟩ := merge_open_of_wg o hok (by omega)
  obtain ⟨o1, o2, o3, o4⟩ := hok
  refine ⟨by simp [Out.wgDone, hk], ?_, o2, o3, o4⟩
  simp only [CloserOk, hwait]
  exact hopen

theorem out_closerWake_ok (o o' : Out) (hok : OutOk o) (h : o.closerWake = some o') :
    OutOk o' ∧ o'.delivered = o.delivered ∧ o'.wg = o.wg ∧ outRank o' < outRank o := by
  obtain ⟨o1, o2, o3, o4⟩ := hok
  unfold Out.closerWake at h
  split at h
  · rename_i hc hw
    simp only [Option.some.injEq] at h
    subst h
    simp only [CloserOk, hc] at o1
    exact ⟨⟨by simp [CloserOk, o1, hw], o2, o3, o4⟩, rfl, rfl, by simp [outRank, hc]⟩
  · simp at h

theorem out_closerClose_ok (o o' : Out) (hok : OutOk o) (h : o.closerClose = some o') :
    OutOk o' ∧ o'.delivered = o.delivered ∧ o'.wg = o.wg ∧ outRank o' < outRank o := by
  obtain ⟨o1, o2, o3, o4⟩ := hok
  unfold Out.closerClose at h
  split at h
  · rename_i hc
    simp only [CloserOk, hc] at o1
    simp only [o1.1, Bool.false_eq_true, if_false, Option.some.injEq] at h
    subst h
    exact ⟨⟨by simp [CloserOk, o1.2], by simp [o2, o1.1], by simp, o4⟩, rfl, rfl,
      by simp [outRank, hc]⟩
  · simp at h

theorem out_consumerEnd_ok (o o' : Out) (hok : OutOk o) (h : o.consumerEnd = some o') :
    OutOk o' ∧ o'.delivered = o.delivered ∧ o'.wg = o.wg ∧ outRank o' < outRank o := by
  obtain ⟨o1, o2, o3, o4⟩ := hok
  unfold Out.consumerEnd at h
  split at h
  · rename_i hc hd
    simp only [Option.some.injEq] at h
    subst h
    refine ⟨⟨?_, o2, fun _ => hc, o4⟩, rfl, rfl, by simp [outRank, hd]⟩
    revert o1
    simp only [CloserOk]
    exact id
  · simp at h

/-- When every forwarder has called `wg.Done()` and neither the closing
goroutine nor the draining loop can move, `out` is closed and the loop ended. -/
theorem out_stuck (o : Out) (hok : OutOk o) (hwg : o.wg = 0)
    (h1 : o.closerWake = none) (h2 : o.closerClose = none) (h3 : o.consumerEnd = none) :
    o.closer = .done ∧ o.outClosed = true ∧ o.consumerDone = true := by
  have hcl : o.closer = .done := by
    cases hc : o.closer with
    | done => rfl
    | waiting => simp [Out.closerWake, hc, hwg] at h1
    | closing =>
      have hk := hok.closerOk
      simp only [CloserOk, hc] at hk
      simp [Out.closerClose, hc, hk.1] at h2
  have hoc : o.outClosed = true := by
    have hk := hok.closerOk
    simp only [CloserOk, hcl] at hk
    exact hk.1
  refine ⟨hcl, hoc, ?_⟩
  cases hd : o.consumerDone with
  | true => rfl
  | false => simp [Out.consumerEnd, hoc, hd] at h3

end Merge

theorem multiset_conserve_step {α : Type} (X D S Q c D' S' Q' c' : Multiset α)
    (h : X = D + S + Q) (hs : S' + c = S + c') (hc : D' + c' + Q' = D + c + Q) :
    X = D' + S' + Q' := by
  have key : X + c = D' + S' + Q' + c := by
    calc X + c = (D + c + Q) + S := by rw [h]; abel
      _ = (D' + c' + Q') + S := by rw [hc]
      _ = D' + (S + c') + Q' := by abel
      _ = D' + (S' + c) + Q' := by rw [hs]
      _ = D' + S' + Q' + c := by abel
  exact add_right_cancel key

namespace FanOut

theorem fanout_init_inv (xs : List Int) (k : Nat) : Inv xs (init xs k) := by
  refine ⟨?_, ?_, ?_, ?_, ?_, ?_, ?_⟩
  · simp [init]
  · simp [init, Merge.Out.init, laneContent, Pipeline.inFlight, Merge.holding]
  · simp [init]
  · intro l hl
    simp only [init, List.mem_replicate] at hl
    simp [hl.2]
  · intro l hl
    simp only [init, List.mem_replicate] at hl
    simp [hl.2]
  · simp [init, Merge.Out.init, wgPending]
  · exact ⟨by simp [init, Merge.Out.init, Merge.CloserOk], by simp [init, Merge.Out.init],
      by simp [init, Merge.Out.init], by simp [init, Merge.Out.init]⟩

/-- Replacing lane `k` keeps the invariant when the new lane, the new list of
unsent items and the new shared part account for the same items. -/
theorem fanout_set_inv (xs : List Int) (s : State) (k : Nat) (l l' : Lane)
    (nums' : List Int) (o' : Merge.Out) (hI : Inv xs s) (hl : s.lanes[k]? = some l)
    (hdist : (Multiset.ofList l'.got) + ↑nums' = (Multiset.ofList l.got) + ↑s.nums)
    (hcons : (↑(o'.delivered.map Prod.snd) : Multiset Int) + laneContent l'
        + ↑(Pipeline.squares nums')
      = ↑(s.out.delivered.map Prod.snd) + laneContent l + ↑(Pipeline.squares s.nums))
    (hclosed : s.inClosed = true → nums' = [])
    (hsq : (l'.sq = .exiting ∨ l'.sq = .closed) → nums' = [] ∧ s.inClosed = true)
    (hothers : ∀ l2 ∈ s.lanes, (l2.sq = .exiting ∨ l2.sq = .closed) →
      nums' = [] ∧ s.inClosed = true)
    (hfwd : (l'.fwd = .exiting ∨ l'.fwd = .done) → l'.sq = .closed)
    (hwg : o'.wg + wgPending l = s.out.wg + wgPending l')
    (hout : Merge.OutOk o') :
    Inv xs { nums := nums', inClosed := s.inClosed, lanes := s.lanes.set k l',
             out := o' } := by
  obtain ⟨h1, h2, h3, h4, h5, h6, h7⟩ := hI
  have hg := list_set_sum (fun l => Multiset.ofList l.got) s.lanes k l l' hl
  have hc := list_set_sum laneContent s.lanes k l l' hl
  have hw := list_set_sum wgPending s.lanes k l l' hl
  refine ⟨?_, ?_, hclosed, ?_, ?_, ?_, hout⟩
  · have := multiset_conserve_step (↑xs : Multiset Int) 0 _ _ _ 0 _ _ _
      (by rw [zero_add]; exact h1) hg (by rw [zero_add, zero_add]; exact hdist)
    rw [zero_add] at this
    exact this
  · exact multiset_conserve_step _ _ _ _ _ _ _ _ _ h2 hc hcons
  · intro x hx
    rcases list_mem_set _ _ _ _ hx with hx | hx
    · exact hx ▸ hsq
    · exact hothers x hx
  · intro x hx
    rcases list_mem_set _ _ _ _ hx with hx | hx
    · exact hx ▸ hfwd
    · exact h5 x hx
  · simp only
    omega

theorem fanout_out_inv (xs : List Int) (s : State) (o : Merge.Out) (hI : Inv xs s)
    (hd : o.delivered = s.out.delivered) (hw : o.wg = s.out.wg) (hout : Merge.OutOk o) :
    Inv xs { s with out := o } := by
  obtain ⟨h1, h2, h3, h4, h5, h6, h7⟩ := hI
  exact ⟨h1, by simpa [hd] using h2, h3, h4, h5, by simpa [hw] using h6, hout⟩

theorem fanout_stepLane_inv (xs : List Int) (s : State) (k : Nat) (l : Lane)
    (op : LaneOp) (s' : State) (hI : Inv xs s) (hl : s.lanes[k]? = some l)
    (h : stepLane s k l op = some s') : Inv xs s' := by
  have hlm : l ∈ s.lanes := List.getElem?_mem hl
  have hsqEnd := hI.sqEnd l hlm
  have hfwdEnd := hI.fwdEnd l hlm
  have hpend : wgPending l ≤ s.out.wg := by
    rw [hI.wgOk]
    exact list_le_sum_of_mem wgPending s.lanes l hlm
  cases op with
  | sqRecv =>
    simp only [stepLane] at h
    split at h
    · rename_i n rest hn hsq
      simp only [Option.some.injEq] at h
      subst h
      have hnc : s.inClosed = false := by
        cases hc : s.inClosed with
        | false => rfl
        | true =>
          have := hI.inClosedOk hc
          rw [hn] at this
          cases this
      apply fanout_set_inv xs s k l _ rest s.out hI hl
      · simp only [hn]
        simp only [← Multiset.coe_add, ← Multiset.singleton_add, ← Multiset.cons_coe,
          Multiset.coe_nil, Multiset.coe_singleton, add_zero, zero_add]
        abel
      · simp only [hn, laneContent, Pipeline.inFlight, hsq, Pipeline.squares, List.map_cons]
        simp only [← Multiset.coe_add, ← Multiset.singleton_add, ← Multiset.cons_coe,
          Multiset.coe_nil, Multiset.coe_singleton, add_zero, zero_add]
        abel
      · simp [hnc]
      · simp
      · intro l2 hl2 hp
        have := (hI.sqEnd l2 hl2 hp).1
        rw [hn] at this
        cases this
      · intro hp
        have := hfwdEnd hp
        rw [hsq] at this
        cases this
      · simp [wgPending]
      · exact hI.outOk
    · simp at h
  | sqSend =>
    simp only [stepLane] at h
    split at h
    · rename_i n hsq hfw
      simp only [Option.some.injEq] at h
      subst h
      apply fanout_set_inv xs s k l _ s.nums s.out hI hl
      · rfl
      · simp [laneContent, Pipeline.inFlight, Merge.holding, hsq, hfw]
      · exact hI.inClosedOk
      · simp
      · exact hI.sqEnd
      · simp
      · simp [wgPending, hfw]
      · exact hI.outOk
    · simp at h
  | sqExit =>
    simp only [stepLane] at h
    split at h
    · rename_i hsq hn hc
      simp only [Option.some.injEq] at h
      subst h
      apply fanout_set_inv xs s k l _ s.nums s.out hI hl
      · rfl
      · simp [laneContent, Pipeline.inFlight, hsq]
      · exact hI.inClosedOk
      · intro _
        exact ⟨hn, hc⟩
      · exact hI.sqEnd
      · intro hp
        have := hfwdEnd hp
        rw [hsq] at this
        cases this
      · simp [wgPending]
      · exact hI.outOk
    · simp at h
  | sqClose =>
    simp only [stepLane] at h
    split at h
    · rename_i hsq
      simp only [Option.some.injEq] at h
      subst h
      apply fanout_set_inv xs s k l _ s.nums s.out hI hl
      · rfl
      · simp [laneContent, Pipeline.inFlight, hsq]
      · exact hI.inClosedOk
      · intro _
        exact hsqEnd (Or.inl hsq)
      · exact hI.sqEnd
      · simp
      · simp [wgPending]
      · exact hI.outOk
    · simp at h
  | fwdEnd =>
    simp only [stepLane] at h
    split at h
    · rename_i hfw hsq
      simp only [Option.some.injEq] at h
      subst h
      apply fanout_set_inv xs s k l _ s.nums s.out hI hl
      · rfl
      · simp [laneContent, Merge.holding, hfw]
      · exact hI.inClosedOk
      · exact hsqEnd
      · exact hI.sqEnd
      · intro _
        exact hsq
      · simp [wgPending, hfw]
      · exact hI.outOk
    · simp at h
  | fwdSend =>
    simp only [stepLane] at h
    split at h
    · rename_i n hfw
      have hw1 : 1 ≤ s.out.wg := by simpa [wgPending, hfw] using hpend
      obtain ⟨hsend, hok'⟩ := Merge.out_send_open s.out hI.outOk hw1 k n
      simp only [hsend, hI.outOk.noPanic, Bool.false_eq_true, if_false,
        Option.some.injEq] at h
      subst h
      apply fanout_set_inv xs s k l _ s.nums _ hI hl
      · rfl
      · simp only [laneContent, Merge.holding, hfw, List.map_append, List.map_cons,
          List.map_nil]
        simp only [← Multiset.coe_add, ← Multiset.singleton_add, ← Multiset.cons_coe,
          Multiset.coe_nil, Multiset.coe_singleton, add_zero, zero_add]
        abel
      · exact hI.inClosedOk
      · exact hsqEnd
      · exact hI.sqEnd
      · simp
      · simp [wgPending, hfw]
      · simpa [hI.outOk.noPanic] using hok'
    · simp at h
  | fwdDone =>
    simp only [stepLane] at h
    split at h
    · rename_i hfw
      have hw1 : 1 ≤ s.out.wg := by simpa [wgPending, hfw] using hpend
      obtain ⟨j, hj⟩ : ∃ j, s.out.wg = j + 1 := ⟨s.out.wg - 1, by omega⟩
      obtain ⟨hwd, hok'⟩ := Merge.out_wgDone_ok s.out hI.outOk j hj
      simp only [hwd, Option.some.injEq] at h
      subst h
      apply fanout_set_inv xs s k l _ s.nums _ hI hl
      · rfl
      · simp [laneContent, Merge.holding, hfw]
      · exact hI.inClosedOk
      · exact hsqEnd
      · exact hI.sqEnd
      · intro _
        exact hfwdEnd (Or.inl hfw)
      · simp only [wgPending, hfw, hj]
      · exact hok'
    · simp at h

theorem fanout_step_inv (xs : List Int) (s : State) (a : Action) (s' : State)
    (hI : Inv xs s) (h : step s a = some s') : Inv xs s' := by
  unfold step at h
  split at h
  · simp at h
  cases a with
  | prodClose =>
    simp only at h
    split at h
    · rename_i hn hc
      simp only [Option.some.injEq] at h
      subst h
      obtain ⟨h1, h2, h3, h4, h5, h6, h7⟩ := hI
      exact ⟨h1, h2, fun _ => hn, fun _ _ _ => ⟨hn, rfl⟩, h5, h6, h7⟩
    · simp at h
  | lane k op =>
    simp only at h
    split at h
    · simp at h
    · rename_i l hl
      exact fanout_stepLane_inv xs s k l op s' hI hl h
  | closerWake =>
    simp only [Option.map_eq_some'] at h
    obtain ⟨o, ho, rfl⟩ := h
    obtain ⟨hok, hd, hw, _⟩ := Merge.out_closerWake_ok _ _ hI.outOk ho
    exact fanout_out_inv xs s o hI hd hw hok
  | closerClose =>
    simp only [Option.map_eq_some'] at h
    obtain ⟨o, ho, rfl⟩ := h
    obtain ⟨hok, hd, hw, _⟩ := Merge.out_closerClose_ok _ _ hI.outOk ho
    exact fanout_out_inv xs s o hI hd hw hok
  | consumerEnd =>
    simp only [Option.map_eq_some'] at h
    obtain ⟨o, ho, rfl⟩ := h
    obtain ⟨hok, hd, hw, _⟩ := Merge.out_consumerEnd_ok _ _ hI.outOk ho
    exact fanout_out_inv xs s o hI hd hw hok

theorem fanout_stepLane_measure (s : State) (k : Nat) (l : Lane) (op : LaneOp)
    (s' : State) (hnp : s.out.panicked = false) (hl : s.lanes[k]? = some l)
    (h : stepLane s k l op = some s') : measure s' < measure s := by
  have key : ∀ (l' : Lane) (nums' : List Int) (o' : Merge.Out),
      3 * nums'.length + laneRank l' < 3 * s.nums.length + laneRank l →
      Merge.outRank o' ≤ Merge.outRank s.out →
      measure { nums := nums', inClosed := s.inClosed, lanes := s.lanes.set k l',
                out := o' } < measure s := by
    intro l' nums' o' hlt hle
    have := list_set_sum laneRank s.lanes k l l' hl
    simp only [measure]
    omega
  cases op with
  | sqRecv =>
    simp only [stepLane] at h
    split at h
    · rename_i n rest hn hsq
      simp only [Option.some.injEq] at h
      subst h
      exact key _ _ _ (by simp only [laneRank, hsq, hn, List.length_cons]; omega)
        (Nat.le_refl _)
    · simp at h
  | sqSend =>
    simp only [stepLane] at h
    split at h
    · rename_i n hsq hfw
      simp only [Option.some.injEq] at h
      subst h
      exact key _ _ _ (by simp only [laneRank, hsq, hfw]; omega) (Nat.le_refl _)
    · simp at h
  | sqExit =>
    simp only [stepLane] at h
    split at h
    · rename_i hsq hn hc
      simp only [Option.some.injEq] at h
      subst h
      exact key _ _ _ (by simp only [laneRank, hsq]; omega) (Nat.le_refl _)
    · simp at h
  | sqClose =>
    simp only [stepLane] at h
    split at h
    · rename_i hsq
      simp only [Option.some.injEq] at h
      subst h
      exact key _ _ _ (by simp only [laneRank, hsq]; omega) (Nat.le_refl _)
    · simp at h
  | fwdEnd =>
    simp only [stepLane] at h
    split at h
    · rename_i hfw hsq
      simp only [Option.some.injEq] at h
      subst h
      exact key _ _ _ (by simp only [laneRank, hfw]; omega) (Nat.le_refl _)
    · simp at h
  | fwdSend =>
    simp only [stepLane] at h
    split at h
    · rename_i n hfw
      cases hs : s.out.send k n with
      | none => simp [hs] at h
      | some o =>
        simp only [hs] at h
        have ho : (o.panicked = true ∧ Merge.outRank o < Merge.outRank s.out)
            ∨ (o.panicked = false ∧ Merge.outRank o = Merge.outRank s.out) := by
          unfold Merge.Out.send at hs
          split at hs
          · simp only [Option.some.injEq] at hs
            subst hs
            left
            simp [Merge.outRank, hnp]
          · split at hs
            · simp at hs
            · simp only [Option.some.injEq] at hs
              subst hs
              right
              simp [Merge.outRank, hnp]
        rcases ho with ⟨hp, hlt⟩ | ⟨hp, heq⟩
        · simp only [hp, if_true, Option.some.injEq] at h
          subst h
          simp only [measure]
          omega
        · simp only [hp, Bool.false_eq_true, if_false, Option.some.injEq] at h
          subst h
          exact key _ _ _ (by simp only [laneRank, hfw]; omega) (Nat.le_of_eq heq)
    · simp at h
  | fwdDone =>
    simp only [stepLane] at h
    split at h
    · rename_i hfw
      simp only [Option.some.injEq] at h
      subst h
      refine key _ _ _ (by simp only [laneRank, hfw]; omega) ?_
      unfold Merge.Out.wgDone
      split <;> simp [Merge.outRank]
    · simp at h

theorem fanout_step_measure (s : State) (a : Action) (s' : State)
    (h : step s a = some s') : measure s' < measure s := by
  unfold step at h
  split at h
  · simp at h
  rename_i hnp
  simp only [Bool.not_eq_true] at hnp
  cases a with
  | prodClose =>
    simp only at h
    split at h
    · rename_i hn hc
      simp only [Option.some.injEq] at h
      subst h
      simp [measure, hc]
    · simp at h
  | lane k op =>
    simp only at h
    split at h
    · simp at h
    · rename_i l hl
      exact fanout_stepLane_measure s k l op s' hnp hl h
  | closerWake =>
    simp only [Option.map_eq_some'] at h
    obtain ⟨o, ho, rfl⟩ := h
    unfold Merge.Out.closerWake at ho
    split at ho
    · rename_i hc hw
      simp only [Option.some.injEq] at ho
      subst ho
      simp [measure, Merge.outRank, hc]
    · simp at ho
  | closerClose =>
    simp only [Option.map_eq_some'] at h
    obtain ⟨o, ho, rfl⟩ := h
    unfold Merge.Out.closerClose at ho
    split at ho
    · rename_i hc
      split at ho
      · simp only [Option.some.injEq] at ho
        subst ho
        simp [measure, Merge.outRank, hnp]
      · simp only [Option.some.injEq] at ho
        subst ho
        simp [measure, Merge.outRank, hc]
    · simp at ho
  | consumerEnd =>
    simp only [Option.map_eq_some'] at h
    obtain ⟨o, ho, rfl⟩ := h
    unfold Merge.Out.consumerEnd at ho
    split at ho
    · rename_i hc hd
      simp only [Option.some.injEq] at ho
      subst ho
      simp [measure, Merge.outRank, hd]
    · simp at ho

theorem fanout_stuck (xs : List Int) (s : State) (hI : Inv xs s)
    (hne : s.lanes ≠ []) (hst : Stuck step s) :
    s.nums = [] ∧ (∀ l ∈ s.lanes, l.sq = .closed ∧ l.fwd = .done)
      ∧ s.out.outClosed = true ∧ s.out.consumerDone = true := by
  have hnp := hI.outOk.noPanic
  have hlane : ∀ l ∈ s.lanes, l.sq = .closed ∧ l.fwd = .done := by
    intro l hlm
    obtain ⟨k, hl⟩ := List.getElem?_of_mem hlm
    have hle := list_le_sum_of_mem wgPending s.lanes l hlm
    rw [← hI.wgOk] at hle
    have hfe := hI.fwdEnd l hlm
    have hsq : l.sq = .closed := by
      cases hsq : l.sq with
      | closed => rfl
      | exiting =>
        have := hst (.lane k .sqClose)
        simp [step, hnp, hl, stepLane, hsq] at this
      | recv =>
        exfalso
        cases hn : s.nums with
        | cons n rest =>
          have := hst (.lane k .sqRecv)
          simp [step, hnp, hl, stepLane, hsq, hn] at this
        | nil =>
          cases hc : s.inClosed with
          | false =>
            have := hst .prodClose
            simp [step, hnp, hn, hc] at this
          | true =>
            have := hst (.lane k .sqExit)
            simp [step, hnp, hl, stepLane, hsq, hn, hc] at this
      | send n =>
        exfalso
        cases hfw : l.fwd with
        | recv =>
          have := hst (.lane k .sqSend)
          simp [step, hnp, hl, stepLane, hsq, hfw] at this
        | send m =>
          have hw1 : 1 ≤ s.out.wg := by simpa [wgPending, hfw] using hle
          obtain ⟨hsend, _⟩ := Merge.out_send_open s.out hI.outOk hw1 k m
          have := hst (.lane k .fwdSend)
          simp [step, hnp, hl, stepLane, hfw, hsend] at this
        | exiting =>
          have := hfe (Or.inl hfw)
          rw [hsq] at this
          cases this
        | done =>
          have := hfe (Or.inr hfw)
          rw [hsq] at this
          cases this
    refine ⟨hsq, ?_⟩
    cases hfw : l.fwd with
    | done => rfl
    | recv =>
      have := hst (.lane k .fwdEnd)
      simp [step, hnp, hl, stepLane, hsq, hfw] at this
    | send m =>
      have hw1 : 1 ≤ s.out.wg := by simpa [wgPending, hfw] using hle
      obtain ⟨hsend, _⟩ := Merge.out_send_open s.out hI.outOk hw1 k m
      have := hst (.lane k .fwdSend)
      simp [step, hnp, hl, stepLane, hfw, hsend] at this
    | exiting =>
      have := hst (.lane k .fwdDone)
      simp [step, hnp, hl, stepLane, hfw] at this
  obtain ⟨l0, hl0⟩ := List.exists_mem_of_ne_nil _ hne
  have hn := (hI.sqEnd l0 hl0 (Or.inr (hlane l0 hl0).1)).1
  have hwg : s.out.wg = 0 := by
    rw [hI.wgOk]
    apply list_sum_eq_zero_of_forall
    intro l hlm
    simp [wgPending, (hlane l hlm).2]
  have h1 := hst .closerWake
  have h2 := hst .closerClose
  have h3 := hst .consumerEnd
  simp only [step, hnp, Bool.false_eq_true, if_false, Option.map_eq_none'] at h1 h2 h3
  obtain ⟨_, hoc, hcd⟩ := Merge.out_stuck s.out hI.outOk hwg h1 h2 h3
  exact ⟨hn, hlane, hoc, hcd⟩

theorem fanout_measure_init (xs : List Int) (k : Nat) :
    measure (init xs k) = 3 * xs.length + 4 * k + 5 := by
  simp [measure, init, laneRank, Merge.outRank, Merge.Out.init]
  omega

/-- C9: for every finite `xs` and every schedule of `producer(xs...)`, the two
`square` stages reading it, `merge` of their outputs and the draining loop of
`main`: at every moment each item of `xs` is unsent or has been received by
exactly one of the two stages (the items received by the stages and the unsent
ones add up to `xs` as multisets); what was delivered is part of the multiset of
squares; and in every state where no goroutine can move every item has been
received by a stage, the multiset of values read from the merged channel is the
multiset of `n * n` (Go `int` product) over `xs`, which for 1..8 is
{1, 4, 9, 16, 25, 36, 49, 64}, and the loop has ended.  Every run is finite and
can be carried on to such a state. -/
theorem fan_out_fan_in_multiset (xs : List Int) (sched : List Action) (s : State)
    (h : runSched step (mainInit xs) sched = some s) :
    (↑xs : Multiset Int) = (s.lanes.map (fun l => Multiset.ofList l.got)).sum + ↑s.nums
    ∧ s.lanes.length = 2
    ∧ (↑(s.out.delivered.map Prod.snd) : Multiset Int)
        ≤ Multiset.map (fun n => mulInt n n) ↑xs
    ∧ (Stuck step s →
        (↑xs : Multiset Int) = (s.lanes.map (fun l => Multiset.ofList l.got)).sum
        ∧ (↑(s.out.delivered.map Prod.snd) : Multiset Int)
            = Multiset.map (fun n => mulInt n n) ↑xs
        ∧ s.out.consumerDone = true)
    ∧ (xs = mainNums → Stuck step s →
        (↑(s.out.delivered.map Prod.snd) : Multiset Int) = {1, 4, 9, 16, 25, 36, 49, 64})
    ∧ sched.length + measure s ≤ 3 * xs.length + 13
    ∧ (∃ rest s', runSched step s rest = some s' ∧ Stuck step s') := by
  have hI : Inv xs s := runSched_inv step (Inv xs) (fanout_step_inv xs) sched _ _
    (fanout_init_inv xs 2) h
  have hlen2 : s.lanes.length = 2 := by
    refine runSched_inv step (fun s => s.lanes.length = 2) ?_ sched (mainInit xs) s
      (by simp [mainInit, init]) h
    intro s1 a s2 h1 hs
    unfold step at hs
    split at hs
    · simp at hs
    cases a with
    | prodClose =>
      simp only at hs
      split at hs
      · simp only [Option.some.injEq] at hs
        subst hs
        exact h1
      · simp at hs
    | closerWake =>
      simp only [Option.map_eq_some'] at hs
      obtain ⟨o, _, rfl⟩ := hs
      exact h1
    | closerClose =>
      simp only [Option.map_eq_some'] at hs
      obtain ⟨o, _, rfl⟩ := hs
      exact h1
    | consumerEnd =>
      simp only [Option.map_eq_some'] at hs
      obtain ⟨o, _, rfl⟩ := hs
      exact h1
    | lane k op =>
      simp only at hs
      split at hs
      · simp at hs
      · cases op <;> simp only [stepLane] at hs <;> split at hs <;>
          first
          | (simp at hs; done)
          | (simp only [Option.some.injEq] at hs; subst hs; simpa using h1)
          | (split at hs
             · simp at hs
             · split at hs <;> simp only [Option.some.injEq] at hs <;> subst hs <;>
                 simpa using h1)
  have hmap : (↑(Pipeline.squares xs) : Multiset Int)
      = Multiset.map (fun n => mulInt n n) ↑xs := by
    rw [Multiset.map_coe]
    rfl
  have hstuck : Stuck step s →
      (↑xs : Multiset Int) = (s.lanes.map (fun l => Multiset.ofList l.got)).sum
      ∧ (↑(s.out.delivered.map Prod.snd) : Multiset Int)
          = Multiset.map (fun n => mulInt n n) ↑xs
      ∧ s.out.consumerDone = true := by
    intro hst
    have hne : s.lanes ≠ [] := by
      intro h0
      rw [h0] at hlen2
      cases hlen2
    obtain ⟨hn, hlane, _, hcd⟩ := fanout_stuck xs s hI hne hst
    have h0 : (s.lanes.map laneContent).sum = 0 := by
      have : ∀ (ls : List Lane), (∀ l ∈ ls, laneContent l = 0) →
          (ls.map laneContent).sum = 0 := by
        intro ls
        induction ls with
        | nil => intro _; rfl
        | cons y ys ih =>
          intro hl
          simp only [List.map_cons, List.sum_cons]
          rw [hl y (List.mem_cons_self _ _),
            ih (fun x hx => hl x (List.mem_cons_of_mem _ hx)), add_zero]
      apply this
      intro l hl
      simp [laneContent, (hlane l hl).1, (hlane l hl).2, Pipeline.inFlight, Merge.holding]
    refine ⟨?_, ?_, hcd⟩
    · have := hI.distribute
      rw [hn] at this
      simpa using this
    · have := hI.conserve
      rw [h0, hn, hmap] at this
      simpa [Pipeline.squares] using this.symm
  refine ⟨hI.distribute, hlen2, ?_, hstuck, ?_, ?_, ?_⟩
  · rw [← hmap, hI.conserve, add_assoc]
    exact Multiset.le_add_right _ _
  · intro hxs hst
    rw [(hstuck hst).2.1, hxs]
    decide
  · have := runSched_length step measure fanout_step_measure sched _ _ h
    rw [mainInit, fanout_measure_init] at this
    omega
  · exact exists_run_to_stuck step measure fanout_step_measure _ s (Nat.le_refl _)

theorem fan_out_fan_in_multiset_witness :
    runSched step (mainInit mainNums) demoSched = some demoFinal
    ∧ Stuck step demoFinal
    ∧ demoFinal.out.delivered.map Prod.snd = [4, 1, 9, 16, 25, 36, 49, 64]
    ∧ (↑(demoFinal.out.delivered.map Prod.snd) : Multiset Int)
        = {1, 4, 9, 16, 25, 36, 49, 64} := by
  have hst : Stuck step demoFinal := by
    intro a
    cases a with
    | prodClose => rfl
    | closerWake => rfl
    | closerClose => rfl
    | consumerEnd => rfl
    | lane k op =>
      match k with
      | 0 => cases op <;> rfl
      | 1 => cases op <;> rfl
      | _ + 2 => rfl
  exact ⟨by decide, hst, by decide,
    (fan_out_fan_in_multiset mainNums demoSched demoFinal (by decide)).2.2.2.2.1 rfl hst⟩

end FanOut

namespace Chan

theorem sendAll_some {α : Type} (items : List α) :
    ∀ (c c1 : Chan α), c.sendAll items = some c1 →
      c1 = { buf := c.buf ++ items, cap := c.cap, closed := c.closed }
        ∧ (items ≠ [] → c.closed = false ∧ c.buf.length + items.length ≤ c.cap) := by
  induction items with
  | nil =>
    intro c c1 h
    simp only [sendAll, Option.some.injEq] at h
    subst h
    simp
  | cons v vs ih =>
    intro c c1 h
    simp only [sendAll] at h
    split at h
    · rename_i c' hsend
      obtain ⟨hcl, hlen, hc'⟩ := chan_send_sent _ _ _ hsend
      obtain ⟨h1, h2⟩ := ih c' c1 h
      subst hc'
      refine ⟨by simpa using h1, fun _ => ⟨hcl, ?_⟩⟩
      cases vs with
      | nil =>
        simp only [List.length_singleton]
        omega
      | cons w ws =>
        have := (h2 (by simp)).2
        simp only [List.length_append, List.length_singleton, List.length_cons] at this ⊢
        omega
    · simp at h

theorem rangeLoop_closed {α : Type} (b : List α) :
    ∀ (c : Chan α) (fuel : Nat) (acc : List α), c.buf = b → c.closed = true →
      b.length < fuel →
      rangeLoop fuel c acc = some (acc ++ b, { buf := [], cap := c.cap, closed := true }) := by
  induction b with
  | nil =>
    intro c fuel acc hb hc hf
    cases fuel with
    | zero => simp at hf
    | succ fuel =>
      simp only [rangeLoop, recv, hb, hc, if_true, List.append_nil, Option.some.injEq,
        Prod.mk.injEq, true_and]
      cases c
      simp_all
  | cons v vs ih =>
    intro c fuel acc hb hc hf
    cases fuel with
    | zero => simp at hf
    | succ fuel =>
      simp only [rangeLoop, recv, hb]
      rw [ih { c with buf := vs } fuel (acc ++ [v]) rfl hc
        (by simp only [List.length_cons] at hf; omega)]
      simp

end Chan

namespace Channels

/-- C10: when a list of items has been sent into a buffered channel made with
`make(chan T, cap)` and the channel has then been closed, the loop
`for elem := range ch`, given fuel for one receive more than there are items,
ends and has received exactly the items in the order they were sent; the channel
is then empty and closed, a further receive gets no item, and a further `range`
over it receives nothing. -/
theorem range_closed_buffered_fifo {α : Type} (cap : Nat) (items : List α)
    (c1 c2 : Chan α) (hs : (Chan.make α cap).sendAll items = some c1)
    (hc : c1.close = some c2) (fuel : Nat) (hf : items.length < fuel) :
    Chan.rangeLoop fuel c2 [] = some (items, { buf := [], cap := cap, closed := true })
    ∧ c2.buf = items
    ∧ ({ buf := [], cap := cap, closed := true } : Chan α).recv = .drained
    ∧ Chan.rangeLoop fuel ({ buf := [], cap := cap, closed := true } : Chan α) []
        = some ([], { buf := [], cap := cap, closed := true }) := by
  obtain ⟨h1, _⟩ := Chan.sendAll_some items _ _ hs
  obtain ⟨_, h2⟩ := chan_close_some _ _ hc
  subst h1
  subst h2
  refine ⟨?_, by simp [Chan.make], by simp [Chan.recv], ?_⟩
  · have := Chan.rangeLoop_closed items
      { buf := items, cap := cap, closed := true } fuel [] rfl rfl hf
    simpa [Chan.make] using this
  · exact Chan.rangeLoop_closed [] { buf := [], cap := cap, closed := true } fuel [] rfl rfl
      (by simp only [List.length_nil]; omega)

theorem range_closed_buffered_fifo_witness :
    (Chan.make String 2).sendAll ["one", "two"]
        = some { buf := ["one", "two"], cap := 2, closed := false }
    ∧ ({ buf := ["one", "two"], cap := 2, closed := false } : Chan String).close
        = some { buf := ["one", "two"], cap := 2, closed := true }
    ∧ rangeDemo 3 = some (["one", "two"], { buf := [], cap := 2, closed := true })
    ∧ Chan.rangeLoop 3 ({ buf := ["one", "two"], cap := 2, closed := true } : Chan String) []
        = some (["one", "two"], { buf := [], cap := 2, closed := true }) :=
  ⟨rfl, rfl, rfl,
   (range_closed_buffered_fifo 2 ["one", "two"]
      { buf := ["one", "two"], cap := 2, closed := false }
      { buf := ["one", "two"], cap := 2, closed := true } rfl rfl 3 (by decide)).1⟩

end Channels

namespace AdvancedConcurrency

/-- With 22 jobs and one worker the pool of `main` (queues of capacity 10) can
reach a state in which `main` waits at a send, the worker waits at its send and
the job queue is never closed: only 10 results were published. -/
theorem pool_can_block_before_close :
    runSched (Pool.step worker) (poolInit ((List.range 22).map (fun i => mkJob (i + 1))) 1)
        blockSched = some blockState
    ∧ Stuck (Pool.step worker) blockState
    ∧ blockState.jobs.closed = false
    ∧ blockState.published.length = 10 := by
  refine ⟨by decide, ?_, rfl, rfl⟩
  intro a
  cases a with
  | mainSend => rfl
  | mainClose => rfl
  | mainCollect => rfl
  | take w =>
    match w with
    | 0 => rfl
    | _ + 1 => rfl
  | publish w =>
    match w with
    | 0 => rfl
    | _ + 1 => rfl

end AdvancedConcurrency

namespace RateLimit

theorem interval_eq : interval = 200000000 := by decide

theorem serveAll_closed (delay : Int → Nat) (reqs : List Int) :
    ∀ (fuel : Nat) (c : Chan Int) (s : LoopState), c.buf = reqs → c.closed = true →
      reqs.length < fuel → serveAll delay fuel c s = some (reqs.foldl (serve delay) s) := by
  induction reqs with
  | nil =>
    intro fuel c s hb hc hf
    cases fuel with
    | zero => simp at hf
    | succ fuel => simp [serveAll, Chan.recv, hb, hc]
  | cons r rs ih =>
    intro fuel c s hb hc hf
    cases fuel with
    | zero => simp at hf
    | succ fuel =>
      simp only [serveAll, Chan.recv, hb, List.foldl_cons]
      exact ih fuel { c with buf := rs } (serve delay s r) rfl hc
        (by simp only [List.length_cons] at hf; omega)

theorem rateLimiter_eq (gap : Nat) (delay : Int → Nat) :
    rateLimiter gap delay
      = some ([1, 2, 3, 4, 5].foldl (serve delay)
          { now := gap, limiter := Ticker.new 0 interval, ticker := Ticker.new gap interval,
            granted := [] }).granted := by
  have hs : (Chan.make Int 5).sendAll [1, 2, 3, 4, 5]
      = some { buf := [1, 2, 3, 4, 5], cap := 5, closed := false } := by decide
  have hc : ({ buf := [1, 2, 3, 4, 5], cap := 5, closed := false } : Chan Int).close
      = some { buf := [1, 2, 3, 4, 5], cap := 5, closed := true } := by decide
  simp only [rateLimiter, hs, hc]
  rw [serveAll_closed delay [1, 2, 3, 4, 5] 6 _ _ rfl rfl (by decide)]

theorem grantedBy_le_length (log : List (Int × Nat)) (d : Nat) :
    grantedBy log d ≤ log.length :=
  List.length_filter_le _ _

theorem grantedBy_append_single (log : List (Int × Nat)) (r : Int) (t d : Nat) :
    grantedBy (log ++ [(r, t)]) d = grantedBy log d + (if t ≤ d then 1 else 0) := by
  unfold grantedBy
  by_cases h : t ≤ d <;> simp [List.filter_append, List.filter_cons, h]

/-- Whatever the delays, the `k`-th receive from `limiter` returns no earlier
than its `k`-th tick, so no more requests are granted than ticks have happened. -/
theorem serve_upper (delay : Int → Nat) (reqs : List Int) :
    ∀ (s : LoopState) (k : Nat), s.limiter.created = 0 → s.limiter.period = interval →
      k * interval ≤ s.limiter.emptySince → s.granted.length ≤ k →
      (∀ d, grantedBy s.granted d ≤ d / interval) →
      (∀ d, grantedBy (reqs.foldl (serve delay) s).granted d ≤ d / interval)
        ∧ (reqs.foldl (serve delay) s).granted.length = s.granted.length + reqs.length := by
  induction reqs with
  | nil =>
    intro s k _ _ _ _ h
    exact ⟨h, rfl⟩
  | cons r rs ih =>
    intro s k hc hp he hl hg
    simp only [List.foldl_cons]
    have hnext : (k + 1) * interval ≤ s.limiter.nextTick := by
      simp only [Ticker.nextTick, hc, hp, Nat.sub_zero, Nat.zero_add]
      simp only [interval_eq] at he ⊢
      omega
    obtain ⟨h1, h2⟩ := ih (serve delay s r) (k + 1) (by simpa [serve, Ticker.recv] using hc)
      (by simpa [serve, Ticker.recv] using hp)
      (by
        simp only [serve, Ticker.recv]
        exact Nat.le_trans hnext (Nat.le_max_right _ _))
      (by simp only [serve, List.length_append, List.length_singleton]; omega)
      (by
        intro d
        simp only [serve, Ticker.recv, grantedBy_append_single]
        have hgl := grantedBy_le_length s.granted d
        have hgd := hg d
        split
        · rename_i ht
          have h1 : s.limiter.nextTick ≤ max s.now s.limiter.nextTick := Nat.le_max_right _ _
          have h2 : max s.now s.limiter.nextTick
              ≤ max (max s.now s.limiter.nextTick) s.ticker.nextTick := Nat.le_max_left _ _
          have hd : (k + 1) * interval ≤ d := by omega
          simp only [interval_eq] at hd ⊢
          omega
        · omega)
    refine ⟨h1, ?_⟩
    have hsl : (serve delay s r).granted.length = s.granted.length + 1 := by
      simp [serve]
    rw [h2, hsl, List.length_cons]
    omega

/-- When the `Println` of every request and the making of `ticker` together take
at most one interval, request number `k + 1` is granted at the tick `k + 1` of
`ticker`. -/
theorem serve_prompt (gap : Nat) (delay : Int → Nat) (hd : ∀ r, gap + delay r ≤ interval)
    (s : LoopState) (k : Nat) (req : Int)
    (hl : s.limiter = { created := 0, period := interval, emptySince := k * interval })
    (ht : s.ticker = { created := gap, period := interval,
                       emptySince := gap + k * interval })
    (hn : s.now ≤ (k + 1) * interval) :
    serve delay s req
      = { now := gap + (k + 1) * interval + delay req,
          limiter := { created := 0, period := interval, emptySince := (k + 1) * interval },
          ticker := { created := gap, period := interval,
                      emptySince := gap + (k + 1) * interval },
          granted := s.granted ++ [(req, gap + (k + 1) * interval)] } := by
  have hg := hd req
  have e1 : (k * interval) / interval = k := Nat.mul_div_cancel _ (by decide)
  have hn1 : s.limiter.nextTick = (k + 1) * interval := by
    simp [Ticker.nextTick, hl, e1]
  have hn2 : s.ticker.nextTick = gap + (k + 1) * interval := by
    simp [Ticker.nextTick, ht, e1]
  have m1 : max s.now ((k + 1) * interval) = (k + 1) * interval := Nat.max_eq_right hn
  have m2 : max ((k + 1) * interval) (gap + (k + 1) * interval)
      = gap + (k + 1) * interval := Nat.max_eq_right (Nat.le_add_left _ _)
  simp only [serve, Ticker.recv, hn1, hn2, m1, m2]
  simp [hl, ht]

end RateLimit
namespace RateLimit

theorem serve_prompt_all (gap : Nat) (delay : Int → Nat)
    (hd : ∀ r, gap + delay r ≤ interval) (reqs : List Int) :
    ∀ (s : LoopState) (k : Nat),
      s.limiter = { created := 0, period := interval, emptySince := k * interval } →
      s.ticker = { created := gap, period := interval, emptySince := gap + k * interval } →
      s.now ≤ (k + 1) * interval →
      (reqs.foldl (serve delay) s).granted
        = s.granted ++ (reqs.enumFrom k).map (fun p => (p.2, gap + (p.1 + 1) * interval)) := by
  induction reqs with
  | nil =>
    intro s k _ _ _
    simp
  | cons r rs ih =>
    intro s k hl ht hn
    have hs := serve_prompt gap delay hd s k r hl ht hn
    have hdr := hd r
    simp only [List.foldl_cons]
    rw [ih (serve delay s r) (k + 1) (by rw [hs]) (by rw [hs])
      (by
        rw [hs]
        simp only [interval_eq] at hdr ⊢
        omega)]
    rw [hs]
    simp [List.enumFrom]

/-- C11: in `rateLimiter()`, whatever time the `Println` of each request takes
and whatever time passes between the making of `limiter` and of `ticker`, the
five requests are granted in order and the number granted within any duration
`d` from the creation of `limiter` is at most `d / interval`, hence at most
`d / interval + 1`; and when each `Println` together with that gap takes at most
one interval (so that each request is waiting for its tick when the tick
happens), request `k` is granted at `gap + k * interval` and, while requests
remain pending, the number granted within `d` is at least `d / interval - 1`. -/
theorem rate_limiter_granted_bounds (gap : Nat) (delay : Int → Nat) (d : Nat) :
    ∃ log, rateLimiter gap delay = some log
      ∧ log.map Prod.fst = [1, 2, 3, 4, 5]
      ∧ grantedBy log d ≤ d / interval
      ∧ grantedBy log d ≤ d / interval + 1
      ∧ ((∀ r, gap + delay r ≤ interval) →
          log = [(1, gap + interval), (2, gap + 2 * interval), (3, gap + 3 * interval),
                 (4, gap + 4 * interval), (5, gap + 5 * interval)]
          ∧ (grantedBy log d < 5 → ((d / interval : Nat) : Int) - 1 ≤ grantedBy log d)) := by
  have hup := (serve_upper delay [1, 2, 3, 4, 5]
    { now := gap, limiter := Ticker.new 0 interval, ticker := Ticker.new gap interval,
      granted := [] } 0 rfl rfl (by simp [Ticker.new]) (by simp)
    (by intro d; simp [grantedBy])).1 d
  refine ⟨_, rateLimiter_eq gap delay, ?_, hup, by omega, ?_⟩
  · simp [serve]
  · intro hd
    have hg : gap ≤ interval := Nat.le_trans (Nat.le_add_right _ _) (hd 0)
    have hlog := serve_prompt_all gap delay hd [1, 2, 3, 4, 5]
      { now := gap, limiter := Ticker.new 0 interval, ticker := Ticker.new gap interval,
        granted := [] } 0 (by simp [Ticker.new]) (by simp [Ticker.new])
      (by simpa using hg)
    simp only [List.enumFrom, List.map_cons, List.map_nil, List.nil_append] at hlog
    simp only [Nat.zero_add, Nat.reduceAdd, Nat.one_mul] at hlog
    refine ⟨hlog, ?_⟩
    rw [hlog]
    simp only [interval_eq] at hg ⊢
    simp only [grantedBy, List.filter_cons, List.filter_nil]
    intro hlt
    split_ifs at hlt ⊢ <;> simp only [List.length_cons, List.length_nil] at hlt ⊢ <;>
      simp only [decide_eq_true_eq] at * <;> omega

theorem rate_limiter_granted_bounds_witness :
    rateLimiter 0 (fun _ => 0)
        = some [(1, 200000000), (2, 400000000), (3, 600000000), (4, 800000000),
                (5, 1000000000)]
    ∧ grantedBy [(1, 200000000), (2, 400000000), (3, 600000000), (4, 800000000),
                 (5, 1000000000)] 500000000 = 2
    ∧ (∀ r : Int, 0 + (fun _ => 0) r ≤ interval)
    ∧ (∃ log, rateLimiter 0 (fun _ => 0) = some log
        ∧ grantedBy log 500000000 ≤ 500000000 / interval + 1
        ∧ (grantedBy log 500000000 < 5 →
            ((500000000 / interval : Nat) : Int) - 1 ≤ grantedBy log 500000000)) := by
  have hd : ∀ r : Int, 0 + (fun _ => 0) r ≤ interval := by
    intro r
    simp
  refine ⟨by decide, by decide, hd, ?_⟩
  obtain ⟨log, h1, _, _, h4, h5⟩ := rate_limiter_granted_bounds 0 (fun _ => 0) 500000000
  exact ⟨log, h1, h4, (h5 hd).2⟩

/-- When the `Println` of the first request takes one second, the ticks that
happen meanwhile are dropped but for one: within 1199 ms only one of the five
requests is granted, four are pending, and five intervals have gone by, so the
number granted is below `d / interval - 1`. -/
theorem rate_limiter_drops_ticks :
    ∃ log, rateLimiter 0 (fun r => if r = 1 then 1000 * millisecond else 0) = some log
      ∧ log = [(1, 200000000), (2, 1200000000), (3, 1400000000), (4, 1600000000),
               (5, 1800000000)]
      ∧ grantedBy log (1199 * millisecond) = 1
      ∧ grantedBy log (1199 * millisecond) < 5
      ∧ (1199 * millisecond) / interval = 5
      ∧ ¬ ((((1199 * millisecond) / interval : Nat) : Int) - 1
            ≤ grantedBy log (1199 * millisecond)) :=
  ⟨_, by decide, rfl, by decide, by decide, by decide, by decide⟩

end RateLimit

namespace Context

theorem doWork_active (observe : Nat → CtxState) :
    ∀ (n iter : Nat), (∀ j, j < n → observe (iter + j) = .active) →
      doWork observe n iter = (List.replicate n .working, false) := by
  intro n
  induction n with
  | zero => intro iter _; rfl
  | succ n ih =>
    intro iter h
    have h0 : observe iter = .active := by simpa using h 0 (Nat.succ_pos n)
    have hrest := ih (iter + 1) (fun j hj => by
      have := h (j + 1) (Nat.succ_lt_succ hj)
      simpa [Nat.add_assoc, Nat.add_comm 1 j] using this)
    simp only [doWork, h0, hrest, List.replicate_succ]

theorem doWork_done (observe : Nat → CtxState) (r : Reason) :
    ∀ (n iter extra : Nat), (∀ j, j < n → observe (iter + j) = .active) →
      observe (iter + n) = .done r →
      doWork observe (n + 1 + extra) iter
        = (List.replicate n .working ++ [.cancelled r], true) := by
  intro n
  induction n with
  | zero =>
    intro iter extra _ hd
    have : observe iter = .done r := by simpa using hd
    simp [doWork, Nat.add_comm 1 extra, this]
  | succ n ih =>
    intro iter extra h hd
    have h0 : observe iter = .active := by simpa using h 0 (Nat.succ_pos n)
    have hrest := ih (iter + 1) extra (fun j hj => by
      have := h (j + 1) (Nat.succ_lt_succ hj)
      simpa [Nat.add_assoc, Nat.add_comm 1 j] using this)
      (by simpa [Nat.add_assoc, Nat.add_comm 1 n] using hd)
    have e : n + 1 + 1 + extra = (n + 1 + extra) + 1 := by omega
    rw [e]
    simp only [doWork, h0, hrest, List.replicate_succ, List.cons_append]

/-- C12: `doWork` looks at the state of the context at the start of every
iteration: finding it Active it does one work step and goes on with the next
iteration, finding it Done it prints the reason and returns without a work step.
Hence, when the context is Active in the first `n` iterations, `doWork` has done
exactly `n` work steps and has not returned after them, and when it is Done with
reason `r` in the next one, `doWork` returns there: all it ever does is `n` work
steps followed by the report of `r`, with no work step after it, whatever fuel
is left. -/
theorem doWork_polls_done_each_iteration (observe : Nat → CtxState) (n : Nat)
    (r : Reason) (hactive : ∀ j, j < n → observe j = .active)
    (hdone : observe n = .done r) :
    (∀ fuel iter, observe iter = .active →
        doWork observe (fuel + 1) iter
          = (.working :: (doWork observe fuel (iter + 1)).1,
             (doWork observe fuel (iter + 1)).2))
    ∧ (∀ fuel iter r', observe iter = .done r' →
        doWork observe (fuel + 1) iter = ([.cancelled r'], true))
    ∧ (∀ m, m ≤ n → doWork observe m 0 = (List.replicate m .working, false))
    ∧ (∀ extra, doWork observe (n + 1 + extra) 0
        = (List.replicate n .working ++ [.cancelled r], true)) := by
  refine ⟨?_, ?_, ?_, ?_⟩
  · intro fuel iter h
    simp only [doWork, h]
  · intro fuel iter r' h
    simp only [doWork, h]
  · intro m hm
    exact doWork_active observe m 0 (fun j hj => by
      rw [Nat.zero_add]
      exact hactive j (Nat.lt_of_lt_of_le hj hm))
  · intro extra
    exact doWork_done observe r n 0 extra (fun j hj => by
      rw [Nat.zero_add]
      exact hactive j hj) (by rw [Nat.zero_add]; exact hdone)

theorem doWork_polls_done_each_iteration_witness :
    (∀ j, j < 4 → observeWorker1 j = .active)
    ∧ observeWorker1 4 = .done .cancelled
    ∧ doWork observeWorker1 4 0 = ([.working, .working, .working, .working], false)
    ∧ doWork observeWorker1 10 0
        = ([.working, .working, .working, .working, .cancelled .cancelled], true) := by
  have hact : ∀ j, j < 4 → observeWorker1 j = .active := by
    intro j hj
    simp [observeWorker1, hj]
  have h := doWork_polls_done_each_iteration observeWorker1 4 .cancelled hact rfl
  exact ⟨hact, rfl, h.2.2.1 4 (Nat.le_refl _), h.2.2.2 5⟩

end Context

namespace Context

theorem getNode_lt (ns : List Node) (id : Nat) (n : Node) (h : getNode ns id = some n) :
    id < ns.length := by
  induction ns with
  | nil => simp [getNode] at h
  | cons m older ih =>
    simp only [getNode] at h
    split at h
    · simp only [List.length_cons]
      omega
    · have := ih h
      simp only [List.length_cons]
      omega

theorem settle_length (now : Nat) (ns : List Node) : (settle now ns).length = ns.length := by
  induction ns with
  | nil => rfl
  | cons n older ih => simp [settle, ih]

theorem markCancelled_length (id : Nat) (ns : List Node) :
    (markCancelled id ns).length = ns.length := by
  induction ns with
  | nil => rfl
  | cons n older ih =>
    simp only [markCancelled]
    split <;> simp [ih]

theorem settleNode_done (now : Nat) (older : List Node) (n : Node) (r : Reason)
    (h : n.state = .done r) : settleNode now older n = n := by
  simp [settleNode, h]

theorem settleNode_fields (now : Nat) (older : List Node) (n : Node) :
    (settleNode now older n).parent = n.parent
      ∧ (settleNode now older n).deadline = n.deadline
      ∧ (settleNode now older n).canCancel = n.canCancel
      ∧ (settleNode now older n).cancelCalled = n.cancelCalled
      ∧ (settleNode now older n).binding = n.binding := by
  unfold settleNode
  split
  · simp
  · split
    · simp
    · split
      · split <;> simp
      · simp

/-- A node that is Done is left as it is by the transitions. -/
theorem getNode_settle_done (now : Nat) (ns : List Node) (id : Nat) (n : Node) (r : Reason)
    (h : getNode ns id = some n) (hd : n.state = .done r) :
    getNode (settle now ns) id = some n := by
  induction ns with
  | nil => simp [getNode] at h
  | cons m older ih =>
    simp only [getNode] at h
    simp only [settle, getNode, settle_length]
    split at h
    · simp only [Option.some.injEq] at h
      subst h
      rename_i hid
      simp [hid, settleNode_done now _ _ r hd]
    · rename_i hid
      simp only [hid, if_false]
      exact ih h

/-- The transitions keep every node in place and change at most its state and
its timer. -/
theorem getNode_settle (now : Nat) (ns : List Node) (id : Nat) (n : Node)
    (h : getNode ns id = some n) :
    ∃ n', getNode (settle now ns) id = some n' ∧ n'.parent = n.parent
      ∧ n'.deadline = n.deadline ∧ n'.canCancel = n.canCancel
      ∧ n'.cancelCalled = n.cancelCalled ∧ n'.binding = n.binding
      ∧ (∀ r, n.state = .done r → n' = n) := by
  induction ns with
  | nil => simp [getNode] at h
  | cons m older ih =>
    simp only [getNode] at h
    simp only [settle, getNode, settle_length]
    split at h
    · simp only [Option.some.injEq] at h
      subst h
      rename_i hid
      obtain ⟨f1, f2, f3, f4, f5⟩ := settleNode_fields now (settle now older) m
      exact ⟨_, by simp [hid], f1, f2, f3, f4, f5,
        fun r hr => settleNode_done now _ _ r hr⟩
    · rename_i hid
      simp only [hid, if_false]
      exact ih h

theorem getNode_markCancelled (id' : Nat) (ns : List Node) (id : Nat) (n : Node)
    (h : getNode ns id = some n) :
    ∃ n', getNode (markCancelled id' ns) id = some n' ∧ n'.parent = n.parent
      ∧ n'.deadline = n.deadline ∧ n'.canCancel = n.canCancel ∧ n'.binding = n.binding
      ∧ (∀ r, n.state = .done r → n' = n) := by
  induction ns with
  | nil => simp [getNode] at h
  | cons m older ih =>
    simp only [getNode] at h
    simp only [markCancelled]
    split
    · rename_i hid'
      simp only [getNode]
      split at h
      · simp only [Option.some.injEq] at h
        subst h
        rename_i hid
        simp only [hid, if_true]
        split
        · rename_i hc hs
          exact ⟨_, rfl, rfl, rfl, rfl, rfl, fun r hr => by rw [hs] at hr; cases hr⟩
        · exact ⟨_, rfl, rfl, rfl, rfl, rfl, fun _ _ => rfl⟩
      · rename_i hid
        simp only [hid, if_false]
        exact ⟨n, h, rfl, rfl, rfl, rfl, fun _ _ => rfl⟩
    · rename_i hid'
      simp only [getNode, markCancelled_length]
      split at h
      · simp only [Option.some.injEq] at h
        subst h
        rename_i hid
        simp only [hid, if_true]
        exact ⟨_, rfl, rfl, rfl, rfl, rfl, fun _ _ => rfl⟩
      · rename_i hid
        simp only [hid, if_false]
        exact ih h

end Context
namespace Context

theorem getNode_cons_of_some (n' : Node) (ns : List Node) (id : Nat) (n : Node)
    (h : getNode ns id = some n) : getNode (n' :: ns) id = some n := by
  have hlt := getNode_lt ns id n h
  simp only [getNode]
  rw [if_neg (by omega)]
  exact h

/-- A Done node is left as it is by every operation. -/
theorem applyOp_done_node (t : Tree) (op : Op) (id : Nat) (n : Node) (r : Reason)
    (h : getNode t.nodes id = some n) (hd : n.state = .done r) :
    getNode (applyOp t op).nodes id = some n := by
  cases op with
  | deriveCancel p => exact getNode_cons_of_some _ _ _ _ h
  | deriveTimeout p d => exact getNode_cons_of_some _ _ _ _ h
  | deriveDeadline p i => exact getNode_cons_of_some _ _ _ _ h
  | deriveValue p k v => exact getNode_cons_of_some _ _ _ _ h
  | cancel id' =>
    obtain ⟨n', h1, _, _, _, _, h2⟩ := getNode_markCancelled id' t.nodes id n h
    rw [h2 r hd] at h1
    exact getNode_settle_done _ _ _ _ r h1 hd
  | advance dt => exact getNode_settle_done _ _ _ _ r h hd

theorem stateOf_done_iff (t : Tree) (id : Nat) (r : Reason) :
    stateOf t id = .done r ↔ ∃ n, getNode t.nodes id = some n ∧ n.state = .done r := by
  unfold stateOf
  cases h : getNode t.nodes id with
  | none => simp
  | some n => simp

theorem settleNode_idem (now : Nat) (older : List Node) (n : Node) :
    settleNode now older (settleNode now older n) = settleNode now older n := by
  cases hs : n.state with
  | done r => rw [settleNode_done now older n r hs, settleNode_done now older n r hs]
  | active =>
    unfold settleNode
    simp only [hs]
    cases hp : parentState older n with
    | none =>
      simp only [parentState] at hp
      cases hdl : n.deadline with
      | none => simp [hs, hdl, parentState, hp]
      | some dl =>
        by_cases hle : dl ≤ now
        · simp [hle]
        · simp [hle, hs, hdl, parentState, hp]
    | some ps =>
      cases ps with
      | done r => simp
      | active =>
        simp only [parentState] at hp
        cases hdl : n.deadline with
        | none => simp [hs, hdl, parentState, hp]
        | some dl =>
          by_cases hle : dl ≤ now
          · simp [hle]
          · simp [hle, hs, hdl, parentState, hp]

theorem settle_idem (now : Nat) (ns : List Node) :
    settle now (settle now ns) = settle now ns := by
  induction ns with
  | nil => rfl
  | cons n older ih =>
    simp only [settle, ih, settleNode_idem]

theorem settled_background : Settled background := by
  simp [Settled, background, settle, settleNode, parentState]

theorem settled_applyOp (t : Tree) (op : Op) (h : Settled t) : Settled (applyOp t op) := by
  have hder : ∀ n, Settled (derive t n).1 := by
    intro n
    unfold Settled at h ⊢
    simp only [derive, settle, h, settleNode_idem]
  cases op with
  | deriveCancel p => exact hder _
  | deriveTimeout p d => exact hder _
  | deriveDeadline p i => exact hder _
  | deriveValue p k v => exact hder _
  | cancel id' => exact settle_idem _ _
  | advance dt => exact settle_idem _ _

theorem settled_runOps (ops : List Op) : ∀ (t : Tree), Settled t → Settled (runOps t ops) := by
  induction ops with
  | nil => intro t h; exact h
  | cons op ops ih =>
    intro t h
    exact ih _ (settled_applyOp t op h)

theorem markCancelled_done (id : Nat) (ns : List Node) (n : Node) (r : Reason)
    (h : getNode ns id = some n) (hd : n.state = .done r) : markCancelled id ns = ns := by
  induction ns with
  | nil => rfl
  | cons m older ih =>
    simp only [getNode] at h
    simp only [markCancelled]
    split at h
    · simp only [Option.some.injEq] at h
      subst h
      rename_i hid
      simp only [hid, if_true]
      split
      · rename_i hc hs
        rw [hs] at hd
        cases hd
      · rfl
    · rename_i hid
      simp only [hid, if_false]
      rw [ih h]

/-- With no transition pending, `cancel` on a Done context changes nothing. -/
theorem cancel_done_noop (t : Tree) (id : Nat) (r : Reason) (hs : Settled t)
    (h : stateOf t id = .done r) : cancel t id = t := by
  obtain ⟨n, hn, hd⟩ := (stateOf_done_iff t id r).mp h
  unfold cancel
  rw [markCancelled_done id t.nodes n r hn hd, hs]

end Context
namespace Context

theorem runOps_done (ops : List Op) :
    ∀ (t : Tree) (id : Nat) (r : Reason), stateOf t id = .done r →
      stateOf (runOps t ops) id = .done r := by
  induction ops with
  | nil => intro t id r h; exact h
  | cons op ops ih =>
    intro t id r h
    apply ih
    obtain ⟨n, hn, hd⟩ := (stateOf_done_iff t id r).mp h
    exact (stateOf_done_iff _ id r).mpr ⟨n, applyOp_done_node t op id n r hn hd, hd⟩

theorem getNode_markCancelled_self (id : Nat) (ns : List Node) (n : Node)
    (h : getNode ns id = some n) (hc : n.canCancel = true) :
    ∃ n' r, getNode (markCancelled id ns) id = some n' ∧ n'.state = .done r := by
  induction ns with
  | nil => simp [getNode] at h
  | cons m older ih =>
    simp only [getNode] at h
    simp only [markCancelled]
    split at h
    · simp only [Option.some.injEq] at h
      subst h
      rename_i hid
      simp only [hid, if_true, getNode]
      cases hs : m.state with
      | active =>
        refine ⟨{ m with state := .done .cancelled, timer := false, cancelCalled := true },
          .cancelled, ?_, rfl⟩
        simp [hc]
      | done r =>
        refine ⟨m, r, ?_, hs⟩
        simp [hc]
    · rename_i hid
      simp only [hid, if_false, getNode, markCancelled_length]
      exact ih h

/-- After `cancel` a context that was derived with a cancel operation is Done. -/
theorem cancel_makes_done (t : Tree) (id : Nat) (n : Node)
    (h : getNode t.nodes id = some n) (hc : n.canCancel = true) :
    ∃ r, stateOf (cancel t id) id = .done r := by
  obtain ⟨n', r, h1, h2⟩ := getNode_markCancelled_self id t.nodes n h hc
  exact ⟨r, (stateOf_done_iff _ id r).mpr
    ⟨n', getNode_settle_done _ _ _ _ r h1 h2, h2⟩⟩

/-- C13: in the context tree reached by any sequence of operations from the
background context, a context that is Done with reason `r` is Done with reason
`r` after any further operation and after any further sequence of operations;
`cancel` on it leaves the whole tree as it is; its reason is `r`, while the
reason of every Active context is `None`; and for every context derived with a
cancel operation a second `cancel` changes nothing.  All operations are total
functions: none of them faults. -/
theorem context_done_is_final (ops : List Op) (id : Nat) (r : Reason)
    (h : stateOf (runOps background ops) id = .done r) :
    (∀ op, stateOf (applyOp (runOps background ops) op) id = .done r)
    ∧ (∀ more, stateOf (runOps (runOps background ops) more) id = .done r
        ∧ reason (runOps (runOps background ops) more) id = some r)
    ∧ cancel (runOps background ops) id = runOps background ops
    ∧ reason (runOps background ops) id = some r
    ∧ (∀ id', stateOf (runOps background ops) id' = .active →
        reason (runOps background ops) id' = none)
    ∧ (∀ id' n, getNode (runOps background ops).nodes id' = some n → n.canCancel = true →
        cancel (cancel (runOps background ops) id') id' = cancel (runOps background ops) id') := by
  have hs : Settled (runOps background ops) := settled_runOps ops _ settled_background
  refine ⟨?_, ?_, cancel_done_noop _ id r hs h, by simp [reason, h], ?_, ?_⟩
  · intro op
    exact runOps_done [op] _ id r h
  · intro more
    have := runOps_done more _ id r h
    exact ⟨this, by simp [reason, this]⟩
  · intro id' ha
    simp [reason, ha]
  · intro id' n hn hc
    obtain ⟨r', hr'⟩ := cancel_makes_done _ id' n hn hc
    exact cancel_done_noop _ id' r' (settled_applyOp _ (.cancel id') hs) hr'

theorem context_done_is_final_witness :
    stateOf (runOps background mainOps) 2 = .done .deadlineExceeded
    ∧ stateOf (runOps background mainOps) 1 = .done .cancelled
    ∧ stateOf (runOps background mainOps) 3 = .done .deadlineExceeded
    ∧ stateOf (runOps background mainOps) 5 = .done .deadlineExceeded
    ∧ cancel (runOps background mainOps) 2 = runOps background mainOps
    ∧ runOps (runOps background mainOps) mainDeferred = runOps background mainOps
    ∧ reason (runOps (runOps background mainOps) mainDeferred) 2 = some .deadlineExceeded := by
  have h := context_done_is_final mainOps 2 .deadlineExceeded (by decide)
  exact ⟨by decide, by decide, by decide, by decide, h.2.2.1, by decide,
    (h.2.1 mainDeferred).2⟩

end Context
namespace Context

theorem parentState_congr (older : List Node) (n n' : Node) (h : n'.parent = n.parent) :
    parentState older n' = parentState older n := by
  simp [parentState, h]

theorem parentState_settle_done (now : Nat) (older : List Node) (n : Node) (r : Reason)
    (h : parentState older n = some (.done r)) :
    parentState (settle now older) n = some (.done r) := by
  unfold parentState at h ⊢
  cases hp : n.parent with
  | none => simp [hp] at h
  | some p =>
    simp only [hp, Option.map_eq_some'] at h ⊢
    obtain ⟨m, hm, hs⟩ := h
    exact ⟨m, getNode_settle_done now older p m r hm hs, hs⟩

theorem parentState_mark_done (id : Nat) (older : List Node) (n : Node) (r : Reason)
    (h : parentState older n = some (.done r)) :
    parentState (markCancelled id older) n = some (.done r) := by
  unfold parentState at h ⊢
  cases hp : n.parent with
  | none => simp [hp] at h
  | some p =>
    simp only [hp, Option.map_eq_some'] at h ⊢
    obtain ⟨m, hm, hs⟩ := h
    obtain ⟨m', h1, _, _, _, _, h2⟩ := getNode_markCancelled id older p m hm
    rw [h2 r hs] at h1
    exact ⟨m, h1, hs⟩

theorem justified_settleNode (now now' : Nat) (older older' : List Node) (n : Node)
    (hle : now ≤ now')
    (hpar : ∀ r, parentState older n = some (.done r) →
      parentState older' n = some (.done r))
    (h1 : ∀ r, n.state = .done r → n.timer = false)
    (h2 : n.state = .done .deadlineExceeded →
        (∃ dl, n.deadline = some dl ∧ dl ≤ now)
          ∨ parentState older n = some (.done .deadlineExceeded))
    (h3 : n.state = .done .cancelled →
        (n.cancelCalled = true ∧ n.canCancel = true)
          ∨ parentState older n = some (.done .cancelled)) :
    (∀ r, (settleNode now' older' n).state = .done r →
        (settleNode now' older' n).timer = false)
    ∧ ((settleNode now' older' n).state = .done .deadlineExceeded →
        (∃ dl, (settleNode now' older' n).deadline = some dl ∧ dl ≤ now')
          ∨ parentState older' (settleNode now' older' n) = some (.done .deadlineExceeded))
    ∧ ((settleNode now' older' n).state = .done .cancelled →
        ((settleNode now' older' n).cancelCalled = true
            ∧ (settleNode now' older' n).canCancel = true)
          ∨ parentState older' (settleNode now' older' n) = some (.done .cancelled)) := by
  cases hs : n.state with
  | done r =>
    rw [settleNode_done now' older' n r hs]
    refine ⟨h1, ?_, ?_⟩
    · intro hd
      rcases h2 hd with ⟨dl, hdl, hle'⟩ | hp
      · exact Or.inl ⟨dl, hdl, Nat.le_trans hle' hle⟩
      · exact Or.inr (hpar _ hp)
    · intro hd
      rcases h3 hd with hc | hp
      · exact Or.inl hc
      · exact Or.inr (hpar _ hp)
  | active =>
    unfold settleNode
    simp only [hs]
    cases hp : parentState older' n with
    | none =>
      cases hdl : n.deadline with
      | none => simp [hs]
      | some dl =>
        by_cases hle' : dl ≤ now'
        · simp [hle', hdl]
        · simp [hle', hs]
    | some ps =>
      cases ps with
      | done r =>
        simp only
        refine ⟨by simp, ?_, ?_⟩
        · intro hd
          simp only [CtxState.done.injEq] at hd
          subst hd
          right
          exact (parentState_congr older' _ n rfl).trans hp
        · intro hd
          simp only [CtxState.done.injEq] at hd
          subst hd
          right
          exact (parentState_congr older' _ n rfl).trans hp
      | active =>
        cases hdl : n.deadline with
        | none => simp [hs]
        | some dl =>
          by_cases hle' : dl ≤ now'
          · simp [hle', hdl]
          · simp [hle', hs]

theorem justified_settle (now now' : Nat) (hle : now ≤ now') (ns : List Node)
    (h : Justified now ns) : Justified now' (settle now' ns) := by
  induction ns with
  | nil => trivial
  | cons n older ih =>
    obtain ⟨h1, h2, h3, h4⟩ := h
    obtain ⟨j1, j2, j3⟩ := justified_settleNode now now' older (settle now' older) n hle
      (fun r hp => parentState_settle_done now' older n r hp) h1 h2 h3
    exact ⟨j1, j2, j3, ih h4⟩

theorem justified_mark (now : Nat) (id : Nat) (ns : List Node) (h : Justified now ns) :
    Justified now (markCancelled id ns) := by
  induction ns with
  | nil => trivial
  | cons n older ih =>
    obtain ⟨h1, h2, h3, h4⟩ := h
    simp only [markCancelled]
    split
    · split
      · rename_i hc hs
        refine ⟨fun _ _ => rfl, ?_, ?_, h4⟩
        · intro hd
          cases hd
        · intro _
          exact Or.inl ⟨rfl, hc⟩
      · exact ⟨h1, h2, h3, h4⟩
    · refine ⟨h1, ?_, ?_, ih h4⟩
      · intro hd
        rcases h2 hd with hl | hp
        · exact Or.inl hl
        · exact Or.inr (parentState_mark_done id older n _ hp)
      · intro hd
        rcases h3 hd with hl | hp
        · exact Or.inl hl
        · exact Or.inr (parentState_mark_done id older n _ hp)

theorem justified_applyOp (t : Tree) (op : Op) (h : Justified t.now t.nodes) :
    Justified (applyOp t op).now (applyOp t op).nodes := by
  have hder : ∀ n, n.state = .active →
      Justified (derive t n).1.now (derive t n).1.nodes := by
    intro n hn
    obtain ⟨j1, j2, j3⟩ := justified_settleNode t.now t.now t.nodes t.nodes n
      (Nat.le_refl _) (fun _ hp => hp) (by simp [hn]) (by simp [hn]) (by simp [hn])
    exact ⟨j1, j2, j3, h⟩
  cases op with
  | deriveCancel p => exact hder _ rfl
  | deriveTimeout p d => exact hder _ rfl
  | deriveDeadline p i => exact hder _ rfl
  | deriveValue p k v => exact hder _ rfl
  | cancel id' => exact justified_settle t.now t.now (Nat.le_refl _) _ (justified_mark _ _ _ h)
  | advance dt => exact justified_settle t.now (t.now + dt) (Nat.le_add_right _ _) _ h

theorem justified_runOps (ops : List Op) :
    ∀ (t : Tree), Justified t.now t.nodes →
      Justified (runOps t ops).now (runOps t ops).nodes := by
  induction ops with
  | nil => intro t h; exact h
  | cons op ops ih =>
    intro t h
    exact ih _ (justified_applyOp t op h)

end Context

namespace Context

theorem getNode_markCancelled_fixed (id' : Nat) (ns : List Node) (id : Nat) (n : Node)
    (h : getNode ns id = some n) (hc : n.canCancel = false) :
    getNode (markCancelled id' ns) id = some n := by
  induction ns with
  | nil => simp [getNode] at h
  | cons m older ih =>
    simp only [getNode] at h
    simp only [markCancelled]
    split
    · rename_i hid'
      simp only [getNode]
      split at h
      · simp only [Option.some.injEq] at h
        subst h
        rename_i hid
        simp [hid, hc]
      · rename_i hid
        simp [hid, h]
    · rename_i hid'
      simp only [getNode, markCancelled_length]
      split at h
      · rename_i hid
        simp only [hid, if_true]
        exact h
      · rename_i hid
        simp only [hid, if_false]
        exact ih h

theorem getNode_settle_root (now : Nat) (ns : List Node) (id : Nat) (n : Node)
    (h : getNode ns id = some n) (hs : n.state = .active) (hp : n.parent = none)
    (hd : n.deadline = none) : getNode (settle now ns) id = some n := by
  induction ns with
  | nil => simp [getNode] at h
  | cons m older ih =>
    simp only [getNode] at h
    simp only [settle, getNode, settle_length]
    split at h
    · simp only [Option.some.injEq] at h
      subst h
      rename_i hid
      simp [hid, settleNode, hs, parentState, hp, hd]
    · rename_i hid
      simp only [hid, if_false]
      exact ih h

/-- The background context is never changed. -/
theorem root_applyOp (t : Tree) (op : Op) (h : getNode t.nodes 0 = some rootNode) :
    getNode (applyOp t op).nodes 0 = some rootNode := by
  cases op with
  | deriveCancel p => exact getNode_cons_of_some _ _ _ _ h
  | deriveTimeout p d => exact getNode_cons_of_some _ _ _ _ h
  | deriveDeadline p i => exact getNode_cons_of_some _ _ _ _ h
  | deriveValue p k v => exact getNode_cons_of_some _ _ _ _ h
  | cancel id' =>
    exact getNode_settle_root _ _ _ _ (getNode_markCancelled_fixed id' _ _ _ h rfl) rfl rfl rfl
  | advance dt => exact getNode_settle_root _ _ _ _ h rfl rfl rfl

theorem root_runOps (ops : List Op) :
    ∀ (t : Tree), getNode t.nodes 0 = some rootNode →
      getNode (runOps t ops).nodes 0 = some rootNode := by
  induction ops with
  | nil => intro t h; exact h
  | cons op ops ih =>
    intro t h
    exact ih _ (root_applyOp t op h)

theorem root_background (ops : List Op) :
    getNode (runOps background ops).nodes 0 = some rootNode :=
  root_runOps ops background rfl

/-- Parent and deadline of a context never change. -/
theorem applyOp_fields (t : Tree) (op : Op) (id : Nat) (n : Node)
    (h : getNode t.nodes id = some n) :
    ∃ n', getNode (applyOp t op).nodes id = some n' ∧ n'.parent = n.parent
      ∧ n'.deadline = n.deadline := by
  cases op with
  | deriveCancel p => exact ⟨n, getNode_cons_of_some _ _ _ _ h, rfl, rfl⟩
  | deriveTimeout p d => exact ⟨n, getNode_cons_of_some _ _ _ _ h, rfl, rfl⟩
  | deriveDeadline p i => exact ⟨n, getNode_cons_of_some _ _ _ _ h, rfl, rfl⟩
  | deriveValue p k v => exact ⟨n, getNode_cons_of_some _ _ _ _ h, rfl, rfl⟩
  | cancel id' =>
    obtain ⟨n1, h1, p1, d1, _⟩ := getNode_markCancelled id' t.nodes id n h
    obtain ⟨n2, h2, p2, d2, _⟩ := getNode_settle t.now _ id n1 h1
    exact ⟨n2, h2, p2.trans p1, d2.trans d1⟩
  | advance dt =>
    obtain ⟨n2, h2, p2, d2, _⟩ := getNode_settle (t.now + dt) _ id n h
    exact ⟨n2, h2, p2, d2⟩

theorem runOps_fields (ops : List Op) :
    ∀ (t : Tree) (id : Nat) (n : Node), getNode t.nodes id = some n →
      ∃ n', getNode (runOps t ops).nodes id = some n' ∧ n'.parent = n.parent
        ∧ n'.deadline = n.deadline := by
  induction ops with
  | nil => intro t id n h; exact ⟨n, h, rfl, rfl⟩
  | cons op ops ih =>
    intro t id n h
    obtain ⟨n1, h1, p1, d1⟩ := applyOp_fields t op id n h
    obtain ⟨n2, h2, p2, d2⟩ := ih _ id n1 h1
    exact ⟨n2, h2, p2.trans p1, d2.trans d1⟩

/-- The cause of a Done node, read in the whole tree. -/
theorem justified_node (now : Nat) (ns : List Node) (h : Justified now ns) :
    ∀ (id : Nat) (n : Node), getNode ns id = some n →
      (n.state = .done .deadlineExceeded →
        (∃ dl, n.deadline = some dl ∧ dl ≤ now)
          ∨ ∃ p m, n.parent = some p ∧ getNode ns p = some m
              ∧ m.state = .done .deadlineExceeded)
      ∧ (n.state = .done .cancelled →
        (n.cancelCalled = true ∧ n.canCancel = true)
          ∨ ∃ p m, n.parent = some p ∧ getNode ns p = some m
              ∧ m.state = .done .cancelled) := by
  induction ns with
  | nil => intro id n hn; simp [getNode] at hn
  | cons m older ih =>
    intro id n hn
    obtain ⟨_, h2, h3, h4⟩ := h
    have hpar : ∀ r, parentState older m = some (.done r) →
        ∃ p m', m.parent = some p ∧ getNode (m :: older) p = some m'
          ∧ m'.state = .done r := by
      intro r hp
      unfold parentState at hp
      cases hpp : m.parent with
      | none => simp [hpp] at hp
      | some p =>
        simp only [hpp, Option.map_eq_some'] at hp
        obtain ⟨m', hm', hs'⟩ := hp
        exact ⟨p, m', rfl, getNode_cons_of_some _ _ _ _ hm', hs'⟩
    simp only [getNode] at hn
    split at hn
    · simp only [Option.some.injEq] at hn
      subst hn
      refine ⟨fun hd => ?_, fun hd => ?_⟩
      · rcases h2 hd with hl | hp
        · exact Or.inl hl
        · exact Or.inr (hpar _ hp)
      · rcases h3 hd with hl | hp
        · exact Or.inl hl
        · exact Or.inr (hpar _ hp)
    · obtain ⟨i1, i2⟩ := ih h4 id n hn
      refine ⟨fun hd => ?_, fun hd => ?_⟩
      · rcases i1 hd with hl | ⟨p, m', hp, hg, hs⟩
        · exact Or.inl hl
        · exact Or.inr ⟨p, m', hp, getNode_cons_of_some _ _ _ _ hg, hs⟩
      · rcases i2 hd with hl | ⟨p, m', hp, hg, hs⟩
        · exact Or.inl hl
        · exact Or.inr ⟨p, m', hp, getNode_cons_of_some _ _ _ _ hg, hs⟩

theorem justified_background : Justified background.now background.nodes := by
  simp [Justified, background]

end Context
namespace Context

theorem getNode_of_lt (ns : List Node) (id : Nat) (h : id < ns.length) :
    ∃ n, getNode ns id = some n := by
  induction ns with
  | nil => simp at h
  | cons m older ih =>
    simp only [getNode]
    split
    · exact ⟨m, rfl⟩
    · rename_i hid
      simp only [List.length_cons] at h
      exact ih (by omega)

theorem noPending_of_settled (now : Nat) (ns : List Node) (h : settle now ns = ns) :
    NoPending ns := by
  induction ns with
  | nil => trivial
  | cons n older ih =>
    simp only [settle, List.cons.injEq] at h
    obtain ⟨h1, h2⟩ := h
    refine ⟨?_, ih h2⟩
    intro ha r hp
    rw [h2] at h1
    have hd : (settleNode now older n).state = .done r := by
      simp [settleNode, ha, hp]
    rw [h1, ha] at hd
    cases hd

/-- A node that the passing of time makes Done is Done with
`DeadlineExceeded`. -/
theorem settle_newly_done (now : Nat) (ns : List Node) (hn : NoPending ns) :
    ∀ (id : Nat) (n n' : Node) (r : Reason), getNode ns id = some n → n.state = .active →
      getNode (settle now ns) id = some n' → n'.state = .done r →
      r = .deadlineExceeded := by
  induction ns with
  | nil => intro id n n' r h; simp [getNode] at h
  | cons m older ih =>
    intro id n n' r h ha h' hd
    obtain ⟨hn1, hn2⟩ := hn
    simp only [getNode] at h
    simp only [settle, getNode, settle_length] at h'
    split at h
    · rename_i hid
      simp only [hid, if_true, Option.some.injEq] at h'
      simp only [Option.some.injEq] at h
      subst h
      subst h'
      have hdead : ∀ (x : Node),
          (match m.deadline with
            | some dl =>
              if dl ≤ now then { m with state := .done .deadlineExceeded, timer := false }
              else m
            | none => m) = x → x.state = .done r → r = .deadlineExceeded := by
        intro x hx hxs
        cases hdl : m.deadline with
        | none =>
          simp only [hdl] at hx
          subst hx
          rw [ha] at hxs
          cases hxs
        | some dl =>
          simp only [hdl] at hx
          split_ifs at hx
          · subst hx
            simp only [CtxState.done.injEq] at hxs
            exact hxs.symm
          · subst hx
            rw [ha] at hxs
            cases hxs
      unfold settleNode at hd
      simp only [ha] at hd
      cases hp : parentState (settle now older) m with
      | none =>
        simp only [hp] at hd
        exact hdead _ rfl hd
      | some ps =>
        cases ps with
        | active =>
          simp only [hp] at hd
          exact hdead _ rfl hd
        | done r' =>
          simp only [hp, CtxState.done.injEq] at hd
          subst hd
          unfold parentState at hp
          cases hpp : m.parent with
          | none => simp [hpp] at hp
          | some p =>
            simp only [hpp, Option.map_eq_some'] at hp
            obtain ⟨m', hm', hs'⟩ := hp
            have hlt := getNode_lt _ _ _ hm'
            rw [settle_length] at hlt
            obtain ⟨m0, hm0⟩ := getNode_of_lt older p hlt
            cases hs0 : m0.state with
            | active => exact ih hn2 p m0 m' r' hm0 hs0 hm' hs'
            | done r0 =>
              exfalso
              apply hn1 ha r0
              simp [parentState, hpp, hm0, hs0]
    · rename_i hid
      simp only [hid, if_false] at h'
      exact ih hn2 id n n' r h ha h' hd

/-- A node whose deadline has come is Done after the transitions. -/
theorem settle_deadline_fires (now : Nat) (ns : List Node) (id : Nat) (n : Node) (dl : Nat)
    (h : getNode ns id = some n) (hdl : n.deadline = some dl) (hle : dl ≤ now) :
    ∃ n' r, getNode (settle now ns) id = some n' ∧ n'.state = .done r := by
  induction ns with
  | nil => simp [getNode] at h
  | cons m older ih =>
    simp only [getNode] at h
    simp only [settle, getNode, settle_length]
    split at h
    · rename_i hid
      simp only [Option.some.injEq] at h
      subst h
      simp only [hid, if_true]
      cases hs : m.state with
      | done r => exact ⟨_, r, rfl, by rw [settleNode_done now _ m r hs]; exact hs⟩
      | active =>
        unfold settleNode
        simp only [hs, hdl, hle, if_true]
        cases hp : parentState (settle now older) m with
        | none => exact ⟨_, _, rfl, rfl⟩
        | some ps =>
          cases ps with
          | active => exact ⟨_, _, rfl, rfl⟩
          | done r => exact ⟨_, _, rfl, rfl⟩
    · rename_i hid
      simp only [hid, if_false]
      exact ih h

/-- The timer of an Active context fires when the clock reaches its deadline:
the context is then Done with `DeadlineExceeded`. -/
theorem advance_timer_fires (t : Tree) (hs : Settled t) (id : Nat) (n : Node) (dl dt : Nat)
    (h : getNode t.nodes id = some n) (ha : n.state = .active)
    (hdl : n.deadline = some dl) (hle : dl ≤ t.now + dt) :
    stateOf (advance t dt) id = .done .deadlineExceeded := by
  obtain ⟨n', r, h1, h2⟩ := settle_deadline_fires (t.now + dt) t.nodes id n dl h hdl hle
  have hr := settle_newly_done (t.now + dt) t.nodes (noPending_of_settled t.now _ hs)
    id n n' r h ha h1 h2
  subst hr
  exact (stateOf_done_iff _ id _).mpr ⟨n', h1, h2⟩

end Context
namespace Context

theorem stateOf_head (now : Nat) (n : Node) (older : List Node) :
    stateOf { now := now, nodes := n :: older } older.length = n.state := by
  simp [stateOf, getNode]

theorem httpInv_state (dl ctx5 : Nat) (s : HttpState) (h : HttpInv dl ctx5 s) :
    (s.tree.now < dl → isDone s.tree ctx5 = false)
    ∧ (dl ≤ s.tree.now →
        isDone s.tree ctx5 = true ∧ reason s.tree ctx5 = some .deadlineExceeded) := by
  obtain ⟨n, older, hn, hc, _, _, _, ha, hd, _, _⟩ := h
  have hst : stateOf s.tree ctx5 = n.state := by
    simp [stateOf, hn, hc, getNode]
  refine ⟨fun hlt => ?_, fun hle => ?_⟩
  · simp [isDone, hst, ha hlt]
  · simp [isDone, reason, hst, hd hle]

theorem httpInv_advance (dl ctx5 : Nat) (s : HttpState) (h : HttpInv dl ctx5 s) :
    HttpInv dl ctx5 { s with tree := advance s.tree 1 } := by
  obtain ⟨n, older, hn, hc, hroot, hp, hdl, ha, hd, hsent, hres⟩ := h
  have hroot' := getNode_settle_root (s.tree.now + 1) older 0 rootNode hroot rfl rfl rfl
  have hpar : parentState (settle (s.tree.now + 1) older) n = some .active := by
    simp [parentState, hp, hroot', rootNode]
  refine ⟨settleNode (s.tree.now + 1) (settle (s.tree.now + 1) older) n,
    settle (s.tree.now + 1) older, ?_, ?_, hroot', ?_, ?_, ?_, ?_, hsent, hres⟩
  · simp [advance, hn, settle]
  · rw [settle_length]
    exact hc
  · rw [(settleNode_fields _ _ n).1]
    exact hp
  · rw [(settleNode_fields _ _ n).2.1]
    exact hdl
  · intro hlt
    simp only [advance] at hlt
    have hact := ha (by omega)
    simp only [settleNode, hact, hpar, hdl]
    rw [if_neg (by omega)]
    exact hact
  · intro hle
    simp only [advance] at hle
    by_cases hnow : dl ≤ s.tree.now
    · rw [settleNode_done _ _ n _ (hd hnow)]
      exact hd hnow
    · have hact := ha (by omega)
      simp only [settleNode, hact, hpar, hdl]
      rw [if_pos hle]

theorem httpInv_init (t : Tree) (timeout : Nat) (h : getNode t.nodes 0 = some rootNode) :
    HttpInv (t.now + timeout) (deriveTimeout t 0 timeout).2
      { tree := (deriveTimeout t 0 timeout).1, result := Chan.make String 1, sent := false } := by
  have hpar : ∀ n : Node, n.parent = some 0 → parentState t.nodes n = some .active := by
    intro n hp
    simp [parentState, hp, h, rootNode]
  refine ⟨_, t.nodes, rfl, rfl, h, ?_, ?_, ?_, ?_, rfl, rfl⟩
  · rw [(settleNode_fields _ _ _).1]
  · rw [(settleNode_fields _ _ _).2.1]
  · intro hlt
    simp only [deriveTimeout, deriveDeadline, derive] at hlt
    simp only [settleNode]
    rw [hpar { parent := some 0, state := .active, deadline := some (t.now + timeout),
               timer := true, canCancel := true, cancelCalled := false, binding := none } rfl]
    simp only
    rw [if_neg (by omega)]
  · intro hle
    simp only [deriveTimeout, deriveDeadline, derive] at hle
    simp only [settleNode]
    rw [hpar { parent := some 0, state := .active, deadline := some (t.now + timeout),
               timer := true, canCancel := true, cancelCalled := false, binding := none } rfl]
    simp only
    rw [if_pos hle]

theorem httpGoroutine_early (respAt : Nat) (s : HttpState) (h : s.tree.now < respAt) :
    httpGoroutine respAt s = s := by
  unfold httpGoroutine
  rw [if_neg (by omega)]

/-- When the deadline of `ctx5` comes before the response, the `select` takes the
case `<-ctx5.Done()`. -/
theorem httpSelect_timeout (dl ctx5 respAt : Nat) (pick : Bool) (hlt : dl < respAt) :
    ∀ (fuel : Nat) (s : HttpState), HttpInv dl ctx5 s → s.tree.now ≤ dl →
      dl - s.tree.now < fuel →
      httpSelect ctx5 respAt pick fuel s = some (.timeout (some .deadlineExceeded)) := by
  intro fuel
  induction fuel with
  | zero => intro s _ _ hf; omega
  | succ fuel ih =>
    intro s hinv hnow hf
    have hst := httpInv_state dl ctx5 s hinv
    have hres : s.result.recv = .blocks := by
      obtain ⟨_, _, _, _, _, _, _, _, _, _, hr⟩ := hinv
      rw [hr]
      rfl
    unfold httpSelect
    simp only [httpGoroutine_early respAt s (by omega)]
    by_cases hd : dl ≤ s.tree.now
    · obtain ⟨h1, h2⟩ := hst.2 hd
      simp [h1, h2, hres]
    · have h1 := hst.1 (by omega)
      simp only [h1, hres]
      apply ih _ (httpInv_advance dl ctx5 s hinv)
      · simp only [advance]
        omega
      · simp only [advance]
        omega

/-- When the response comes before the deadline of `ctx5`, the `select` takes the
case `res := <-result`. -/
theorem httpSelect_result (dl ctx5 respAt : Nat) (pick : Bool) (hlt : respAt < dl) :
    ∀ (fuel : Nat) (s : HttpState), HttpInv dl ctx5 s → s.tree.now ≤ respAt →
      respAt - s.tree.now < fuel →
      httpSelect ctx5 respAt pick fuel s = some (.result "API Response") := by
  intro fuel
  induction fuel with
  | zero => intro s _ _ hf; omega
  | succ fuel ih =>
    intro s hinv hnow hf
    have hst := (httpInv_state dl ctx5 s hinv).1 (by omega)
    obtain ⟨hsent, hr⟩ : s.sent = false ∧ s.result = Chan.make String 1 := by
      obtain ⟨_, _, _, _, _, _, _, _, _, h1, h2⟩ := hinv
      exact ⟨h1, h2⟩
    unfold httpSelect
    by_cases hd : respAt ≤ s.tree.now
    · have hg : httpGoroutine respAt s
          = { s with result := { buf := ["API Response"], cap := 1, closed := false },
                     sent := true } := by
        unfold httpGoroutine
        rw [if_pos ⟨hsent, hd⟩, hr]
        rfl
      simp only [hg, hst]
      rfl
    · simp only [httpGoroutine_early respAt s (by omega), hst]
      have hres : s.result.recv = .blocks := by
        rw [hr]
        rfl
      simp only [hres]
      apply ih _ (httpInv_advance dl ctx5 s hinv)
      · simp only [advance]
        omega
      · simp only [advance]
        omega

end Context
namespace Context

theorem getNode_markCancelled_ne (id' : Nat) (ns : List Node) (id : Nat) (n : Node)
    (h : getNode ns id = some n) (hne : id' ≠ id) :
    getNode (markCancelled id' ns) id = some n := by
  induction ns with
  | nil => simp [getNode] at h
  | cons m older ih =>
    simp only [getNode] at h
    simp only [markCancelled]
    split
    · rename_i hid'
      simp only [getNode]
      split at h
      · rename_i hid
        omega
      · rename_i hid
        simp [hid, h]
    · rename_i hid'
      simp only [getNode, markCancelled_length]
      split at h
      · rename_i hid
        simp only [hid, if_true]
        exact h
      · rename_i hid
        simp only [hid, if_false]
        exact ih h

/-- Only `cancel` on a context records a call of its cancel operation. -/
theorem runOps_cancelCalled (id : Nat) (ops : List Op) (hno : Op.cancel id ∉ ops) :
    ∀ (t : Tree) (n : Node), getNode t.nodes id = some n →
      ∃ n', getNode (runOps t ops).nodes id = some n'
        ∧ n'.cancelCalled = n.cancelCalled := by
  induction ops with
  | nil => intro t n h; exact ⟨n, h, rfl⟩
  | cons op ops ih =>
    intro t n h
    have hop : op ≠ .cancel id := fun he => hno (by simp [he])
    have hrest : Op.cancel id ∉ ops := fun hm => hno (List.mem_cons_of_mem _ hm)
    have h1 : ∃ n1, getNode (applyOp t op).nodes id = some n1
        ∧ n1.cancelCalled = n.cancelCalled := by
      cases op with
      | deriveCancel p => exact ⟨n, getNode_cons_of_some _ _ _ _ h, rfl⟩
      | deriveTimeout p d => exact ⟨n, getNode_cons_of_some _ _ _ _ h, rfl⟩
      | deriveDeadline p i => exact ⟨n, getNode_cons_of_some _ _ _ _ h, rfl⟩
      | deriveValue p k v => exact ⟨n, getNode_cons_of_some _ _ _ _ h, rfl⟩
      | cancel id' =>
        have hne : id' ≠ id := fun he => hop (by rw [he])
        obtain ⟨n2, h2, _, _, _, c2, _⟩ :=
          getNode_settle t.now _ id n (getNode_markCancelled_ne id' t.nodes id n h hne)
        exact ⟨n2, h2, c2⟩
      | advance dt =>
        obtain ⟨n2, h2, _, _, _, c2, _⟩ := getNode_settle (t.now + dt) _ id n h
        exact ⟨n2, h2, c2⟩
    obtain ⟨n1, hn1, hc1⟩ := h1
    obtain ⟨n2, hn2, hc2⟩ := ih hrest _ n1 hn1
    exact ⟨n2, hn2, hc2.trans hc1⟩

theorem stateOf_of_getNode (t : Tree) (id : Nat) (n : Node) (h : getNode t.nodes id = some n) :
    stateOf t id = n.state := by
  simp [stateOf, h]

/-- C14: let `ctx` be derived with timeout `d` from the context `p` in a tree `t`
reached from the background context, and let `T` be the tree after any further
operations `ops`.  Before `d` has elapsed, and when `ops` holds no `cancel` of
`ctx`, `ctx` is Active, or Done with the reason of its Done parent; with the
background context as parent it is Active.  When `ctx` is Done with
`DeadlineExceeded`, `d` has elapsed or its parent is Done with
`DeadlineExceeded`.  When `ctx` is Active and the clock moves on to its deadline
or beyond, `ctx` is Done with `DeadlineExceeded`.  The simulated HTTP request
started in `t` with timeout `d` returns, given enough steps: it takes the case
`<-ctx5.Done()` and reports `DeadlineExceeded` when the response is sent after
more than `d`, and the case `res := <-result` with the response when the
response is sent strictly before `d`. -/
theorem timeout_context_done_only_at_deadline (pre ops : List Op) (p d : Nat)
    (t T : Tree) (ctx : Nat)
    (ht : t = runOps background pre)
    (hctx : ctx = (deriveTimeout t p d).2)
    (hT : T = runOps (deriveTimeout t p d).1 ops) :
    (T.now < t.now + d → Op.cancel ctx ∉ ops →
        stateOf T ctx = .active
          ∨ ∃ r, stateOf T ctx = .done r ∧ stateOf T p = .done r)
    ∧ (p = 0 → T.now < t.now + d → Op.cancel ctx ∉ ops → stateOf T ctx = .active)
    ∧ (stateOf T ctx = .done .deadlineExceeded →
        t.now + d ≤ T.now ∨ stateOf T p = .done .deadlineExceeded)
    ∧ (∀ dt, stateOf T ctx = .active → t.now + d ≤ T.now + dt →
        stateOf (advance T dt) ctx = .done .deadlineExceeded)
    ∧ (∀ respAfter pick fuel, d < respAfter → d < fuel →
        httpRequest t d respAfter pick fuel = some (.timeout (some .deadlineExceeded)))
    ∧ (∀ respAfter pick fuel, respAfter < d → respAfter < fuel →
        httpRequest t d respAfter pick fuel = some (.result "API Response")) := by
  have hjt : Justified t.now t.nodes := by
    rw [ht]
    exact justified_runOps pre _ justified_background
  have hst : Settled t := by
    rw [ht]
    exact settled_runOps pre _ settled_background
  have hrt : getNode t.nodes 0 = some rootNode := by
    rw [ht]
    exact root_background pre
  have hjT : Justified T.now T.nodes := by
    rw [hT]
    exact justified_runOps ops _ (justified_applyOp t (.deriveTimeout p d) hjt)
  have hsT : Settled T := by
    rw [hT]
    exact settled_runOps ops _ (settled_applyOp t (.deriveTimeout p d) hst)
  have hrT : getNode T.nodes 0 = some rootNode := by
    rw [hT]
    exact root_runOps ops _ (root_applyOp t (.deriveTimeout p d) hrt)
  -- the node of `ctx` when it is derived, and in `T`
  obtain ⟨n0, hn0, hp0, hd0, hc0⟩ : ∃ n0, getNode (deriveTimeout t p d).1.nodes ctx = some n0
      ∧ n0.parent = some p ∧ n0.deadline = some (t.now + d) ∧ n0.cancelCalled = false := by
    have hf := settleNode_fields t.now t.nodes
      { parent := some p, state := .active, deadline := some (t.now + d), timer := true,
        canCancel := true, cancelCalled := false, binding := none }
    refine ⟨_, ?_, hf.1, hf.2.1, hf.2.2.2.1⟩
    rw [hctx]
    simp [deriveTimeout, deriveDeadline, derive, getNode]
  obtain ⟨n, hn, hpn, hdn⟩ := runOps_fields ops _ ctx n0 hn0
  rw [← hT] at hn
  rw [hp0] at hpn
  rw [hd0] at hdn
  have hstate := stateOf_of_getNode T ctx n hn
  obtain ⟨j1, j2⟩ := justified_node T.now T.nodes hjT ctx n hn
  have hparent : ∀ r p' m, n.parent = some p' → getNode T.nodes p' = some m →
      m.state = .done r → stateOf T p = .done r := by
    intro r p' m hp' hm hs
    rw [hpn] at hp'
    simp only [Option.some.injEq] at hp'
    subst hp'
    rw [stateOf_of_getNode T p m hm]
    exact hs
  have hearly : T.now < t.now + d → Op.cancel ctx ∉ ops →
      stateOf T ctx = .active ∨ ∃ r, stateOf T ctx = .done r ∧ stateOf T p = .done r := by
    intro hlt hno
    obtain ⟨n', hn', hc'⟩ := runOps_cancelCalled ctx ops hno _ n0 hn0
    rw [← hT, hn] at hn'
    simp only [Option.some.injEq] at hn'
    subst hn'
    rw [hc0] at hc'
    rw [hstate]
    cases hs : n.state with
    | active => exact Or.inl rfl
    | done r =>
      right
      refine ⟨r, rfl, ?_⟩
      cases r with
      | deadlineExceeded =>
        rcases j1 hs with ⟨dl, hdl, hle⟩ | ⟨p', m, hp', hm, hms⟩
        · rw [hdn] at hdl
          simp only [Option.some.injEq] at hdl
          omega
        · exact hparent _ p' m hp' hm hms
      | cancelled =>
        rcases j2 hs with ⟨hcc, _⟩ | ⟨p', m, hp', hm, hms⟩
        · rw [hc'] at hcc
          cases hcc
        · exact hparent _ p' m hp' hm hms
  refine ⟨hearly, ?_, ?_, ?_, ?_, ?_⟩
  · intro hp hlt hno
    rcases hearly hlt hno with ha | ⟨r, _, hr⟩
    · exact ha
    · rw [hp, stateOf_of_getNode T 0 rootNode hrT] at hr
      cases hr
  · intro hd
    rw [hstate] at hd
    rcases j1 hd with ⟨dl, hdl, hle⟩ | ⟨p', m, hp', hm, hms⟩
    · rw [hdn] at hdl
      simp only [Option.some.injEq] at hdl
      left
      omega
    · exact Or.inr (hparent _ p' m hp' hm hms)
  · intro dt ha hle
    rw [hstate] at ha
    exact advance_timer_fires T hsT ctx n (t.now + d) dt hn ha hdn hle
  · intro respAfter pick fuel hlt hf
    unfold httpRequest
    exact httpSelect_timeout (t.now + d) _ (t.now + respAfter) pick (by omega) fuel _
      (httpInv_init t d hrt) (by simp [deriveTimeout, deriveDeadline, derive])
      (by simp only [deriveTimeout, deriveDeadline, derive]; omega)
  · intro respAfter pick fuel hlt hf
    unfold httpRequest
    exact httpSelect_result (t.now + d) _ (t.now + respAfter) pick (by omega) fuel _
      (httpInv_init t d hrt) (by simp [deriveTimeout, deriveDeadline, derive])
      (by simp only [deriveTimeout, deriveDeadline, derive]; omega)

theorem timeout_context_done_only_at_deadline_witness :
    (deriveTimeout (runOps background mainOpsBeforeHttp) 0 second).2 = 5
    ∧ (runOps background mainOpsBeforeHttp).now = 7 * second + second / 2
    ∧ stateOf (runOps (deriveTimeout (runOps background mainOpsBeforeHttp) 0 second).1
        [.advance (second - 1)]) 5 = .active
    ∧ stateOf (advance (runOps (deriveTimeout (runOps background mainOpsBeforeHttp) 0 second).1
        [.advance (second - 1)]) 1) 5 = .done .deadlineExceeded
    ∧ (∀ pick, httpRequest (runOps background mainOpsBeforeHttp) second (2 * second) pick
        (second + 1) = some (.timeout (some .deadlineExceeded)))
    ∧ httpRequest background 5 2 true 3 = some (.result "API Response") := by
  have h := timeout_context_done_only_at_deadline mainOpsBeforeHttp [.advance (second - 1)]
    0 second (runOps background mainOpsBeforeHttp)
    (runOps (deriveTimeout (runOps background mainOpsBeforeHttp) 0 second).1
      [.advance (second - 1)]) 5 rfl (by decide) rfl
  have hact := h.2.1 rfl (by decide) (by decide)
  refine ⟨by decide, by decide, hact, h.2.2.2.1 1 hact (by decide), ?_, ?_⟩
  · intro pick
    exact h.2.2.2.2.1 (2 * second) pick (second + 1) (by decide) (by decide)
  · exact (timeout_context_done_only_at_deadline [] [] 0 5 background
      (deriveTimeout background 0 5).1 1 rfl rfl rfl).2.2.2.2.2 2 true 3
      (by decide) (by decide)

end Context

namespace Context

/-- The background context has no binding. -/
theorem lookupIn_root (key : Dyn) (ns : List Node) (h : getNode ns 0 = some rootNode) :
    lookupIn ns (some 0) key = none := by
  induction ns with
  | nil => rfl
  | cons m older ih =>
    simp only [getNode] at h
    simp only [lookupIn]
    split at h
    · rename_i hid
      simp only [Option.some.injEq] at h
      subst h
      simp only [Option.some.injEq, hid, if_true]
      cases older with
      | nil => rfl
      | cons x xs => simp at hid
    · rename_i hid
      rw [if_neg (by simpa using hid)]
      exact ih h

/-- The lookup of the key a context binds gives the value it binds. -/
theorem value_deriveValue_same (t : Tree) (p : Nat) (k v : Dyn) :
    value (deriveValue t p k v).1 (deriveValue t p k v).2 k = some v := by
  have hb := (settleNode_fields t.now t.nodes
    { parent := some p, state := .active, deadline := none, timer := false,
      canCancel := false, cancelCalled := false, binding := some (k, v) }).2.2.2.2
  simp only [value, deriveValue, derive, lookupIn, if_true]
  simp only at hb
  rw [hb]
  simp

/-- The lookup of another key goes on in the parent. -/
theorem value_deriveValue_other (t : Tree) (p : Nat) (k v k' : Dyn) (hne : k ≠ k') :
    value (deriveValue t p k v).1 (deriveValue t p k v).2 k' = lookupIn t.nodes (some p) k' := by
  have hf := settleNode_fields t.now t.nodes
    { parent := some p, state := .active, deadline := none, timer := false,
      canCancel := false, cancelCalled := false, binding := some (k, v) }
  simp only [value, deriveValue, derive, lookupIn, if_true]
  simp only at hf
  rw [hf.2.2.2.2, hf.1]
  simp [hne]

/-- C15: whatever `main` did before, in the context `ctx4` that `main` builds by
binding its `userKey` to `"Alice"` over the background context, the lookup of
the `userKey` of `main` gives `"Alice"` (the binding of the context itself, the
nearest one), but the `userKey` of `processRequest` is a value of another type,
so that its lookup finds no binding and `processRequest` takes the branch
`"No user in context"`. -/
theorem processRequest_finds_no_user (pre : List Op) :
    mainUserKey ≠ processRequestUserKey
    ∧ value (mainCtx4 (runOps background pre)).1 (mainCtx4 (runOps background pre)).2
        mainUserKey = some ⟨.string, "Alice"⟩
    ∧ value (mainCtx4 (runOps background pre)).1 (mainCtx4 (runOps background pre)).2
        processRequestUserKey = none
    ∧ processRequest (mainCtx4 (runOps background pre)).1
        (mainCtx4 (runOps background pre)).2 = .noUser
    ∧ processRequest (mainCtx4 (runOps background pre)).1
        (mainCtx4 (runOps background pre)).2 ≠ .processing "Alice" := by
  have hne : mainUserKey ≠ processRequestUserKey := by decide
  have hv : value (mainCtx4 (runOps background pre)).1 (mainCtx4 (runOps background pre)).2
      processRequestUserKey = none := by
    unfold mainCtx4
    rw [value_deriveValue_other _ 0 _ _ _ hne]
    exact lookupIn_root _ _ (root_background pre)
  have hp : processRequest (mainCtx4 (runOps background pre)).1
      (mainCtx4 (runOps background pre)).2 = .noUser := by
    unfold processRequest
    rw [hv]
    rfl
  refine ⟨hne, value_deriveValue_same _ 0 _ _, hv, hp, ?_⟩
  rw [hp]
  decide

/-- In the run of `main`, `ctx4` is the context 4 and `processRequest(ctx4)`
prints `"No user in context"`. -/
theorem processRequest_main_run :
    (mainCtx4 (runOps background (mainOps.take 8))).2 = 4
    ∧ (mainCtx4 (runOps background (mainOps.take 8))).1 = runOps background mainOpsBeforeHttp
    ∧ processRequest (runOps background mainOpsBeforeHttp) 4 = .noUser := by
  decide

end Context

namespace Pool

theorem pool_crashed_stuck {α β : Type} [Inhabited β] (f : α → β) (s : State α β)
    (hp : s.panicked = true) : Stuck (stepFaulty f) s := by
  intro a
  cases a with
  | op a => simp [stepFaulty, step, hp]
  | fault w => simp [stepFaulty, hp]

theorem pool_crashed_run {α β : Type} [Inhabited β] (f : α → β) (s s' : State α β)
    (hp : s.panicked = true) (sched : List FaultAction)
    (h : runSched (stepFaulty f) s sched = some s') : sched = [] ∧ s' = s := by
  cases sched with
  | nil =>
    simp only [runSched, Option.some.injEq] at h
    exact ⟨rfl, h.symm⟩
  | cons a as =>
    simp only [runSched, pool_crashed_stuck f s hp a] at h
    cases h

/-- A run of the pool with faults either has no fault and is a run of the pool,
or has ended with the first fault. -/
theorem pool_faulty_run {α β : Type} [Inhabited β] (f : α → β) (js : List α)
    (numWorkers jobCap resCap : Nat) :
    ∀ (sched : List FaultAction) (s s' : State α β),
      Inv f js numWorkers jobCap resCap s → runSched (stepFaulty f) s sched = some s' →
      (Inv f js numWorkers jobCap resCap s' ∧ ∀ w, FaultAction.fault w ∉ sched)
      ∨ (Crashed f js numWorkers jobCap resCap s' ∧ ∃ w, FaultAction.fault w ∈ sched) := by
  intro sched
  induction sched with
  | nil =>
    intro s s' hI h
    simp only [runSched, Option.some.injEq] at h
    subst h
    exact Or.inl ⟨hI, fun w hw => by simp at hw⟩
  | cons a as ih =>
    intro s s' hI h
    simp only [runSched] at h
    cases hs : stepFaulty f s a with
    | none => simp [hs] at h
    | some s1 =>
      rw [hs] at h
      cases a with
      | op a =>
        have hI1 := pool_step_inv f js numWorkers jobCap resCap s a s1 hI hs
        rcases ih s1 s' hI1 h with ⟨hI', hno⟩ | ⟨hc, w, hw⟩
        · left
          refine ⟨hI', fun w hw => ?_⟩
          rcases List.mem_cons.mp hw with he | hm
          · cases he
          · exact hno w hm
        · exact Or.inr ⟨hc, w, List.mem_cons_of_mem _ hw⟩
      | fault w =>
        right
        simp only [stepFaulty, hI.noPanic, Bool.false_eq_true, if_false] at hs
        cases hw : s.workers[w]? with
        | none => simp [hw] at hs
        | some pc =>
          cases pc with
          | idle => simp [hw] at hs
          | done => simp [hw] at hs
          | busy j =>
            simp only [hw, Option.some.injEq] at hs
            have hp : s1.panicked = true := by rw [← hs]
            obtain ⟨_, hs'⟩ := pool_crashed_run f s1 s' hp as h
            subst hs'
            exact ⟨⟨s, w, j, hI, hw, hs.symm⟩, w, List.mem_cons_self _ _⟩

/-- When a worker has faulted, the job it held has no result: fewer results than
jobs were published. -/
theorem pool_crashed_published {α β : Type} (f : α → β) (js : List α)
    (numWorkers jobCap resCap : Nat) (s : State α β)
    (hc : Crashed f js numWorkers jobCap resCap s) :
    s.panicked = true ∧ s.published.length < js.length
      ∧ ∀ r ∈ s.published, ∃ j ∈ js, f j = r := by
  obtain ⟨s0, w, j, hI, hw, rfl⟩ := hc
  refine ⟨rfl, ?_, fun r hr => pool_published_mem f js numWorkers jobCap resCap s0 hI r hr⟩
  have hcard := congrArg Multiset.card hI.conserve
  simp only [Multiset.card_add, Multiset.coe_card, List.length_map] at hcard
  have hmem : heldOut f (.busy j) ∈ s0.workers.map (heldOut f) :=
    List.mem_map.mpr ⟨_, List.getElem?_mem hw, rfl⟩
  have hle := Multiset.card_le_card (Multiset.le_sum_of_mem (Multiset.mem_coe.mpr hmem))
  simp only [heldOut, Multiset.card_singleton, Multiset.sum_coe] at hle
  show s0.published.length < js.length
  omega

end Pool
namespace AdvancedConcurrency

/-- C16: in the pool of `main`, with a fault possible while a worker processes a
job.  Every published Result is that of a job, the job next to `Data * 2`: a
Result carries no error.  In a run without a fault no goroutine panics, and in
every state where the job queue has been closed and no goroutine can move
exactly one Result per job has been published.  In a run with a fault the fault
is not caught: the program has ended, no goroutine takes a further step, the
faulting worker takes no further job, and fewer Results than jobs have been
published. -/
theorem worker_fault_ends_pool (js : List Job) (numWorkers : Nat) (hnw : 1 ≤ numWorkers)
    (sched : List Pool.FaultAction) (s : Pool.State Job Result)
    (h : runSched (Pool.stepFaulty worker) (poolInit js numWorkers) sched = some s) :
    (∀ r ∈ s.published, r.Job ∈ js ∧ r = { Job := r.Job, Result := mulInt r.Job.Data 2 })
    ∧ ((∀ w, Pool.FaultAction.fault w ∉ sched) →
        s.panicked = false
        ∧ (Stuck (Pool.stepFaulty worker) s → s.jobs.closed = true →
            s.published.length = js.length ∧ s.published.Perm (js.map worker)))
    ∧ ((∃ w, Pool.FaultAction.fault w ∈ sched) →
        s.panicked = true ∧ Stuck (Pool.stepFaulty worker) s
        ∧ s.published.length < js.length) := by
  have hrun := Pool.pool_faulty_run worker js numWorkers 10 10 sched _ s
    (Pool.pool_init_inv worker js numWorkers 10 10) h
  refine ⟨?_, ?_, ?_⟩
  · intro r hr
    have hmem : ∃ j ∈ js, worker j = r := by
      rcases hrun with ⟨hI, _⟩ | ⟨hc, _⟩
      · exact Pool.pool_published_mem _ _ _ _ _ _ hI r hr
      · exact (Pool.pool_crashed_published _ _ _ _ _ _ hc).2.2 r hr
    obtain ⟨j, hj, rfl⟩ := hmem
    exact ⟨hj, rfl⟩
  · intro hno
    rcases hrun with ⟨hI, _⟩ | ⟨_, w, hw⟩
    · refine ⟨hI.noPanic, fun hst hcl => ?_⟩
      have hst' : Stuck (Pool.step worker) s := fun a => hst (.op a)
      obtain ⟨_, hpub, _, _⟩ :=
        Pool.pool_stuck worker js numWorkers 10 10 s hI (by decide) hnw hst' hcl
      have hperm : s.published.Perm (js.map worker) := Multiset.coe_eq_coe.mp hpub
      exact ⟨by simpa using hperm.length_eq, hperm⟩
    · exact absurd hw (hno w)
  · rintro ⟨w, hw⟩
    rcases hrun with ⟨_, hno⟩ | ⟨hc, _⟩
    · exact absurd hw (hno w)
    · obtain ⟨hp, hlt, _⟩ := Pool.pool_crashed_published _ _ _ _ _ _ hc
      exact ⟨hp, Pool.pool_crashed_stuck worker s hp, hlt⟩

theorem worker_fault_ends_pool_witness :
    (1 ≤ 3)
    ∧ runSched (Pool.stepFaulty worker) (poolInit mainJobs 3) poolFaultSched
        = some poolFaultFinal
    ∧ poolFaultFinal.panicked = true
    ∧ poolFaultFinal.published.length < mainJobs.length
    ∧ (∀ r ∈ poolFaultFinal.published,
        r.Job ∈ mainJobs ∧ r = { Job := r.Job, Result := mulInt r.Job.Data 2 }) := by
  have h := worker_fault_ends_pool mainJobs 3 (by decide) poolFaultSched poolFaultFinal
    (by decide)
  have h3 := h.2.2 ⟨1, by decide⟩
  exact ⟨by decide, by decide, h3.1, h3.2.2, h.1⟩

/-- In the pool of `main` (jobs 1 to 5, three workers) a fault in worker 1 while
it processes job 2 is not caught and not published: the program has ended with
one Result published, that of job 1, none for job 2 and none for the jobs 3, 4
and 5, which are still in the queue; no goroutine can take a further step. -/
theorem worker_fault_not_caught :
    runSched (Pool.stepFaulty worker) (poolInit mainJobs 3) poolFaultSched
      = some poolFaultFinal
    ∧ poolFaultFinal.panicked = true
    ∧ Stuck (Pool.stepFaulty worker) poolFaultFinal
    ∧ poolFaultFinal.published = [{ Job := ⟨1, 10⟩, Result := 20 }]
    ∧ poolFaultFinal.published.length ≠ mainJobs.length
    ∧ (∀ r ∈ poolFaultFinal.published, r.Job.ID ≠ 2)
    ∧ poolFaultFinal.jobs.buf.length = 3 :=
  ⟨by decide, rfl, Pool.pool_crashed_stuck worker poolFaultFinal rfl, by decide, by decide,
    by decide, rfl⟩

end AdvancedConcurrency

namespace Functions

theorem callsOn_append_same (c : Nat) (log : List (Nat × Int)) (v : Int) :
    callsOn c (log ++ [(c, v)]) = callsOn c log + 1 := by
  simp [callsOn, List.filter_append]

theorem callsOn_append_other (c c' : Nat) (log : List (Nat × Int)) (v : Int) (hne : c' ≠ c) :
    callsOn c (log ++ [(c', v)]) = callsOn c log := by
  simp [callsOn, List.filter_append, hne]

theorem callsOn_eq_zero (c : Nat) (log : List (Nat × Int)) (h : ∀ e ∈ log, e.1 ≠ c) :
    callsOn c log = 0 := by
  simp only [callsOn, List.length_eq_zero, List.filter_eq_nil_iff, decide_eq_true_eq]
  exact h

theorem counterInv_counter (h : Heap) (log : List (Nat × Int)) (hI : CounterInv h log) :
    CounterInv (counter h).1 log := by
  obtain ⟨h1, h2⟩ := hI
  refine ⟨?_, ?_⟩
  · intro c count hc
    simp only [counter] at hc
    by_cases hlt : c < h.length
    · rw [List.getElem?_append_left hlt] at hc
      exact h1 c count hc
    · have hz : callsOn c log = 0 :=
        callsOn_eq_zero c log (fun e he => by have := h2 e he; omega)
      by_cases heq : c = h.length
      · subst heq
        simp only [List.getElem?_concat_length, Option.some.injEq] at hc
        rw [hz, ← hc]
        decide
      · rw [List.getElem?_eq_none (by simp; omega)] at hc
        cases hc
  · intro e he
    have := h2 e he
    simp only [counter, List.length_append, List.length_singleton]
    omega

theorem counterInv_call (h : Heap) (log : List (Nat × Int)) (hI : CounterInv h log)
    (c : Nat) (h' : Heap) (v : Int) (hc : call h c = some (h', v)) :
    v = wrapInt ((callsOn c log : Int) + 1) ∧ CounterInv h' (log ++ [(c, v)]) := by
  obtain ⟨h1, h2⟩ := hI
  unfold call at hc
  cases hg : h[c]? with
  | none => simp [hg] at hc
  | some count =>
    simp only [hg, Option.some.injEq, Prod.mk.injEq] at hc
    obtain ⟨hh, hv⟩ := hc
    have hcount := h1 c count hg
    have hval : v = wrapInt ((callsOn c log : Int) + 1) := by
      rw [← hv, addInt, hcount, wrapInt_wrapInt_add]
    have hlt : c < h.length := by
      rcases List.getElem?_eq_some_iff.mp hg with ⟨hlt, _⟩
      exact hlt
    refine ⟨hval, ?_, ?_⟩
    · intro c' count' hc'
      rw [← hh] at hc'
      by_cases heq : c' = c
      · subst heq
        rw [List.getElem?_set_self hlt, Option.some.injEq] at hc'
        rw [callsOn_append_same, ← hc', hv, hval]
        push_cast
        rfl
      · rw [List.getElem?_set_ne (fun e => heq e.symm)] at hc'
        rw [callsOn_append_other c' c log v (fun e => heq e.symm)]
        exact h1 c' count' hc'
    · intro e he
      rw [← hh, List.length_set]
      rcases List.mem_append.mp he with hm | hm
      · exact h2 e hm
      · simp only [List.mem_singleton] at hm
        subst hm
        exact hlt

theorem counterInv_run (ops : List Op) :
    ∀ (h : Heap) (log : List (Nat × Int)) (h' : Heap) (log' : List (Nat × Int)),
      CounterInv h log → run h log ops = some (h', log') → CounterInv h' log' := by
  induction ops with
  | nil =>
    intro h log h' log' hI hr
    simp only [run, Option.some.injEq, Prod.mk.injEq] at hr
    rw [← hr.1, ← hr.2]
    exact hI
  | cons op ops ih =>
    intro h log h' log' hI hr
    cases op with
    | counter =>
      simp only [run] at hr
      exact ih _ _ _ _ (counterInv_counter h log hI) hr
    | call c =>
      simp only [run] at hr
      cases hc : call h c with
      | none => simp [hc] at hr
      | some p =>
        obtain ⟨h1, v⟩ := p
        simp only [hc] at hr
        exact ih _ _ _ _ (counterInv_call h log hI c h1 v hc).2 hr

theorem counterInv_init : CounterInv [] [] := by
  refine ⟨?_, ?_⟩
  · intro c count hc
    simp at hc
  · intro e he
    simp at he

end Functions
namespace Functions

theorem logOk_append (log : List (Nat × Int)) (c : Nat) (v : Int) (hl : LogOk log)
    (hv : v = wrapInt ((callsOn c log : Int) + 1)) : LogOk (log ++ [(c, v)]) := by
  intro i c' v' hi
  by_cases hlt : i < log.length
  · rw [List.getElem?_append_left hlt] at hi
    rw [List.take_append_of_le_length (by omega)]
    exact hl i c' v' hi
  · by_cases heq : i = log.length
    · subst heq
      simp only [List.getElem?_concat_length, Option.some.injEq, Prod.mk.injEq] at hi
      obtain ⟨hc, hv'⟩ := hi
      subst hc
      rw [List.take_of_length_le (by simp), callsOn_append_same, ← hv', hv]
      push_cast
      rfl
    · rw [List.getElem?_eq_none (by simp; omega)] at hi
      cases hi

theorem logOk_run (ops : List Op) :
    ∀ (h : Heap) (log : List (Nat × Int)) (h' : Heap) (log' : List (Nat × Int)),
      CounterInv h log → LogOk log → run h log ops = some (h', log') → LogOk log' := by
  induction ops with
  | nil =>
    intro h log h' log' _ hl hr
    simp only [run, Option.some.injEq, Prod.mk.injEq] at hr
    rw [← hr.2]
    exact hl
  | cons op ops ih =>
    intro h log h' log' hI hl hr
    cases op with
    | counter =>
      simp only [run] at hr
      exact ih _ _ _ _ (counterInv_counter h log hI) hl hr
    | call c =>
      simp only [run] at hr
      cases hc : call h c with
      | none => simp [hc] at hr
      | some p =>
        obtain ⟨h1, v⟩ := p
        simp only [hc] at hr
        obtain ⟨hv, hI1⟩ := counterInv_call h log hI c h1 v hc
        exact ih _ _ _ _ hI1 (logOk_append log c v hl hv) hr

theorem call_other (h h' : Heap) (c c' : Nat) (v : Int) (hc : call h c = some (h', v))
    (hne : c' ≠ c) : (call h' c').map Prod.snd = (call h c').map Prod.snd := by
  unfold call at hc
  cases hg : h[c]? with
  | none => simp [hg] at hc
  | some count =>
    simp only [hg, Option.some.injEq, Prod.mk.injEq] at hc
    obtain ⟨hh, _⟩ := hc
    have hget : h'[c']? = h[c']? := by
      rw [← hh, List.getElem?_set_ne (fun e => hne e.symm)]
    unfold call
    rw [hget]
    cases h[c']? <;> rfl

/-- C17: in every program that makes closures by `counter()` and calls them, in
any order, each call returns the number of calls made so far of the same
closure, that call included, as an `int`: the `k`-th call of a closure returns
`k` (for `k` below `2 ^ 63`, the range of `int`), whatever calls are made of
other closures in between.  In the state the program has reached, the next call
of any closure `c` returns one more than the number of calls of `c`, and it
leaves unchanged what a call of any other closure returns. -/
theorem counter_kth_call_returns_k (ops : List Op) (h : Heap) (log : List (Nat × Int))
    (hrun : run [] [] ops = some (h, log)) :
    (∀ (i c : Nat) (v : Int), log[i]? = some (c, v) →
        1 ≤ callsOn c (log.take (i + 1))
        ∧ v = wrapInt (callsOn c (log.take (i + 1)))
        ∧ (InInt (callsOn c (log.take (i + 1))) → v = callsOn c (log.take (i + 1))))
    ∧ (∀ c, c < h.length → ∃ h' v, call h c = some (h', v)
        ∧ v = wrapInt ((callsOn c log : Int) + 1)
        ∧ (InInt ((callsOn c log : Int) + 1) → v = (callsOn c log : Int) + 1)
        ∧ ∀ c', c' ≠ c → (call h' c').map Prod.snd = (call h c').map Prod.snd) := by
  have hI := counterInv_run ops [] [] h log counterInv_init hrun
  have hL : LogOk log := logOk_run ops [] [] h log counterInv_init
    (by intro i c v hi; simp at hi) hrun
  refine ⟨?_, ?_⟩
  · intro i c v hi
    have hv := hL i c v hi
    refine ⟨?_, hv, fun hin => by rw [hv, wrapInt_of_inInt _ hin]⟩
    have hlt : i < log.length := by
      rcases List.getElem?_eq_some_iff.mp hi with ⟨hlt, _⟩
      exact hlt
    have htake : log.take (i + 1) = log.take i ++ [(c, v)] := by
      rw [List.take_succ, hi]
      rfl
    rw [htake, callsOn_append_same]
    omega
  · intro c hc
    obtain ⟨count, hg⟩ : ∃ count, h[c]? = some count :=
      ⟨h[c], List.getElem?_eq_getElem hc⟩
    have hcall : call h c = some (h.set c (addInt count 1), addInt count 1) := by
      simp [call, hg]
    obtain ⟨hv, _⟩ := counterInv_call h log hI c _ _ hcall
    exact ⟨_, _, hcall, hv, fun hin => by rw [hv, wrapInt_of_inInt _ hin],
      fun c' hne => call_other h _ c c' _ hcall hne⟩

theorem counter_kth_call_returns_k_witness :
    run [] [] mainOps = some ([3, 1], [(0, 1), (0, 2), (0, 3), (1, 1)])
    ∧ callsOn 0 (([(0, 1), (0, 2), (0, 3), (1, 1)] : List (Nat × Int)).take 3) = 3
    ∧ (3 : Int) = wrapInt (callsOn 0 (([(0, 1), (0, 2), (0, 3), (1, 1)] : List (Nat × Int)).take 3))
    ∧ callsOn 1 (([(0, 1), (0, 2), (0, 3), (1, 1)] : List (Nat × Int)).take 4) = 1
    ∧ (1 : Int) = wrapInt (callsOn 1 (([(0, 1), (0, 2), (0, 3), (1, 1)] : List (Nat × Int)).take 4))
    ∧ (∃ h' v, call [3, 1] 0 = some (h', v) ∧ v = 4) := by
  have h := counter_kth_call_returns_k mainOps [3, 1] [(0, 1), (0, 2), (0, 3), (1, 1)]
    (by decide)
  obtain ⟨h', v, hc, hv, _, _⟩ := h.2 0 (by decide)
  refine ⟨by decide, by decide, (h.1 2 0 3 (by decide)).2.1, by decide,
    (h.1 3 1 1 (by decide)).2.1, h', v, hc, ?_⟩
  rw [hv]
  decide

end Functions

namespace Generics

theorem stack_pop_push {α : Type} [Inhabited α] (s : Stack α) (x : α) :
    (s.Push x).Pop = (x, true, s) := by
  cases s with
  | mk items =>
    simp [Stack.Push, Stack.Pop, List.getD]

theorem stack_pushAll_items {α : Type} (xs : List α) :
    ∀ (s : Stack α), (pushAll s xs).items = s.items ++ xs := by
  induction xs with
  | nil => intro s; simp [pushAll]
  | cons x xs ih =>
    intro s
    have := ih (s.Push x)
    simp only [pushAll, List.foldl_cons] at this ⊢
    rw [this]
    simp [Stack.Push]

/-- The loop pops the items from the top down to the bottom. -/
theorem stack_popLoop_reverse {α : Type} [Inhabited α] (xs : List α) :
    ∀ (fuel : Nat), xs.length < fuel →
      popLoop fuel ({ items := xs } : Stack α) = some (xs.reverse, { items := [] }) := by
  induction xs using List.reverseRecOn with
  | nil =>
    intro fuel hf
    cases fuel with
    | zero => omega
    | succ fuel => simp [popLoop, Stack.IsEmpty]
  | append_singleton xs x ih =>
    intro fuel hf
    cases fuel with
    | zero => omega
    | succ fuel =>
      simp only [List.length_append, List.length_singleton] at hf
      have hpop : (({ items := xs ++ [x] } : Stack α)).Pop = (x, true, { items := xs }) :=
        stack_pop_push { items := xs } x
      have hne : (({ items := xs ++ [x] } : Stack α)).IsEmpty = false := by
        simp [Stack.IsEmpty]
      simp only [popLoop, hne, Bool.false_eq_true, if_false, hpop, ih fuel (by omega)]
      simp

/-- With fewer evaluations of the condition than items plus one the loop has not
ended. -/
theorem stack_popLoop_none {α : Type} [Inhabited α] (xs : List α) :
    ∀ (fuel : Nat), fuel ≤ xs.length →
      popLoop fuel ({ items := xs } : Stack α) = none := by
  induction xs using List.reverseRecOn with
  | nil =>
    intro fuel hf
    simp only [List.length_nil, Nat.le_zero] at hf
    subst hf
    rfl
  | append_singleton xs x ih =>
    intro fuel hf
    cases fuel with
    | zero => rfl
    | succ fuel =>
      simp only [List.length_append, List.length_singleton] at hf
      have hpop : (({ items := xs ++ [x] } : Stack α)).Pop = (x, true, { items := xs }) :=
        stack_pop_push { items := xs } x
      have hne : (({ items := xs ++ [x] } : Stack α)).IsEmpty = false := by
        simp [Stack.IsEmpty]
      simp only [popLoop, hne, Bool.false_eq_true, if_false, hpop, ih fuel (by omega)]

/-- C18: for every stack `s` and item `x`, `Push(x)` followed by `Pop` returns
`(x, true)` and leaves the stack as it was before the `Push`, and the stack is
not empty between the two.  Pushing `x1..xn` onto the empty stack and popping
until `IsEmpty` prints `xn..x1` and leaves the stack empty; the loop ends at the
evaluation number `n + 1` of its condition and not before, that is, after
exactly `n` pops. -/
theorem stack_push_pop_lifo {α : Type} [Inhabited α] (s : Stack α) (x : α) (xs : List α) :
    (s.Push x).Pop = (x, true, s)
    ∧ (s.Push x).IsEmpty = false
    ∧ ((s.Push x).Pop.2.2).items = s.items
    ∧ (pushAll { items := [] } xs).items = xs
    ∧ (∀ fuel, xs.length < fuel →
        popLoop fuel (pushAll { items := [] } xs) = some (xs.reverse, { items := [] }))
    ∧ (∀ fuel, fuel ≤ xs.length → popLoop fuel (pushAll { items := [] } xs) = none)
    ∧ xs.reverse.length = xs.length := by
  have hp : pushAll ({ items := [] } : Stack α) xs = { items := xs } := by
    have := stack_pushAll_items xs ({ items := [] } : Stack α)
    cases h : pushAll ({ items := [] } : Stack α) xs with
    | mk items' =>
      rw [h] at this
      simp at this
      rw [this]
  refine ⟨stack_pop_push s x, by simp [Stack.IsEmpty, Stack.Push], ?_, ?_, ?_, ?_, by simp⟩
  · rw [stack_pop_push]
  · rw [hp]
  · intro fuel hf
    rw [hp]
    exact stack_popLoop_reverse xs fuel hf
  · intro fuel hf
    rw [hp]
    exact stack_popLoop_none xs fuel hf

theorem stack_push_pop_lifo_witness :
    popLoop 4 (((({ items := [] } : Stack Int).Push 1).Push 2).Push 3)
      = some ([3, 2, 1], { items := [] })
    ∧ popLoop 3 (((({ items := [] } : Stack Int).Push 1).Push 2).Push 3) = none
    ∧ ((({ items := [1, 2] } : Stack Int).Push 3).Pop) = (3, true, { items := [1, 2] }) := by
  have h := stack_push_pop_lifo ({ items := [1, 2] } : Stack Int) 3 [1, 2, 3]
  exact ⟨h.2.2.2.2.1 4 (by decide), h.2.2.2.2.2.1 3 (by decide), h.1⟩

end Generics

namespace Middleware

theorem chainLoop_eq_foldr {H : Type} (middlewares : List (H → H)) :
    ∀ (k : Nat) (h : k ≤ middlewares.length) (f : H),
      chainLoop middlewares k h f = (middlewares.take k).foldr (fun m acc => m acc) f := by
  intro k
  induction k with
  | zero => intro h f; simp [chainLoop]
  | succ i ih =>
    intro h f
    have hlt : i < middlewares.length := h
    have ht : middlewares.take (i + 1) = middlewares.take i ++ [middlewares[i]] := by
      rw [List.take_succ, List.getElem?_eq_getElem hlt]
      rfl
    simp only [chainLoop]
    rw [ih, ht, List.foldr_append]
    rfl

/-- C19: `Chain(f, m1, ..., mn)` is `m1(m2(...(mn(f))...))`, the first
middleware listed being the outermost wrapper; `Chain(f)` with no middleware is
`f`; adding a middleware in front wraps the chain of the others; and the chain
of three middlewares, such as
`Chain(apiHandler, LoggingMiddleware, RecoveryMiddleware, AuthMiddleware)`, is
the manual nesting
`LoggingMiddleware(RecoveryMiddleware(AuthMiddleware(apiHandler)))`. -/
theorem chain_eq_nesting {H : Type} (f : H) (middlewares : List (H → H))
    (m LoggingMiddleware RecoveryMiddleware AuthMiddleware : H → H) (apiHandler : H) :
    Chain f middlewares = middlewares.foldr (fun m acc => m acc) f
    ∧ Chain f [] = f
    ∧ Chain f (m :: middlewares) = m (Chain f middlewares)
    ∧ Chain apiHandler [LoggingMiddleware, RecoveryMiddleware, AuthMiddleware]
        = LoggingMiddleware (RecoveryMiddleware (AuthMiddleware apiHandler)) := by
  have hfold : ∀ (g : H) (ms : List (H → H)), Chain g ms = ms.foldr (fun m acc => m acc) g := by
    intro g ms
    unfold Chain
    rw [chainLoop_eq_foldr, List.take_length]
  refine ⟨hfold f middlewares, rfl, ?_, rfl⟩
  rw [hfold, hfold, List.foldr_cons]

end Middleware

namespace Methods

theorem wrapInt_add_wrapInt (x y : Int) : wrapInt (x + wrapInt y) = wrapInt (x + y) := by
  rw [Int.add_comm, wrapInt_wrapInt_add, Int.add_comm]

/-- On a finite list that ends in `nil`, `Sum` returns as soon as the depth
allowed exceeds the length, and it returns the sum of the values as an `int`. -/
theorem sum_of_isList (heap : Heap) (vs : List Int) :
    ∀ (n : Option Nat) (fuel : Nat), IsList heap n vs → vs.length < fuel →
      Sum heap fuel n = some (wrapInt vs.sum) := by
  induction vs with
  | nil =>
    intro n fuel hl hf
    simp only [IsList] at hl
    subst hl
    cases fuel with
    | zero => simp at hf
    | succ fuel => rfl
  | cons v vs ih =>
    intro n fuel hl hf
    obtain ⟨a, node, hn, ha, hv, hrest⟩ := hl
    subst hn
    cases fuel with
    | zero => simp at hf
    | succ fuel =>
      simp only [List.length_cons] at hf
      simp only [Sum, ha, ih node.Next fuel hrest (by omega), hv, addInt, List.sum_cons,
        wrapInt_add_wrapInt]

/-- C20: `Sum` on the `nil` pointer returns 0; on every finite list that ends in
`nil` the recursion ends, at the depth of the length of the list plus one, and
`Sum` returns the sum of the `Value` fields of all nodes in `int` arithmetic,
which is the sum itself when that is in the range of `int`. -/
theorem node_sum_of_list (heap : Heap) (n : Option Nat) (vs : List Int)
    (hlist : IsList heap n vs) :
    (∀ fuel, Sum heap (fuel + 1) none = some 0)
    ∧ (∀ fuel, vs.length < fuel → Sum heap fuel n = some (wrapInt vs.sum))
    ∧ (InInt vs.sum → Sum heap (vs.length + 1) n = some vs.sum) := by
  refine ⟨fun fuel => rfl, fun fuel hf => sum_of_isList heap vs n fuel hlist hf, ?_⟩
  intro hin
  rw [sum_of_isList heap vs n _ hlist (Nat.lt_succ_self _), wrapInt_of_inInt _ hin]

theorem node_sum_of_list_witness :
    IsList mainHeap (some 1) [10, 20]
    ∧ Sum mainHeap 3 (some 1) = some 30
    ∧ Sum mainHeap 1 none = some 0 := by
  have hl : IsList mainHeap (some 1) [10, 20] :=
    ⟨1, _, rfl, rfl, rfl, 0, _, rfl, rfl, rfl, rfl⟩
  have h := node_sum_of_list mainHeap (some 1) [10, 20] hl
  exact ⟨hl, h.2.2 (by unfold InInt intBits; decide), h.1 0⟩

end Methods

/-- The result of an `int` operation is an `int`. -/
theorem wrapInt_inInt (x : Int) : InInt (wrapInt x) := by
  unfold InInt wrapInt intBits
  norm_num
  have h1 := Int.emod_nonneg (x + 9223372036854775808)
    (by norm_num : (18446744073709551616 : Int) ≠ 0)
  have h2 := Int.emod_lt_of_pos (x + 9223372036854775808)
    (by norm_num : (0 : Int) < 18446744073709551616)
  constructor <;> omega

/-- The result of an `int` operation differs from the mathematical result by a
multiple of `2 ^ 64`. -/
theorem wrapInt_emod (x : Int) : wrapInt x % 2 ^ intBits = x % 2 ^ intBits := by
  unfold wrapInt intBits
  norm_num
  omega

namespace Testing

/-- C23: for all ints `a` and `b`, `Add(a, b)` is `a + b` in Go `int`
arithmetic: it is an `int`, it is congruent to the sum of `a` and `b` modulo
`2 ^ 64`, and it is the sum itself when the sum is in the range of `int`.  The
documented tests pass: `Add(2, 3) = 5`, `Add(-1, -1) = -2`, `Add(0, 5) = 5`,
`Add(-3, 5) = 2`, and `TestAdd`, `TestAddNegative` and `TestAddTable` report no
error. -/
theorem add_returns_sum (a b : Int) :
    Add a b = addInt a b
    ∧ InInt (Add a b)
    ∧ Add a b % 2 ^ intBits = (a + b) % 2 ^ intBits
    ∧ (InInt (a + b) → Add a b = a + b)
    ∧ Add a b = Add b a
    ∧ Add 2 3 = 5 ∧ Add (-1) (-1) = -2 ∧ Add 0 5 = 5 ∧ Add (-3) 5 = 2
    ∧ TestAdd = [] ∧ TestAddNegative = [] ∧ TestAddTable = [] := by
  refine ⟨rfl, wrapInt_inInt _, wrapInt_emod _, fun h => wrapInt_of_inInt _ h, ?_,
    by decide, by decide, by decide, by decide, by decide, by decide, by decide⟩
  simp [Add, addInt, Int.add_comm]

theorem add_returns_sum_witness :
    Add 9223372036854775807 1 = -9223372036854775808
    ∧ InInt (Add 9223372036854775807 1)
    ∧ InInt (2 + 3) ∧ Add 2 3 = 2 + 3 := by
  have h : InInt (2 + 3) := by unfold InInt intBits; decide
  exact ⟨by decide, (add_returns_sum 9223372036854775807 1).2.1, h,
    (add_returns_sum 2 3).2.2.2.1 h⟩

end Testing

namespace Generics

/-- C26: `Pop` returns `ok = false` exactly when the stack is empty, that is when
`IsEmpty` is true.  On the empty stack it returns the zero value of `T` and
leaves the stack as it is.  On a stack that is not empty it returns the last
item of `items`, which is the item pushed last, with `ok = true`, and the stack
afterwards holds the items before it: it is shorter by exactly one. -/
theorem stack_pop_ok_iff_nonempty {α : Type} [Inhabited α] (s : Stack α) :
    (s.Pop.2.1 = false ↔ s.IsEmpty = true)
    ∧ (s.IsEmpty = true ↔ s.items = [])
    ∧ (s.IsEmpty = true → s.Pop = (default, false, s))
    ∧ (s.IsEmpty = false →
        ∃ rest x, s.items = rest ++ [x] ∧ s = ({ items := rest } : Stack α).Push x
          ∧ s.Pop = (x, true, { items := rest })
          ∧ s.Pop.2.2.items.length + 1 = s.items.length) := by
  cases s with
  | mk items =>
    induction items using List.reverseRecOn with
    | nil =>
      refine ⟨by simp [Stack.Pop, Stack.IsEmpty], by simp [Stack.IsEmpty],
        fun _ => by simp [Stack.Pop], fun h => by simp [Stack.IsEmpty] at h⟩
    | append_singleton rest x _ =>
      have hpop : (({ items := rest ++ [x] } : Stack α)).Pop = (x, true, { items := rest }) :=
        stack_pop_push { items := rest } x
      refine ⟨by simp [hpop, Stack.IsEmpty], by simp [Stack.IsEmpty],
        fun h => by simp [Stack.IsEmpty] at h, fun _ => ⟨rest, x, rfl, rfl, hpop, ?_⟩⟩
      rw [hpop]
      simp

theorem stack_pop_ok_iff_nonempty_witness :
    (({ items := [] } : Stack Int)).Pop = (0, false, { items := [] })
    ∧ (({ items := [1, 2, 3] } : Stack Int)).IsEmpty = false
    ∧ (({ items := [1, 2, 3] } : Stack Int)).Pop = (3, true, { items := [1, 2] })
    ∧ (({ items := [1, 2, 3] } : Stack Int)).Pop.2.1 ≠ false := by
  have h0 := stack_pop_ok_iff_nonempty ({ items := [] } : Stack Int)
  have h3 := stack_pop_ok_iff_nonempty ({ items := [1, 2, 3] } : Stack Int)
  have hne : (({ items := [1, 2, 3] } : Stack Int)).IsEmpty = false := by decide
  refine ⟨h0.2.2.1 (by decide), hne, by decide, fun hf => ?_⟩
  have := h3.1.mp hf
  rw [hne] at this
  cases this

end Generics

namespace Benchmarking

theorem maxInt_eq : maxInt = 9223372036854775807 := by
  unfold maxInt intBits
  norm_num

theorem inInt_iff (x : Int) : InInt x ↔ -9223372036854775808 ≤ x ∧ x ≤ 9223372036854775807 := by
  unfold InInt intBits
  norm_num
  intro _
  omega

theorem addInt_comm (a b : Int) : addInt a b = addInt b a := by
  simp [addInt, Int.add_comm]

theorem fibonacci_small (fuel : Nat) (n : Int) (h : n ≤ 1) :
    Fibonacci (fuel + 1) n = some n := by
  simp [Fibonacci, h]

/-- The recursion returns the Fibonacci number as soon as the depth allowed
exceeds `k`. -/
theorem fibonacci_eq_fibSeq :
    ∀ (k : Nat), (k : Int) ≤ 9223372036854775807 → ∀ (fuel : Nat), k < fuel →
      Fibonacci fuel k = some (fibSeq k) := by
  intro k
  induction k using Nat.strong_induction_on with
  | _ k ih =>
    intro hk fuel hf
    cases fuel with
    | zero => omega
    | succ fuel =>
      match k, ih, hk, hf with
      | 0, _, _, _ => rfl
      | 1, _, _, _ => rfl
      | j + 2, ih, hk, hf =>
        have h1 : wrapInt (((j + 2 : Nat) : Int) - 1) = ((j + 1 : Nat) : Int) := by
          rw [wrapInt_of_inInt _ ((inInt_iff _).mpr (by push_cast at hk ⊢; omega))]
          push_cast
          ring
        have h2 : wrapInt (((j + 2 : Nat) : Int) - 2) = ((j : Nat) : Int) := by
          rw [wrapInt_of_inInt _ ((inInt_iff _).mpr (by push_cast at hk ⊢; omega))]
          push_cast
          ring
        have hnot : ¬ (((j + 2 : Nat) : Int) ≤ 1) := by
          push_cast
          omega
        simp only [Fibonacci, hnot, if_false, h1, h2]
        rw [ih (j + 1) (by omega) (by push_cast at hk ⊢; omega) fuel (by omega),
          ih j (by omega) (by push_cast at hk ⊢; omega) fuel (by omega)]
        rfl

/-- The loop from the index `j + 2` on, with `a` and `b` the Fibonacci numbers
`j` and `j + 1`. -/
theorem fibLoop_eq_fibSeq (k : Nat) (hk : (k : Int) < 9223372036854775807) :
    ∀ (d j : Nat), j + 2 + d = k + 1 → ∀ (fuel : Nat), d < fuel →
      fibLoop k fuel (((j + 2 : Nat) : Int)) (fibSeq j) (fibSeq (j + 1))
        = some (fibSeq k) := by
  intro d
  induction d with
  | zero =>
    intro j hj fuel hf
    cases fuel with
    | zero => omega
    | succ fuel =>
      have hnot : ¬ (((j + 2 : Nat) : Int) ≤ (k : Int)) := by
        push_cast
        omega
      have hjk : j + 1 = k := by omega
      simp only [fibLoop, hnot, if_false, hjk]
  | succ d ih =>
    intro j hj fuel hf
    cases fuel with
    | zero => omega
    | succ fuel =>
      have hle : ((j + 2 : Nat) : Int) ≤ (k : Int) := by
        push_cast
        omega
      have hi : addInt ((j + 2 : Nat) : Int) 1 = ((j + 1 + 2 : Nat) : Int) := by
        unfold addInt
        rw [wrapInt_of_inInt _ ((inInt_iff _).mpr (by push_cast at hk ⊢; omega))]
        push_cast
        ring
      have hb : addInt (fibSeq j) (fibSeq (j + 1)) = fibSeq (j + 1 + 1) := by
        rw [addInt_comm]
        rfl
      simp only [fibLoop, hle, if_true, hi, hb]
      exact ih (j + 1) (by omega) fuel (by omega)

/-- For `n = math.MaxInt64` the condition `i <= n` of the loop holds for every
`int`, so the loop never ends. -/
theorem fibLoop_maxInt_none :
    ∀ (fuel : Nat) (i a b : Int), InInt i → fibLoop maxInt fuel i a b = none := by
  intro fuel
  induction fuel with
  | zero => intro i a b _; rfl
  | succ fuel ih =>
    intro i a b hi
    have hle : i ≤ maxInt := by
      rw [maxInt_eq]
      exact ((inInt_iff i).mp hi).2
    simp only [fibLoop, hle, if_true]
    exact ih _ _ _ (wrapInt_inInt _)

/-- A recursion that has returned returns the same with a larger bound on its
depth. -/
theorem fibonacci_fuel_succ :
    ∀ (fuel : Nat) (n x : Int), Fibonacci fuel n = some x → Fibonacci (fuel + 1) n = some x := by
  intro fuel
  induction fuel with
  | zero => intro n x h; simp [Fibonacci] at h
  | succ fuel ih =>
    intro n x h
    by_cases hn : n ≤ 1
    · simp only [Fibonacci, hn, if_true] at h ⊢
      exact h
    · simp only [Fibonacci, hn, if_false] at h
      cases h1 : Fibonacci fuel (wrapInt (n - 1)) with
      | none => simp [h1] at h
      | some x1 =>
        cases h2 : Fibonacci fuel (wrapInt (n - 2)) with
        | none => simp [h1, h2] at h
        | some x2 =>
          simp only [h1, h2] at h
          have e1 := ih _ _ h1
          have e2 := ih _ _ h2
          rw [Fibonacci]
          simp only [hn, if_false, e1, e2]
          exact h

theorem fibonacci_fuel_le (n x : Int) (fuel : Nat) (h : Fibonacci fuel n = some x) :
    ∀ (more : Nat), Fibonacci (fuel + more) n = some x := by
  intro more
  induction more with
  | zero => exact h
  | succ m ih => exact fibonacci_fuel_succ _ n x ih

/-- A loop that has ended ends the same with a larger bound on its
iterations. -/
theorem fibLoop_fuel_succ (n : Int) :
    ∀ (fuel : Nat) (i a b y : Int), fibLoop n fuel i a b = some y →
      fibLoop n (fuel + 1) i a b = some y := by
  intro fuel
  induction fuel with
  | zero => intro i a b y h; simp [fibLoop] at h
  | succ fuel ih =>
    intro i a b y h
    by_cases hi : i ≤ n
    · simp only [fibLoop, hi, if_true] at h
      rw [fibLoop]
      simp only [hi, if_true]
      exact ih _ _ _ _ h
    · simp only [fibLoop, hi, if_false] at h ⊢
      exact h

theorem fibLoop_fuel_le (n i a b y : Int) (fuel : Nat) (h : fibLoop n fuel i a b = some y) :
    ∀ (more : Nat), fibLoop n (fuel + more) i a b = some y := by
  intro more
  induction more with
  | zero => exact h
  | succ m ih => exact fibLoop_fuel_succ n _ i a b y ih

/-- Whatever `Fibonacci` returns on an `int` above 1 is the Fibonacci number. -/
theorem fibonacci_returns_fibSeq (k : Nat) (hk : (k : Int) ≤ 9223372036854775807)
    (fuel : Nat) (x : Int) (h : Fibonacci fuel k = some x) : x = fibSeq k := by
  have h1 := fibonacci_fuel_le k x fuel h (k + 1)
  have h2 := fibonacci_eq_fibSeq k hk (fuel + (k + 1)) (by omega)
  rw [h1] at h2
  exact Option.some.inj h2

/-- Whatever `FibonacciIterative` returns on an `int` above 1 is the Fibonacci
number. -/
theorem fibonacciIterative_returns_fibSeq (k : Nat) (h2 : 2 ≤ k)
    (hk : (k : Int) < 9223372036854775807)
    (fuel : Nat) (y : Int) (h : FibonacciIterative fuel k = some y) : y = fibSeq k := by
  have hnot : ¬ ((k : Int) ≤ 1) := by omega
  simp only [FibonacciIterative, hnot, if_false] at h
  have h1 := fibLoop_fuel_le k 2 0 1 y fuel h k
  have h3 := fibLoop_eq_fibSeq k hk (k - 1) 0 (by omega) (fuel + k) (by omega)
  have h4 : fibLoop (k : Int) (fuel + k) 2 0 1 = some (fibSeq k) := by
    simpa [fibSeq] using h3
  rw [h1] at h4
  exact Option.some.inj h4

/-- C25: `Fibonacci` and `FibonacciIterative` compute the same function under
Go's wrapping `int` arithmetic.  For every int `n <= 1`, negative `n` included,
both return `n` unchanged.  For every int `n` above 1 and below
`math.MaxInt64` both return, as soon as the bound on the depth of the recursion
and on the iterations of the loop exceeds `n`, and both return the Fibonacci
number `n` in `int` arithmetic; it is 55 for `n = 10`.  For every int `n`
whatsoever and whatever the bounds, two values the two functions return are
equal. -/
theorem fibonacci_eq_fibonacciIterative (n : Int) (hn : InInt n) :
    (n ≤ 1 → ∀ fuel, Fibonacci (fuel + 1) n = some n ∧ FibonacciIterative fuel n = some n)
    ∧ (1 < n → n < maxInt → ∀ fuel, n.toNat < fuel →
        Fibonacci fuel n = some (fibSeq n.toNat)
        ∧ FibonacciIterative fuel n = some (fibSeq n.toNat)
        ∧ Fibonacci fuel n = FibonacciIterative fuel n)
    ∧ (∀ fuel fuel' x y, Fibonacci fuel n = some x → FibonacciIterative fuel' n = some y →
        x = y)
    ∧ (Fibonacci 11 10 = some 55 ∧ FibonacciIterative 11 10 = some 55) := by
  have hn' := (inInt_iff n).mp hn
  refine ⟨?_, ?_, ?_, ⟨by decide, by decide⟩⟩
  · intro h fuel
    exact ⟨fibonacci_small fuel n h, by simp [FibonacciIterative, h]⟩
  · intro h1 hlt fuel hf
    rw [maxInt_eq] at hlt
    obtain ⟨k, rfl⟩ : ∃ k : Nat, n = (k : Int) := ⟨n.toNat, (Int.toNat_of_nonneg (by omega)).symm⟩
    simp only [Int.toNat_ofNat] at hf ⊢
    have hrec := fibonacci_eq_fibSeq k (by omega) fuel hf
    have hnot : ¬ ((k : Int) ≤ 1) := by omega
    have hk2 : 2 ≤ k := by omega
    have hit : FibonacciIterative fuel k = some (fibSeq k) := by
      simp only [FibonacciIterative, hnot, if_false]
      have := fibLoop_eq_fibSeq k hlt (k - 1) 0 (by omega) fuel (by omega)
      simpa [fibSeq] using this
    exact ⟨hrec, hit, by rw [hrec, hit]⟩
  · intro fuel fuel' x y hx hy
    by_cases h1 : n ≤ 1
    · cases fuel with
      | zero => simp [Fibonacci] at hx
      | succ fuel =>
        rw [fibonacci_small fuel n h1] at hx
        simp only [FibonacciIterative, h1, if_true] at hy
        rw [← Option.some.inj hx, ← Option.some.inj hy]
    · obtain ⟨k, rfl⟩ : ∃ k : Nat, n = (k : Int) :=
        ⟨n.toNat, (Int.toNat_of_nonneg (by omega)).symm⟩
      by_cases hmax : (k : Int) = 9223372036854775807
      · exfalso
        have hm : ((k : Nat) : Int) = maxInt := by rw [maxInt_eq, hmax]
        rw [hm] at hy
        have hnot : ¬ (maxInt ≤ 1) := by
          rw [maxInt_eq]
          decide
        simp only [FibonacciIterative, hnot, if_false] at hy
        rw [fibLoop_maxInt_none fuel' 2 0 1 ((inInt_iff 2).mpr (by decide))] at hy
        cases hy
      · rw [fibonacci_returns_fibSeq k (by omega) fuel x hx,
          fibonacciIterative_returns_fibSeq k (by omega) (by omega) fuel' y hy]

theorem fibonacci_eq_fibonacciIterative_witness :
    InInt 10 ∧ (1 : Int) < 10 ∧ (10 : Int) < maxInt
    ∧ Fibonacci 11 10 = FibonacciIterative 11 10
    ∧ FibonacciIterative 11 10 = some 55
    ∧ InInt (-3) ∧ Fibonacci 1 (-3) = some (-3) ∧ FibonacciIterative 0 (-3) = some (-3)
    ∧ (∀ x y, Fibonacci 20 10 = some x → FibonacciIterative 12 10 = some y → x = y) := by
  have h10 : InInt 10 := (inInt_iff 10).mpr (by decide)
  have h3 : InInt (-3) := (inInt_iff (-3)).mpr (by decide)
  have hlt : (10 : Int) < maxInt := by
    rw [maxInt_eq]
    decide
  have h := (fibonacci_eq_fibonacciIterative 10 h10).2.1 (by decide) hlt 11 (by decide)
  have hneg := (fibonacci_eq_fibonacciIterative (-3) h3).1 (by decide) 0
  exact ⟨h10, by decide, hlt, h.2.2, by decide, h3, hneg.1, hneg.2,
    fun x y => (fibonacci_eq_fibonacciIterative 10 h10).2.2.1 20 12 x y⟩

end Benchmarking

namespace Middleware

/-- C24: the handler returned by `AuthMiddleware(next)` does what `next` does,
calling it once, when the `Authorization` header of the request is exactly
`"Bearer valid-token"`.  For every other request `next` is not called, whatever
`next` is, and the handler replies by `http.Error` with status 401: with the
message `"Missing authorization token"` when the header is empty and
`"Invalid token"` otherwise.  The number of calls of `next` is 1 in the first
case and 0 in the others. -/
theorem authMiddleware_calls_next_iff_valid_token {W R : Type}
    (headerGet : R → String → String) (httpError : W → String → Nat → W)
    (next : HandlerFunc W R) (w : W) (r : R) :
    (headerGet r "Authorization" = "Bearer valid-token" →
        AuthMiddleware headerGet httpError next w r = next w r)
    ∧ (headerGet r "Authorization" = "" →
        AuthMiddleware headerGet httpError next w r
          = httpError w "Missing authorization token" 401)
    ∧ (headerGet r "Authorization" ≠ "" → headerGet r "Authorization" ≠ "Bearer valid-token" →
        AuthMiddleware headerGet httpError next w r = httpError w "Invalid token" 401)
    ∧ (headerGet r "Authorization" ≠ "Bearer valid-token" →
        ∀ next', AuthMiddleware headerGet httpError next' w r
          = AuthMiddleware headerGet httpError next w r)
    ∧ AuthMiddleware headerGet (countedError httpError) (counted next) (w, 0) r
        = (AuthMiddleware headerGet httpError next w r,
            if headerGet r "Authorization" = "Bearer valid-token" then 1 else 0)
    ∧ ((AuthMiddleware headerGet (countedError httpError) (counted next) (w, 0) r).2 = 1
        ↔ headerGet r "Authorization" = "Bearer valid-token") := by
  have hcount : AuthMiddleware headerGet (countedError httpError) (counted next) (w, 0) r
      = (AuthMiddleware headerGet httpError next w r,
          if headerGet r "Authorization" = "Bearer valid-token" then 1 else 0) := by
    unfold AuthMiddleware
    by_cases h1 : headerGet r "Authorization" = ""
    · have hne : ¬ ("" = "Bearer valid-token") := by decide
      simp [h1, hne, countedError]
    · by_cases h2 : headerGet r "Authorization" = "Bearer valid-token"
      · simp [h2, counted]
      · simp [h1, h2, countedError]
  refine ⟨?_, ?_, ?_, ?_, hcount, ?_⟩
  · intro h
    simp [AuthMiddleware, h]
  · intro h
    simp [AuthMiddleware, h, StatusUnauthorized]
  · intro h1 h2
    simp [AuthMiddleware, h1, h2, StatusUnauthorized]
  · intro h next'
    unfold AuthMiddleware
    by_cases h1 : headerGet r "Authorization" = ""
    · simp [h1]
    · simp [h1, h]
  · rw [hcount]
    by_cases h2 : headerGet r "Authorization" = "Bearer valid-token"
    · simp [h2]
    · simp [h2]

theorem authMiddleware_calls_next_iff_valid_token_witness :
    AuthMiddleware exampleHeaderGet exampleError exampleApiHandler
        { status := 200, body := "" } [("Authorization", "Bearer valid-token")]
      = { status := 200, body := "API endpoint" }
    ∧ AuthMiddleware exampleHeaderGet exampleError exampleApiHandler
        { status := 200, body := "" } []
      = { status := 401, body := "Missing authorization token\n" }
    ∧ AuthMiddleware exampleHeaderGet exampleError exampleApiHandler
        { status := 200, body := "" } [("Authorization", "Bearer other")]
      = { status := 401, body := "Invalid token\n" }
    ∧ (AuthMiddleware exampleHeaderGet (countedError exampleError) (counted exampleApiHandler)
        ({ status := 200, body := "" }, 0) [("Authorization", "Bearer other")]).2 = 0 := by
  have h1 := authMiddleware_calls_next_iff_valid_token exampleHeaderGet exampleError
    exampleApiHandler { status := 200, body := "" } [("Authorization", "Bearer valid-token")]
  have h2 := authMiddleware_calls_next_iff_valid_token exampleHeaderGet exampleError
    exampleApiHandler { status := 200, body := "" } []
  have h3 := authMiddleware_calls_next_iff_valid_token exampleHeaderGet exampleError
    exampleApiHandler { status := 200, body := "" } [("Authorization", "Bearer other")]
  refine ⟨?_, ?_, ?_, ?_⟩
  · rw [h1.1 (by decide)]
    decide
  · rw [h2.2.1 (by decide)]
    decide
  · rw [h3.2.2.1 (by decide) (by decide)]
    decide
  · rw [h3.2.2.2.2.1]
    decide

end Middleware

namespace Middleware

/-- Ticks that are `d` apart: a half-open window no longer than `m` intervals
holds at most `m` ticks. -/
theorem ticks_card_le (created d a len : Int) (m : Nat) (hd : 0 < d) (hlen : len ≤ d * m)
    (S : Finset Nat) (hS : ∀ k ∈ S, inWindow created d a len k = true) : S.card ≤ m := by
  rcases S.eq_empty_or_nonempty with he | hne
  · simp [he]
  · have hsub : S ⊆ Finset.Ico (S.min' hne) (S.min' hne + m) := by
      intro k hk
      have hmin := hS _ (S.min'_mem hne)
      have hk' := hS k hk
      simp only [inWindow, tickTime, decide_eq_true_eq] at hmin hk'
      have hle : S.min' hne ≤ k := S.min'_le k hk
      rw [Finset.mem_Ico]
      refine ⟨hle, ?_⟩
      by_contra hge
      have hge' : ((S.min' hne : Nat) : Int) + m ≤ (k : Int) := by
        have : S.min' hne + m ≤ k := by omega
        exact_mod_cast this
      have hmul : (((S.min' hne : Nat) : Int) + m + 1) * d ≤ ((k : Int) + 1) * d :=
        mul_le_mul_of_nonneg_right (by omega) (le_of_lt hd)
      have hexp : (((S.min' hne : Nat) : Int) + m + 1) * d
          = (((S.min' hne : Nat) : Int) + 1) * d + d * m := by ring
      omega
    calc S.card ≤ (Finset.Ico (S.min' hne) (S.min' hne + m)).card := Finset.card_le_card hsub
      _ = m := by simp

theorem ticksIn_le (created d a len : Int) (m : Nat) (hd : 0 < d) (hlen : len ≤ d * m)
    (bound : Nat) : ticksIn created d a len bound ≤ m := by
  have hnd : ((List.range bound).filter (inWindow created d a len)).Nodup :=
    (List.nodup_range bound).filter _
  unfold ticksIn
  rw [← List.toFinset_card_of_nodup hnd]
  apply ticks_card_le created d a len m hd hlen
  intro k hk
  rw [List.mem_toFinset, List.mem_filter] at hk
  exact hk.2

theorem tickInterval_pos (requestsPerSecond : Int) (h : 1 ≤ requestsPerSecond) :
    tickInterval requestsPerSecond = some ((Context.second : Int) / requestsPerSecond)
    ∧ 0 ≤ (Context.second : Int) / requestsPerSecond := by
  have hne : requestsPerSecond ≠ 0 := by omega
  have hs : (0 : Int) ≤ (Context.second : Int) := Int.ofNat_nonneg _
  refine ⟨?_, Int.ediv_nonneg hs (by omega)⟩
  simp only [tickInterval, hne, if_false]
  rw [Int.tdiv_eq_ediv hs (by omega)]

end Middleware
namespace Middleware

/-- C22: for every `requestsPerSecond >= 1` the ticker of `RateLimitMiddleware`
has the interval `time.Second / requestsPerSecond` in whole nanoseconds, rounded
down.  When `requestsPerSecond` divides the `10 ^ 9` nanoseconds of a second
(for 2 the interval is exactly 500 ms), no half-open window of one second holds
more than `requestsPerSecond` ticks; in general such a window holds at most `m`
ticks for every `m` intervals that cover a second.  For `requestsPerSecond = 3`
the interval is 333333333 ns, one nanosecond short of a third of a second, and
the window of one second that starts at the first tick holds four ticks. -/
theorem rateLimit_ticks_per_window (requestsPerSecond : Int) (hr : 1 ≤ requestsPerSecond) :
    (∃ d, tickInterval requestsPerSecond = some d
      ∧ d = (Context.second : Int) / requestsPerSecond
      ∧ (d * requestsPerSecond = Context.second → ∀ created a bound,
          ticksIn created d a Context.second bound ≤ requestsPerSecond.toNat)
      ∧ (0 < d → ∀ (m : Nat), (Context.second : Int) ≤ d * m → ∀ created a bound,
          ticksIn created d a Context.second bound ≤ m))
    ∧ tickInterval 2 = some (500 * RateLimit.millisecond)
    ∧ tickInterval 3 = some 333333333
    ∧ ticksIn 0 333333333 333333333 Context.second 4 = 4
    ∧ ¬ (ticksIn 0 333333333 333333333 Context.second 4 ≤ 3) := by
  obtain ⟨hd, hnn⟩ := tickInterval_pos requestsPerSecond hr
  refine ⟨⟨_, hd, rfl, ?_, ?_⟩, by decide, by decide, by decide, by decide⟩
  · intro hmul created a bound
    have hcast : ((requestsPerSecond.toNat : Nat) : Int) = requestsPerSecond :=
      Int.toNat_of_nonneg (by omega)
    have hpos : 0 < (Context.second : Int) / requestsPerSecond := by
      rcases lt_or_eq_of_le hnn with h | h
      · exact h
      · rw [← h] at hmul
        simp at hmul
        exact absurd hmul.symm (by decide)
    exact ticksIn_le created _ a _ _ hpos (by rw [hcast, hmul]) bound
  · intro hpos m hm created a bound
    exact ticksIn_le created _ a _ m hpos hm bound

theorem rateLimit_ticks_per_window_witness :
    (1 : Int) ≤ 2
    ∧ tickInterval 2 = some 500000000
    ∧ (500000000 : Int) * 2 = Context.second
    ∧ ticksIn 0 500000000 500000000 Context.second 10 = 2
    ∧ ticksIn 0 500000000 500000000 Context.second 10 ≤ 2 := by
  obtain ⟨⟨d, hd, _, hle, _⟩, _⟩ := rateLimit_ticks_per_window 2 (by decide)
  have hd2 : tickInterval 2 = some 500000000 := by decide
  rw [hd2] at hd
  simp only [Option.some.injEq] at hd
  subst hd
  exact ⟨by decide, hd2, by decide, by decide, hle (by decide) 0 500000000 10⟩

end Middleware

namespace Goroutines

theorem mutex_init_inv (n : Nat) : Inv n (init n) := by
  refine ⟨?_, ?_, ?_, ?_, ?_, ?_, rfl⟩
  · simp only [init, List.map_nil, List.sum_nil]
    decide
  all_goals simp [init]

/-- The invariant after goroutine `i` has moved from `pc` to `pc'`. -/
theorem mutex_set_inv (n : Nat) (s : State) (i : Nat) (pc pc' : TaskPc) (c : Int)
    (mu' : Bool) (wg' : Nat) (hI : Inv n s) (ht : s.tasks[i]? = some pc)
    (hpr : s.printed = none)
    (hc : ∀ S' : Nat, S' + stored pc = (s.tasks.map stored).sum + stored pc' →
      c = wrapInt (S' : Nat))
    (hmu : ∀ H' : Nat, H' + holds pc = (s.tasks.map holds).sum + holds pc' →
      H' = if mu' then 1 else 0)
    (hst : ∀ v, TaskPc.store v ∈ s.tasks.set i pc' → v = c)
    (hwg : ∀ W' : Nat, W' + wgPending pc = (s.tasks.map wgPending).sum + wgPending pc' →
      wg' = W') :
    Inv n { s with counter := c, mu := mu', wg := wg', tasks := s.tasks.set i pc' } := by
  refine ⟨hc _ (list_set_sum stored s.tasks i pc pc' ht),
    hmu _ (list_set_sum holds s.tasks i pc pc' ht), hst,
    hwg _ (list_set_sum wgPending s.tasks i pc pc' ht), ?_, ?_, hI.noPanic⟩
  · simp only [List.length_set]
    exact hI.launched
  · intro v hv
    simp only [hpr] at hv
    cases hv

theorem mutex_stepTask_inv (n : Nat) (s : State) (i : Nat) (pc : TaskPc) (s' : State)
    (hI : Inv n s) (ht : s.tasks[i]? = some pc) (h : stepTask s i pc = some s') :
    Inv n s' := by
  have hmem := List.getElem?_mem ht
  have hpend : wgPending pc ≤ s.wg := by
    rw [hI.wgOk]
    exact list_le_sum_of_mem wgPending s.tasks pc hmem
  have hhold : holds pc ≤ (s.tasks.map holds).sum :=
    list_le_sum_of_mem holds s.tasks pc hmem
  have hstoring : (s.tasks.map storing).sum ≤ (s.tasks.map holds).sum := by
    apply List.sum_le_sum
    intro x _
    cases x <;> simp [storing, holds]
  have hpr : pc ≠ .returned → s.printed = none := by
    intro hne
    cases hp : s.printed with
    | none => rfl
    | some v =>
      have := (hI.printedOk v hp).2.1
      have h1 : wgPending pc = 1 := by
        cases pc <;> simp_all [wgPending]
      omega
  have hkeep : ∀ pc', storing pc' = 0 → ∀ v, TaskPc.store v ∈ s.tasks.set i pc' →
      v = s.counter := by
    intro pc' h0 v hv
    rcases list_mem_set s.tasks i pc' _ hv with he | hm
    · rw [← he] at h0
      simp [storing] at h0
    · exact hI.storeOk v hm
  have hmuOk := hI.muOk
  have hcOk := hI.counterOk
  have hwOk := hI.wgOk
  cases pc with
  | start =>
    simp only [stepTask, Option.some.injEq] at h
    subst h
    exact mutex_set_inv n s i .start .lock s.counter s.mu s.wg hI ht (hpr (by simp))
      (fun S' hS => by
        simp only [stored] at hS
        rw [hcOk, show S' = (s.tasks.map stored).sum by omega])
      (fun H' hH => by
        simp only [holds] at hH
        rw [← hmuOk]
        omega)
      (hkeep .lock rfl)
      (fun W' hW => by
        simp only [wgPending] at hW
        omega)
  | lock =>
    simp only [stepTask] at h
    split at h
    · cases h
    · rename_i hmu
      simp only [Bool.not_eq_true] at hmu
      simp only [Option.some.injEq] at h
      subst h
      exact mutex_set_inv n s i .lock .load s.counter true s.wg hI ht (hpr (by simp))
        (fun S' hS => by
          simp only [stored] at hS
          rw [hcOk, show S' = (s.tasks.map stored).sum by omega])
        (fun H' hH => by
          simp only [holds] at hH
          simp only [hmu, Bool.false_eq_true, if_false] at hmuOk
          simp only [if_true]
          omega)
        (hkeep .load rfl)
        (fun W' hW => by
          simp only [wgPending] at hW
          omega)
  | load =>
    simp only [stepTask, Option.some.injEq] at h
    subst h
    exact mutex_set_inv n s i .load (.store s.counter) s.counter s.mu s.wg hI ht
      (hpr (by simp))
      (fun S' hS => by
        simp only [stored] at hS
        rw [hcOk, show S' = (s.tasks.map stored).sum by omega])
      (fun H' hH => by
        simp only [holds] at hH
        rw [← hmuOk]
        omega)
      (fun v hv => by
        rcases list_mem_set s.tasks i _ _ hv with he | hm
        · simp only [TaskPc.store.injEq] at he
          exact he
        · exact hI.storeOk v hm)
      (fun W' hW => by
        simp only [wgPending] at hW
        omega)
  | store v =>
    simp only [stepTask, Option.some.injEq] at h
    subst h
    have hv : v = s.counter := hI.storeOk v hmem
    have hmu1 : (s.tasks.map holds).sum = 1 := by
      simp only [holds] at hhold
      cases hm : s.mu with
      | true => simpa [hm] using hmuOk
      | false =>
        simp only [hm, Bool.false_eq_true, if_false] at hmuOk
        omega
    exact mutex_set_inv n s i (.store v) .unlock (addInt v 1) s.mu s.wg hI ht
      (hpr (by simp))
      (fun S' hS => by
        simp only [stored] at hS
        have hS' : S' = (s.tasks.map stored).sum + 1 := by omega
        rw [hS', hv, hcOk, addInt, wrapInt_wrapInt_add]
        push_cast
        rfl)
      (fun H' hH => by
        simp only [holds] at hH
        rw [← hmuOk]
        omega)
      (fun w hw => by
        exfalso
        have hsum := list_set_sum storing s.tasks i (.store v) .unlock ht
        simp only [storing] at hsum
        have hle := list_le_sum_of_mem storing _ _ hw
        simp only [storing] at hle
        omega)
      (fun W' hW => by
        simp only [wgPending] at hW
        omega)
  | unlock =>
    have hmu : s.mu = true := by
      simp only [holds] at hhold
      rw [hmuOk] at hhold
      cases hm : s.mu with
      | true => rfl
      | false => simp [hm] at hhold
    simp only [stepTask, hmu, if_true, Option.some.injEq] at h
    subst h
    exact mutex_set_inv n s i .unlock .wgDone s.counter false s.wg hI ht (hpr (by simp))
      (fun S' hS => by
        simp only [stored] at hS
        rw [hcOk, show S' = (s.tasks.map stored).sum by omega])
      (fun H' hH => by
        simp only [holds] at hH
        simp only [hmu, if_true] at hmuOk
        simp only [Bool.false_eq_true, if_false]
        omega)
      (hkeep .wgDone rfl)
      (fun W' hW => by
        simp only [wgPending] at hW
        omega)
  | wgDone =>
    simp only [wgPending] at hpend
    simp only [stepTask] at h
    cases hw : s.wg with
    | zero => omega
    | succ k =>
      simp only [hw, Option.some.injEq] at h
      subst h
      exact mutex_set_inv n s i .wgDone .returned s.counter s.mu k hI ht (hpr (by simp))
        (fun S' hS => by
          simp only [stored] at hS
          rw [hcOk, show S' = (s.tasks.map stored).sum by omega])
        (fun H' hH => by
          simp only [holds] at hH
          rw [← hmuOk]
          omega)
        (hkeep .returned rfl)
        (fun W' hW => by
          simp only [wgPending] at hW
          omega)
  | returned =>
    simp [stepTask] at h

end Goroutines
namespace Goroutines

theorem mutex_step_inv (n : Nat) (s : State) (a : Action) (s' : State)
    (hI : Inv n s) (h : step s a = some s') : Inv n s' := by
  unfold step at h
  simp only [hI.noPanic, Bool.false_eq_true, if_false] at h
  cases a with
  | launch =>
    simp only at h
    cases hk : s.toLaunch with
    | zero => simp [hk] at h
    | succ k =>
      simp only [hk, Option.some.injEq] at h
      subst h
      have hl := hI.launched
      refine ⟨?_, ?_, ?_, ?_, ?_, ?_, rfl⟩
      · simpa [stored] using hI.counterOk
      · simpa [holds] using hI.muOk
      · intro v hv
        simp only [List.mem_append, List.mem_singleton] at hv
        rcases hv with hv | hv
        · exact hI.storeOk v hv
        · cases hv
      · simp [wgPending, hI.wgOk]
      · simp only [List.length_append, List.length_singleton]
        omega
      · intro v hv
        have := (hI.printedOk v hv).1
        omega
  | wait =>
    simp only at h
    split at h
    · rename_i hc
      simp only [Option.some.injEq] at h
      subst h
      refine ⟨hI.counterOk, hI.muOk, hI.storeOk, hI.wgOk, hI.launched, ?_, rfl⟩
      intro v hv
      simp only [Option.some.injEq] at hv
      exact ⟨hc.1, hc.2.1, hv.symm⟩
    · cases h
  | task i =>
    simp only at h
    cases ht : s.tasks[i]? with
    | none => simp [ht] at h
    | some pc =>
      simp only [ht] at h
      exact mutex_stepTask_inv n s i pc s' hI ht h

theorem mutex_step_measure (s : State) (a : Action) (s' : State)
    (h : step s a = some s') : measure s' < measure s := by
  unfold step at h
  split at h
  · cases h
  rename_i hp
  simp only [Bool.not_eq_true] at hp
  cases a with
  | launch =>
    simp only at h
    cases hk : s.toLaunch with
    | zero => simp [hk] at h
    | succ k =>
      simp only [hk, Option.some.injEq] at h
      subst h
      simp only [measure, hk, hp, List.map_append, List.sum_append, List.map_cons,
        List.map_nil, List.sum_cons, List.sum_nil, taskRank]
      omega
  | wait =>
    simp only at h
    split at h
    · rename_i hc
      simp only [Option.some.injEq] at h
      subst h
      simp [measure, hc.2.2, hp]
    · cases h
  | task i =>
    simp only at h
    cases ht : s.tasks[i]? with
    | none => simp [ht] at h
    | some pc =>
      simp only [ht] at h
      have key : ∀ (pc' : TaskPc) (c : Int) (m : Bool) (w : Nat), taskRank pc' < taskRank pc →
          measure { s with counter := c, mu := m, wg := w, tasks := s.tasks.set i pc' }
            < measure s := by
        intro pc' c m w hlt
        have := list_set_sum taskRank s.tasks i pc pc' ht
        simp only [measure]
        omega
      have kpanic : measure { s with panicked := true } < measure s := by
        simp [measure, hp]
      cases pc with
      | start =>
        simp only [stepTask, Option.some.injEq] at h
        subst h
        exact key .lock s.counter s.mu s.wg (by decide)
      | lock =>
        simp only [stepTask] at h
        split at h
        · cases h
        · simp only [Option.some.injEq] at h
          subst h
          exact key .load s.counter true s.wg (by decide)
      | load =>
        simp only [stepTask, Option.some.injEq] at h
        subst h
        exact key (.store s.counter) s.counter s.mu s.wg (by simp [taskRank])
      | store v =>
        simp only [stepTask, Option.some.injEq] at h
        subst h
        exact key .unlock (addInt v 1) s.mu s.wg (by simp [taskRank])
      | unlock =>
        simp only [stepTask] at h
        split at h
        · simp only [Option.some.injEq] at h
          subst h
          exact key .wgDone s.counter false s.wg (by decide)
        · simp only [Option.some.injEq] at h
          subst h
          exact kpanic
      | wgDone =>
        simp only [stepTask] at h
        cases hw : s.wg with
        | zero =>
          simp only [hw, Option.some.injEq] at h
          subst h
          exact kpanic
        | succ k =>
          simp only [hw, Option.some.injEq] at h
          subst h
          exact key .returned s.counter s.mu k (by decide)
      | returned => simp [stepTask] at h

/-- A goroutine that holds `mu` can take its next step. -/
theorem mutex_holder_moves (n : Nat) (s : State) (hI : Inv n s) (i : Nat) (pc : TaskPc)
    (ht : s.tasks[i]? = some pc) (hh : holds pc = 1) : ∃ s', step s (.task i) = some s' := by
  simp only [step, hI.noPanic, Bool.false_eq_true, if_false, ht]
  cases pc with
  | load => exact ⟨_, rfl⟩
  | store v => exact ⟨_, rfl⟩
  | unlock =>
    simp only [stepTask]
    split
    · exact ⟨_, rfl⟩
    · exact ⟨_, rfl⟩
  | start => simp [holds] at hh
  | lock => simp [holds] at hh
  | wgDone => simp [holds] at hh
  | returned => simp [holds] at hh

/-- When no goroutine can move, `main` has printed the counter. -/
theorem mutex_stuck (n : Nat) (s : State) (hI : Inv n s) (hst : Stuck step s) :
    ∃ v, s.printed = some v := by
  have hp := hI.noPanic
  have hnone : ∀ pc ∈ s.tasks, holds pc = 0 := by
    intro pc hm
    obtain ⟨i, ht⟩ := List.getElem?_of_mem hm
    by_contra hne
    have h1 : holds pc = 1 := by
      cases pc <;> simp_all [holds]
    obtain ⟨s', hs⟩ := mutex_holder_moves n s hI i pc ht h1
    rw [hst (.task i)] at hs
    cases hs
  have hmu : s.mu = false := by
    have h0 := list_sum_eq_zero_of_forall holds s.tasks hnone
    have := hI.muOk
    rw [h0] at this
    cases hm : s.mu with
    | false => rfl
    | true => simp [hm] at this
  have hdone : ∀ pc ∈ s.tasks, pc = .returned := by
    intro pc hm
    obtain ⟨i, ht⟩ := List.getElem?_of_mem hm
    have hh := hnone pc hm
    have hs := hst (.task i)
    simp only [step, hp, Bool.false_eq_true, if_false, ht] at hs
    cases pc with
    | returned => rfl
    | start => simp [stepTask] at hs
    | lock => simp [stepTask, hmu] at hs
    | load => simp [holds] at hh
    | store v => simp [holds] at hh
    | unlock => simp [holds] at hh
    | wgDone =>
      simp only [stepTask] at hs
      cases hw : s.wg <;> simp [hw] at hs
  have hl : s.toLaunch = 0 := by
    have := hst .launch
    cases hk : s.toLaunch with
    | zero => rfl
    | succ k => simp [step, hp, hk] at this
  have hwg : s.wg = 0 := by
    rw [hI.wgOk]
    apply list_sum_eq_zero_of_forall
    intro pc hm
    rw [hdone pc hm]
    rfl
  cases hpr : s.printed with
  | some v => exact ⟨v, rfl⟩
  | none =>
    have := hst .wait
    simp [step, hp, hl, hwg, hpr] at this

theorem mutex_reach (n : Nat) (sched : List Action) (s : State)
    (h : runSched step (init n) sched = some s) :
    Inv n s ∧ sched.length + measure s ≤ 7 * n + 2
      ∧ ∃ rest s' v, runSched step s rest = some s' ∧ s'.printed = some v := by
  have hI : Inv n s := runSched_inv step (Inv n) (mutex_step_inv n) sched _ _
    (mutex_init_inv n) h
  refine ⟨hI, ?_, ?_⟩
  · have := runSched_length step measure mutex_step_measure sched _ _ h
    simpa [measure, init] using this
  · obtain ⟨rest, s', hr, hst⟩ :=
      exists_run_to_stuck step measure mutex_step_measure _ s (Nat.le_refl _)
    have hI' : Inv n s' := runSched_inv step (Inv n) (mutex_step_inv n) rest _ _ hI hr
    obtain ⟨v, hv⟩ := mutex_stuck n s' hI' hst
    exact ⟨rest, s', v, hr, hv⟩

end Goroutines
theorem list_sum_le_length {α : Type} (f : α → Nat) :
    ∀ (l : List α), (∀ x ∈ l, f x ≤ 1) → (l.map f).sum ≤ l.length := by
  intro l
  induction l with
  | nil => intro _; simp
  | cons y ys ih =>
    intro h
    have h1 := h y (List.mem_cons_self _ _)
    have h2 := ih (fun x hx => h x (List.mem_cons_of_mem _ hx))
    simp only [List.map_cons, List.sum_cons, List.length_cons]
    omega

theorem list_sum_eq_length {α : Type} (f : α → Nat) :
    ∀ (l : List α), (∀ x ∈ l, f x = 1) → (l.map f).sum = l.length := by
  intro l
  induction l with
  | nil => intro _; simp
  | cons y ys ih =>
    intro h
    have h1 := h y (List.mem_cons_self _ _)
    have h2 := ih (fun x hx => h x (List.mem_cons_of_mem _ hx))
    simp only [List.map_cons, List.sum_cons, List.length_cons]
    omega

theorem list_sum_eq_zero_imp {α : Type} (f : α → Nat) :
    ∀ (l : List α), (l.map f).sum = 0 → ∀ x ∈ l, f x = 0 := by
  intro l h x hx
  have := list_le_sum_of_mem f l x hx
  omega

theorem wrapInt_natCast (k : Nat) (h : (k : Int) < 2 ^ 63) : wrapInt (k : Int) = k := by
  apply wrapInt_of_inInt
  unfold InInt intBits
  norm_num at h ⊢
  constructor <;> omega

namespace Goroutines

/-- C21: in every state the counter example can reach, for any number `n` of
goroutines and any interleaving of their steps (`mu.Lock()`, the read and the
write of `counter++`, `mu.Unlock()`, `wg2.Done()`): no goroutine panics; at most
one goroutine holds `mu`; `counter` is the number of goroutines that have done
their `counter++`; and whenever `mu` is unlocked, `counter` is the number of
goroutines that have completed their critical section (as an `int`, the number
itself for `n` below `2 ^ 63`).  When `wg2.Wait()` has returned, all `n`
goroutines have returned and the value printed is `n`.  Every run is finite and
can be carried on until `main` prints. -/
theorem mutex_counter_counts_completed (n : Nat) (sched : List Action) (s : State)
    (h : runSched step (init n) sched = some s) :
    s.panicked = false
    ∧ (s.tasks.map holds).sum ≤ 1
    ∧ s.counter = wrapInt ((s.tasks.map stored).sum : Nat)
    ∧ (s.tasks.map completed).sum ≤ (s.tasks.map stored).sum
    ∧ (s.tasks.map stored).sum ≤ n
    ∧ (s.mu = false → s.counter = wrapInt ((s.tasks.map completed).sum : Nat))
    ∧ ((n : Int) < 2 ^ 63 → s.mu = false →
        s.counter = ((s.tasks.map completed).sum : Nat))
    ∧ (∀ v, s.printed = some v →
        (∀ pc ∈ s.tasks, pc = .returned) ∧ s.tasks.length = n
        ∧ (s.tasks.map completed).sum = n ∧ v = wrapInt (n : Nat)
        ∧ ((n : Int) < 2 ^ 63 → v = n))
    ∧ sched.length + measure s ≤ 7 * n + 2
    ∧ (∃ rest s' v, runSched step s rest = some s' ∧ s'.printed = some v) := by
  obtain ⟨hI, hlen, hex⟩ := mutex_reach n sched s h
  have hholds : (s.tasks.map holds).sum ≤ 1 := by
    rw [hI.muOk]
    split <;> omega
  have hcs : (s.tasks.map completed).sum ≤ (s.tasks.map stored).sum := by
    apply List.sum_le_sum
    intro x _
    cases x <;> simp [completed, stored]
  have hsn : (s.tasks.map stored).sum ≤ n := by
    have h1 := list_sum_le_length stored s.tasks (fun x _ => by cases x <;> simp [stored])
    have h2 := hI.launched
    omega
  have hunl : s.mu = false → (s.tasks.map completed).sum = (s.tasks.map stored).sum := by
    intro hmu
    have h0 : (s.tasks.map holds).sum = 0 := by
      rw [hI.muOk]
      simp [hmu]
    have hz := list_sum_eq_zero_imp holds s.tasks h0
    congr 1
    apply List.map_congr_left
    intro x hx
    have := hz x hx
    cases x <;> simp_all [completed, stored, holds]
  refine ⟨hI.noPanic, hholds, hI.counterOk, hcs, hsn, ?_, ?_, ?_, hlen, hex⟩
  · intro hmu
    rw [hunl hmu]
    exact hI.counterOk
  · intro hn hmu
    rw [hunl hmu, hI.counterOk]
    apply wrapInt_natCast
    have : (((s.tasks.map stored).sum : Nat) : Int) ≤ (n : Int) := by exact_mod_cast hsn
    omega
  · intro v hv
    obtain ⟨hl, hw, hvc⟩ := hI.printedOk v hv
    have hz : (s.tasks.map wgPending).sum = 0 := by
      rw [← hI.wgOk]
      exact hw
    have hret : ∀ pc ∈ s.tasks, pc = .returned := by
      intro pc hm
      have := list_sum_eq_zero_imp wgPending s.tasks hz pc hm
      cases pc <;> simp_all [wgPending]
    have hlength : s.tasks.length = n := by
      have := hI.launched
      omega
    have hcomp : (s.tasks.map completed).sum = n := by
      rw [list_sum_eq_length completed s.tasks (fun x hx => by rw [hret x hx]; rfl), hlength]
    have hst : (s.tasks.map stored).sum = n := by
      rw [list_sum_eq_length stored s.tasks (fun x hx => by rw [hret x hx]; rfl), hlength]
    have hvn : v = wrapInt (n : Nat) := by
      rw [hvc, hI.counterOk, hst]
    exact ⟨hret, hlength, hcomp, hvn, fun hn => by rw [hvn]; exact wrapInt_natCast n hn⟩

theorem mutex_counter_counts_completed_witness :
    runSched step (init 3) demoSched = some demoFinal
    ∧ demoFinal.printed = some 3
    ∧ runSched step (init 3) (demoSched.take 7) = some demoMid
    ∧ step demoMid (.task 0) = none
    ∧ (demoMid.tasks.map holds).sum ≤ 1
    ∧ (∃ rest s', runSched step (init 1000) rest = some s' ∧ s'.printed = some 1000) := by
  have hmid := mutex_counter_counts_completed 3 (demoSched.take 7) demoMid (by decide)
  obtain ⟨rest, s', v, hr, hv⟩ :=
    (mutex_counter_counts_completed 1000 [] (init 1000) rfl).2.2.2.2.2.2.2.2.2
  have hfin := (mutex_counter_counts_completed 1000 rest s' hr).2.2.2.2.2.2.2.1 v hv
  have hv1000 : v = 1000 := by
    have := hfin.2.2.2.2 (by norm_num)
    exact_mod_cast this
  rw [hv1000] at hv
  exact ⟨by decide, rfl, by decide, by decide, hmid.2.1, rest, s', hr, hv⟩

end Goroutines

end GoBasics
